import Mathlib

/-!
Verification of the kmerspace repository: a locality-sensitive partition of
k-mer space (4-letter alphabet, Levenshtein metric) into islands grown by BFS
around centers, plus the supporting edit-distance oracle, packed codec,
greedy independent-set tool and input readers.

The C sources are shallowly embedded below: packed k-mers are `Nat` values
(2 bits per symbol), 64-bit wrap-around is written as an explicit `% 2 ^ 64`
where the C code relies on it, the label store is a `List Int`, and every
loop becomes a fold or structural recursion in the source's iteration order.
-/

set_option linter.unusedSectionVars false
set_option linter.unusedVariables false

namespace Kmerspace

/-- Reference Levenshtein distance between two lists, by the textbook
recursion on heads: unit cost for insertion, deletion and substitution. -/
def lev {α : Type} [DecidableEq α] : List α → List α → Nat
  | [], ys => ys.length
  | x :: xs, [] => (x :: xs).length
  | x :: xs, y :: ys =>
      min (min (lev xs ys + (if x = y then 0 else 1)) (lev xs (y :: ys) + 1))
        (lev (x :: xs) ys + 1)
termination_by xs ys => (xs.length, ys.length)

variable {α : Type} [DecidableEq α]

theorem lev_nil_left (ys : List α) : lev [] ys = ys.length := by
  simp [lev]

theorem lev_nil_right (xs : List α) : lev xs [] = xs.length := by
  cases xs <;> simp [lev]

theorem lev_cons_cons (x y : α) (xs ys : List α) :
    lev (x :: xs) (y :: ys) =
      min (min (lev xs ys + (if x = y then 0 else 1)) (lev xs (y :: ys) + 1))
        (lev (x :: xs) ys + 1) := by
  rw [lev]

/-- Prepending to the second argument raises the distance by at most 1. -/
theorem lev_le_add_right (xs : List α) (y : α) (ys : List α) :
    lev xs (y :: ys) ≤ lev xs ys + 1 := by
  cases xs with
  | nil => simp [lev_nil_left]
  | cons a as =>
      rw [lev_cons_cons]
      have h1 : lev as ys ≤ lev as ys := le_refl _
      omega

/-- Prepending to the first argument raises the distance by at most 1. -/
theorem lev_le_add_left (x : α) (xs ys : List α) :
    lev (x :: xs) ys ≤ lev xs ys + 1 := by
  cases ys with
  | nil => simp [lev_nil_right]
  | cons y b =>
      rw [lev_cons_cons]
      omega

/-- Dropping the head of the first argument lowers the distance by at most 1. -/
theorem lev_drop_left (x : α) (xs ys : List α) :
    lev xs ys ≤ lev (x :: xs) ys + 1 := by
  induction ys with
  | nil => simp [lev_nil_right]; omega
  | cons y b ih =>
      rw [lev_cons_cons]
      have h1 : lev xs (y :: b) ≤ lev xs b + 1 := lev_le_add_right xs y b
      rcases ite_eq_or_eq (x = y) 0 1 with h | h <;> rw [h] <;> omega

/-- Dropping the head of the second argument lowers the distance by at most 1. -/
theorem lev_drop_right (xs : List α) (y : α) (ys : List α) :
    lev xs ys ≤ lev xs (y :: ys) + 1 := by
  induction xs with
  | nil => simp [lev_nil_left]; omega
  | cons a as ih =>
      rw [lev_cons_cons]
      have h1 : lev (a :: as) ys ≤ lev as ys + 1 := lev_le_add_left a as ys
      rcases ite_eq_or_eq (a = y) 0 1 with h | h <;> rw [h] <;> omega

/-- A common head cancels. -/
theorem lev_cons_same (x : α) (xs ys : List α) :
    lev (x :: xs) (x :: ys) = lev xs ys := by
  rw [lev_cons_cons]
  have h1 := lev_drop_right xs x ys
  have h2 := lev_drop_left x xs ys
  simp only [eq_self_iff_true, if_true]
  omega

/-- Distance never decreases when one symbol is prepended to each side. -/
theorem lev_le_cons_cons (x y : α) (xs ys : List α) :
    lev xs ys ≤ lev (x :: xs) (y :: ys) := by
  rw [lev_cons_cons]
  have h1 := lev_drop_right xs y ys
  have h2 := lev_drop_left x xs ys
  omega

/-- The length difference is a lower bound on the distance. -/
theorem length_sub_le_lev (xs ys : List α) :
    xs.length - ys.length ≤ lev xs ys ∧ ys.length - xs.length ≤ lev xs ys := by
  induction xs generalizing ys with
  | nil => simp [lev_nil_left]
  | cons x xs ih =>
      induction ys with
      | nil => simp [lev_nil_right]
      | cons y b ihy =>
          rw [lev_cons_cons]
          have h1 := ih b
          have h2 := ih (y :: b)
          have h3 := ihy
          simp only [List.length_cons] at *
          omega

theorem lev_self (xs : List α) : lev xs xs = 0 := by
  induction xs with
  | nil => simp [lev_nil_left]
  | cons x l ih => rw [lev_cons_same]; exact ih

theorem lev_comm : ∀ xs ys : List α, lev xs ys = lev ys xs
  | [], ys => by simp [lev_nil_left, lev_nil_right]
  | x :: xs, [] => by simp [lev_nil_left, lev_nil_right]
  | x :: xs, y :: ys => by
      rw [lev_cons_cons, lev_cons_cons]
      rw [lev_comm xs ys, lev_comm xs (y :: ys), lev_comm (x :: xs) ys]
      have hc : (if x = y then 0 else 1) = (if y = x then 0 else 1) := by
        by_cases h : x = y
        · simp [h]
        · rw [if_neg h, if_neg (fun hyx : y = x => h hyx.symm)]
      rw [hc]
      omega
termination_by xs ys => (xs.length, ys.length)

/-- One single-symbol edit step between lists: insertion, deletion or
substitution at an arbitrary position. -/
inductive Edit : List α → List α → Prop
  | ins (x : α) (l : List α) : Edit l (x :: l)
  | del (x : α) (l : List α) : Edit (x :: l) l
  | sub (x y : α) (l : List α) : Edit (x :: l) (y :: l)
  | lift (a : α) {l l' : List α} : Edit l l' → Edit (a :: l) (a :: l')

/-- A chain of exactly `n` single edits. -/
inductive NSteps : Nat → List α → List α → Prop
  | refl (l : List α) : NSteps 0 l l
  | step {n : Nat} {a b c : List α} : Edit a b → NSteps n b c → NSteps (n + 1) a c

theorem NSteps.trans {m n : Nat} {a b c : List α}
    (h1 : NSteps m a b) (h2 : NSteps n b c) : NSteps (m + n) a c := by
  induction h1 with
  | refl l => simpa using h2
  | step e _ ih =>
      have := NSteps.step e (ih h2)
      simpa [Nat.add_right_comm] using this

theorem NSteps.snoc {n : Nat} {a b c : List α}
    (h1 : NSteps n a b) (e : Edit b c) : NSteps (n + 1) a c :=
  h1.trans (NSteps.step e (NSteps.refl c))

theorem NSteps.lift {n : Nat} {l l' : List α} (a : α)
    (h : NSteps n l l') : NSteps n (a :: l) (a :: l') := by
  induction h with
  | refl l => exact NSteps.refl _
  | step e _ ih => exact NSteps.step (Edit.lift a e) ih

/-- Substituting the head changes the distance to any list by at most 1. -/
theorem lev_sub_head (x y : α) (l : List α) :
    ∀ c : List α, lev (x :: l) c ≤ lev (y :: l) c + 1 := by
  intro c
  induction c with
  | nil => simp [lev_nil_right]
  | cons z cs ih =>
      rw [lev_cons_cons, lev_cons_cons]
      rcases ite_eq_or_eq (x = z) 0 1 with h1 | h1 <;>
        rcases ite_eq_or_eq (y = z) 0 1 with h2 | h2 <;>
          rw [h1, h2] <;> omega

/-- A single edit changes the distance to any third list by at most 1. -/
theorem lev_le_of_edit {a b : List α} (e : Edit a b) :
    ∀ c : List α, lev a c ≤ lev b c + 1 := by
  induction e with
  | ins x l => exact fun c => lev_drop_left x l c
  | del x l => exact fun c => lev_le_add_left x l c
  | sub x y l => exact fun c => lev_sub_head x y l c
  | lift a e ih =>
      intro c
      induction c with
      | nil =>
          have h := ih []
          simp [lev_nil_right] at *
          omega
      | cons z cs ihc =>
          rw [lev_cons_cons, lev_cons_cons]
          have h1 := ih cs
          have h2 := ih (z :: cs)
          omega

/-- Each edit chain is at least as long as the Levenshtein distance. -/
theorem lev_le_nsteps {n : Nat} {a b : List α} (h : NSteps n a b) :
    lev a b ≤ n := by
  induction h with
  | refl l => simp [lev_self]
  | step e _ ih =>
      exact le_trans (le_trans (lev_le_of_edit e _) (Nat.add_le_add_right ih 1))
        (le_refl _)

/-- An edit chain realizing the Levenshtein distance exists. -/
theorem nsteps_lev : ∀ a b : List α, NSteps (lev a b) a b
  | [], ys => by
      induction ys with
      | nil => simpa [lev_nil_left] using NSteps.refl ([] : List α)
      | cons y l ih =>
          have h : NSteps (lev ([] : List α) l + 1) [] (y :: l) :=
            NSteps.snoc (by simpa [lev_nil_left] using ih) (Edit.ins y l)
          simpa [lev_nil_left] using h
  | x :: xs, [] => by
      have h : NSteps (lev xs ([] : List α) + 1) (x :: xs) [] :=
        NSteps.step (Edit.del x xs) (nsteps_lev xs [])
      simpa [lev_nil_right] using h
  | x :: xs, y :: ys => by
      rw [lev_cons_cons]
      rcases min_choice (min (lev xs ys + (if x = y then 0 else 1))
          (lev xs (y :: ys) + 1)) (lev (x :: xs) ys + 1) with h | h <;> rw [h]
      · rcases min_choice (lev xs ys + (if x = y then 0 else 1))
            (lev xs (y :: ys) + 1) with h2 | h2 <;> rw [h2]
        · by_cases hxy : x = y
          · subst hxy
            simpa using NSteps.lift x (nsteps_lev xs ys)
          · rw [if_neg hxy]
            exact NSteps.step (Edit.sub x y xs) (NSteps.lift y (nsteps_lev xs ys))
        · exact NSteps.step (Edit.del x xs) (nsteps_lev xs (y :: ys))
      · exact NSteps.snoc (nsteps_lev (x :: xs) ys) (Edit.ins y ys)
termination_by a b => (a.length, b.length)

/-- Triangle inequality for the Levenshtein distance. -/
theorem lev_triangle (a b c : List α) : lev a c ≤ lev a b + lev b c :=
  lev_le_nsteps ((nsteps_lev a b).trans (nsteps_lev b c))

theorem edit_snoc_ins (x : α) (l : List α) : Edit l (l ++ [x]) := by
  induction l with
  | nil => exact Edit.ins x []
  | cons a as ih => exact Edit.lift a ih

theorem edit_snoc_del (x : α) (l : List α) : Edit (l ++ [x]) l := by
  induction l with
  | nil => exact Edit.del x []
  | cons a as ih => exact Edit.lift a ih

theorem edit_snoc_sub (x y : α) (l : List α) : Edit (l ++ [x]) (l ++ [y]) := by
  induction l with
  | nil => exact Edit.sub x y []
  | cons a as ih => exact Edit.lift a ih

theorem edit_append_single {u v : List α} (e : Edit u v) (a : α) :
    Edit (u ++ [a]) (v ++ [a]) := by
  induction e with
  | ins x l => exact Edit.ins x (l ++ [a])
  | del x l => exact Edit.del x (l ++ [a])
  | sub x y l => exact Edit.sub x y (l ++ [a])
  | lift b e ih => exact Edit.lift b ih

theorem edit_reverse {u v : List α} (e : Edit u v) :
    Edit u.reverse v.reverse := by
  induction e with
  | ins x l => simpa using edit_snoc_ins x l.reverse
  | del x l => simpa using edit_snoc_del x l.reverse
  | sub x y l => simpa using edit_snoc_sub x y l.reverse
  | lift b e ih => simpa using edit_append_single ih b

theorem nsteps_reverse {n : Nat} {a b : List α} (h : NSteps n a b) :
    NSteps n a.reverse b.reverse := by
  induction h with
  | refl l => exact NSteps.refl _
  | step e _ ih => exact NSteps.step (edit_reverse e) ih

/-- The Levenshtein distance is invariant under reversing both strings. -/
theorem lev_reverse (a b : List α) : lev a.reverse b.reverse = lev a b := by
  have h1 : lev a.reverse b.reverse ≤ lev a b :=
    lev_le_nsteps (nsteps_reverse (nsteps_lev a b))
  have h2 : lev a b ≤ lev a.reverse b.reverse := by
    have := lev_le_nsteps (nsteps_reverse (nsteps_lev a.reverse b.reverse))
    simpa using this
  omega

/-- The Levenshtein distance is invariant under an injective symbol map. -/
theorem lev_map_inj {β : Type} [DecidableEq β] {f : α → β}
    (hf : Function.Injective f) :
    ∀ a b : List α, lev (a.map f) (b.map f) = lev a b
  | [], ys => by simp [lev_nil_left]
  | x :: xs, [] => by simp [lev_nil_right]
  | x :: xs, y :: ys => by
      simp only [List.map_cons]
      rw [lev_cons_cons, lev_cons_cons]
      have e1 : lev (List.map f xs) (List.map f ys) = lev xs ys :=
        lev_map_inj hf xs ys
      have e2 : lev (List.map f xs) (f y :: List.map f ys) = lev xs (y :: ys) :=
        lev_map_inj hf xs (y :: ys)
      have e3 : lev (f x :: List.map f xs) (List.map f ys) = lev (x :: xs) ys :=
        lev_map_inj hf (x :: xs) ys
      have hc : (if f x = f y then 0 else 1) = (if x = y then 0 else 1) := by
        by_cases h : x = y
        · simp [h]
        · rw [if_neg (fun hfe => h (hf hfe)), if_neg h]
      rw [e1, e2, e3, hc]
termination_by a b => (a.length, b.length)

/-- Inserting one well-chosen symbol into the shorter string brings it
strictly closer to the longer one. -/
theorem lev_insert_step : ∀ v u : List α, v.length < u.length →
    ∃ j m, j ≤ v.length ∧ lev (v.insertIdx j m) u + 1 ≤ lev v u
  | [], [], h => by simp at h
  | [], y :: ys, _ => by
      refine ⟨0, y, by simp, ?_⟩
      have : ([] : List α).insertIdx 0 y = [y] := rfl
      rw [this, lev_cons_same, lev_nil_left, lev_nil_left]
      simp
  | a :: as, [], h => by simp at h
  | a :: as, y :: ys, h => by
      by_cases hay : a = y
      · subst hay
        have hlen : as.length < ys.length := by
          simpa using Nat.lt_of_succ_lt_succ h
        obtain ⟨j, m, hj, hle⟩ := lev_insert_step as ys hlen
        refine ⟨j + 1, m, by simpa using hj, ?_⟩
        rw [List.insertIdx_succ_cons, lev_cons_same, lev_cons_same]
        exact hle
      · rw [lev_cons_cons]
        rcases min_choice (min (lev as ys + (if a = y then 0 else 1))
            (lev as (y :: ys) + 1)) (lev (a :: as) ys + 1) with hmin | hmin <;>
          rw [hmin]
        · rcases min_choice (lev as ys + (if a = y then 0 else 1))
              (lev as (y :: ys) + 1) with hmin2 | hmin2 <;> rw [hmin2]
          · -- substitution branch attains the minimum
            have hlen : as.length < ys.length := by
              simpa using Nat.lt_of_succ_lt_succ h
            obtain ⟨j, m, hj, hle⟩ := lev_insert_step as ys hlen
            refine ⟨j + 1, m, by simpa using hj, ?_⟩
            rw [List.insertIdx_succ_cons]
            have hb : lev (a :: as.insertIdx j m) (y :: ys) ≤
                lev (as.insertIdx j m) ys + 1 := by
              rw [lev_cons_cons]
              rcases ite_eq_or_eq (a = y) 0 1 with hi | hi <;> rw [hi] <;> omega
            rw [if_neg hay]
            omega
          · -- deletion branch attains the minimum
            have hlen : as.length < (y :: ys).length := by
              simp only [List.length_cons] at h ⊢
              omega
            obtain ⟨j, m, hj, hle⟩ := lev_insert_step as (y :: ys) hlen
            refine ⟨j + 1, m, by simpa using hj, ?_⟩
            rw [List.insertIdx_succ_cons]
            have hb : lev (a :: as.insertIdx j m) (y :: ys) ≤
                lev (as.insertIdx j m) (y :: ys) + 1 := lev_le_add_left _ _ _
            omega
        · -- insertion branch attains the minimum
          refine ⟨0, y, by simp, ?_⟩
          have h0 : (a :: as).insertIdx 0 y = y :: a :: as := rfl
          rw [h0, lev_cons_same]
termination_by v u => (v.length, u.length)

/-- Deleting one well-chosen symbol from the longer string brings it
strictly closer to the shorter one. -/
theorem lev_erase_step : ∀ s t : List α, t.length < s.length →
    ∃ j, j < s.length ∧ lev (s.eraseIdx j) t + 1 ≤ lev s t
  | [], t, h => by simp at h
  | a :: as, [], _ => by
      refine ⟨0, by simp, ?_⟩
      have h0 : (a :: as).eraseIdx 0 = as := rfl
      rw [h0, lev_nil_right, lev_nil_right]
      simp
  | a :: as, y :: ys, h => by
      by_cases hay : a = y
      · subst hay
        have hlen : ys.length < as.length := by
          simpa using Nat.lt_of_succ_lt_succ h
        obtain ⟨j, hj, hle⟩ := lev_erase_step as ys hlen
        refine ⟨j + 1, by simpa using hj, ?_⟩
        rw [List.eraseIdx_cons_succ, lev_cons_same, lev_cons_same]
        exact hle
      · rw [lev_cons_cons]
        rcases min_choice (min (lev as ys + (if a = y then 0 else 1))
            (lev as (y :: ys) + 1)) (lev (a :: as) ys + 1) with hmin | hmin <;>
          rw [hmin]
        · rcases min_choice (lev as ys + (if a = y then 0 else 1))
              (lev as (y :: ys) + 1) with hmin2 | hmin2 <;> rw [hmin2]
          · -- substitution branch attains the minimum
            have hlen : ys.length < as.length := by
              simpa using Nat.lt_of_succ_lt_succ h
            obtain ⟨j, hj, hle⟩ := lev_erase_step as ys hlen
            refine ⟨j + 1, by simpa using hj, ?_⟩
            rw [List.eraseIdx_cons_succ]
            have hb : lev (a :: as.eraseIdx j) (y :: ys) ≤
                lev (as.eraseIdx j) ys + 1 := by
              rw [lev_cons_cons]
              rcases ite_eq_or_eq (a = y) 0 1 with hi | hi <;> rw [hi] <;> omega
            rw [if_neg hay]
            omega
          · -- deletion branch attains the minimum
            refine ⟨0, by simp, ?_⟩
            have h0 : (a :: as).eraseIdx 0 = as := rfl
            rw [h0]
        · -- insertion branch attains the minimum
          have hlen : ys.length < (a :: as).length := by
            simp only [List.length_cons] at h ⊢
            omega
          obtain ⟨j, hj, hle⟩ := lev_erase_step (a :: as) ys hlen
          refine ⟨j, hj, ?_⟩
          have hb : lev ((a :: as).eraseIdx j) (y :: ys) ≤
              lev ((a :: as).eraseIdx j) ys + 1 := lev_le_add_right _ _ _
          omega
termination_by s t => (s.length, t.length)

/-- Between equal-length strings at positive distance, either one
substitution, or one deletion followed by one insertion, makes strict
progress (by 1, resp. 2) toward the target. -/
theorem lev_step_decomp : ∀ a b : List α, a.length = b.length → 1 ≤ lev a b →
    (∃ j m, j < a.length ∧ lev (a.set j m) b + 1 ≤ lev a b) ∨
    (2 ≤ lev a b ∧ ∃ j j2 m, j < a.length ∧ j2 < a.length ∧
      lev ((a.eraseIdx j).insertIdx j2 m) b + 2 ≤ lev a b)
  | [], [], _, hpos => by simp [lev_nil_left] at hpos
  | [], y :: ys, hlen, _ => by simp at hlen
  | a :: as, [], hlen, _ => by simp at hlen
  | a :: as, y :: ys, hlen, hpos => by
      by_cases hay : a = y
      · subst hay
        rw [lev_cons_same] at hpos ⊢
        have hlen2 : as.length = ys.length := by simpa using hlen
        rcases lev_step_decomp as ys hlen2 hpos with ⟨j, m, hj, hle⟩ | ⟨h2, j, j2, m, hj, hj2, hle⟩
        · refine Or.inl ⟨j + 1, m, by simpa using hj, ?_⟩
          rw [List.set_cons_succ, lev_cons_same]
          exact hle
        · refine Or.inr ⟨h2, j + 1, j2 + 1, m, by simpa using hj, by simpa using hj2, ?_⟩
          rw [List.eraseIdx_cons_succ, List.insertIdx_succ_cons, lev_cons_same]
          exact hle
      · rw [lev_cons_cons] at hpos ⊢
        rcases min_choice (min (lev as ys + (if a = y then 0 else 1))
            (lev as (y :: ys) + 1)) (lev (a :: as) ys + 1) with hmin | hmin <;>
          rw [hmin] at hpos ⊢
        · rcases min_choice (lev as ys + (if a = y then 0 else 1))
              (lev as (y :: ys) + 1) with hmin2 | hmin2 <;> rw [hmin2] at hpos ⊢
          · -- substitution branch attains the minimum
            refine Or.inl ⟨0, y, by simp, ?_⟩
            have h0 : (a :: as).set 0 y = y :: as := rfl
            rw [h0, lev_cons_same, if_neg hay]
          · -- deletion branch attains the minimum
            have hlt : as.length < (y :: ys).length := by
              simp only [List.length_cons] at hlen ⊢
              omega
            have hbig : 1 ≤ lev as (y :: ys) := by
              have := (length_sub_le_lev as (y :: ys)).2
              simp only [List.length_cons] at this hlen
              omega
            obtain ⟨j2, m, hj2, hle⟩ := lev_insert_step as (y :: ys) hlt
            refine Or.inr ⟨by omega, 0, j2, m, by simp, ?_, ?_⟩
            · simp only [List.length_cons]
              have : as.length = ys.length := by simpa using hlen
              omega
            · have h0 : (a :: as).eraseIdx 0 = as := rfl
              rw [h0]
              omega
          -- insertion branch attains the minimum
        · have hlt : ys.length < (a :: as).length := by
            simp only [List.length_cons] at hlen ⊢
            omega
          have hbig : 1 ≤ lev (a :: as) ys := by
            have := (length_sub_le_lev (a :: as) ys).1
            simp only [List.length_cons] at this hlen
            omega
          obtain ⟨j, hj, hle⟩ := lev_erase_step (a :: as) ys hlt
          refine Or.inr ⟨by omega, j, 0, y, hj, by simp, ?_⟩
          have h0 : ((a :: as).eraseIdx j).insertIdx 0 y = y :: (a :: as).eraseIdx j := rfl
          rw [h0, lev_cons_same]
          omega
termination_by a b => (a.length, b.length)

/-! ### Packed k-mer codec (util.c: `encode`, `decode`) -/

/-- Base-4 digits of a packed value, least-significant 2-bit field first:
the order in which both the codec loops and the DP oracle consume symbols. -/
def fields : Nat → Nat → List (Fin 4)
  | _, 0 => []
  | n, k + 1 => ⟨n % 4, Nat.mod_lt _ (by omega)⟩ :: fields (n / 4) k

/-- Packed value of a least-significant-first digit list (inverse of
`fields`). -/
def natOfFields : List (Fin 4) → Nat
  | [] => 0
  | d :: rest => d.val + 4 * natOfFields rest

/-- The character table `base[] = {A, C, G, T}` of util.c, indexed by a raw
masked value as the C code does. -/
def baseC (m : Nat) : Char :=
  if m = 0 then 'A' else if m = 1 then 'C' else if m = 2 then 'G' else 'T'

/-- `base[]` as a function on genuine 2-bit fields. -/
def baseF (m : Fin 4) : Char := baseC m.val

/-- One iteration of the `switch` inside `encode` (util.c): a character
that is none of A, C, G, T leaves the code variable `x` unchanged, exactly
like the C `switch`, which has no default arm. -/
def encStep (x : Nat) (c : Char) : Nat :=
  if c = 'A' then 0 else if c = 'C' then 1 else if c = 'G' then 2
  else if c = 'T' then 3 else x

/-- The loop of `encode(str, k)` (util.c): `enc = (enc << 2) | x` on a
64-bit accumulator (hence the explicit `% 2 ^ 64`), with the stale symbol
variable `x` carried across iterations.  In C, `x` is uninitialized before
the first recognized character; `0` stands for that indeterminate value. -/
def encodeLoop : Nat × Nat → List Char → Nat × Nat
  | st, [] => st
  | (enc, x), c :: rest =>
      let x2 := encStep x c
      encodeLoop (((enc <<< 2) ||| x2) % 2 ^ 64, x2) rest

/-- `encode(str, k)` of util.c: consume the first `k` characters. -/
def encode (str : List Char) (k : Nat) : Nat :=
  (encodeLoop (0, 0) (str.take k)).1

/-- The loop of `decode(enc, k)` (util.c): fill positions `k-1` down to `0`
with `base[enc & 3]`, shifting `enc` right by 2 each time. -/
def decodeLoop : Nat → Nat → List Char → List Char
  | _, 0, acc => acc
  | enc, i + 1, acc => decodeLoop (enc >>> 2) i (baseC (enc &&& 3) :: acc)

/-- `decode(enc, k)` of util.c. -/
def decode (enc k : Nat) : List Char := decodeLoop enc k []

/-- The character class accepted by the `switch` of `encode`. -/
def validChar (c : Char) : Prop := c = 'A' ∨ c = 'C' ∨ c = 'G' ∨ c = 'T'

/-- Symbol code of a valid character. -/
def codeF (c : Char) : Fin 4 :=
  if c = 'A' then 0 else if c = 'C' then 1 else if c = 'G' then 2 else 3

theorem baseF_injective : Function.Injective baseF := by
  intro a b h
  fin_cases a <;> fin_cases b <;> first | rfl | (exfalso; revert h; decide)

theorem codeF_baseF (d : Fin 4) : codeF (baseF d) = d := by
  fin_cases d <;> decide

theorem baseF_codeF {c : Char} (h : validChar c) : baseF (codeF c) = c := by
  rcases h with h | h | h | h <;> subst h <;> decide

theorem encStep_valid {c : Char} (h : validChar c) (x : Nat) :
    encStep x c = (codeF c).val := by
  rcases h with h | h | h | h <;> subst h <;> rfl

/-- Every digit list decodes-then-reencodes to itself. -/
theorem fields_natOfFields : ∀ l : List (Fin 4), fields (natOfFields l) l.length = l
  | [] => rfl
  | d :: rest => by
      have hd : d.val < 4 := d.isLt
      simp only [natOfFields, List.length_cons, fields]
      have h1 : (d.val + 4 * natOfFields rest) % 4 = d.val := by omega
      have h4 : (d.val + 4 * natOfFields rest) / 4 = natOfFields rest := by omega
      congr 1
      · exact Fin.ext h1
      · rw [h4]
        exact fields_natOfFields rest

theorem natOfFields_fields : ∀ (k n : Nat), n < 4 ^ k → natOfFields (fields n k) = n
  | 0, n, h => by
      simp only [pow_zero] at h
      simp only [fields, natOfFields]
      omega
  | k + 1, n, h => by
      simp only [fields, natOfFields]
      have h2 : n / 4 < 4 ^ k := by
        rw [pow_succ] at h
        omega
      rw [natOfFields_fields k (n / 4) h2]
      omega

theorem natOfFields_lt : ∀ l : List (Fin 4), natOfFields l < 4 ^ l.length
  | [] => by simp [natOfFields]
  | d :: rest => by
      have h := natOfFields_lt rest
      have hd : d.val < 4 := d.isLt
      simp only [natOfFields, List.length_cons, pow_succ]
      omega

theorem fields_length : ∀ (n k : Nat), (fields n k).length = k
  | _, 0 => rfl
  | n, k + 1 => by simp [fields, fields_length (n / 4) k]

theorem natOfFields_append (l : List (Fin 4)) (d : Fin 4) :
    natOfFields (l ++ [d]) = natOfFields l + d.val * 4 ^ l.length := by
  induction l with
  | nil => simp [natOfFields]
  | cons e rest ih =>
      simp only [List.cons_append, natOfFields, List.length_cons, pow_succ]
      rw [show rest.append [d] = rest ++ [d] from rfl, ih]
      ring

theorem decodeLoop_eq : ∀ (k enc : Nat) (acc : List Char),
    decodeLoop enc k acc = ((fields enc k).map baseF).reverse ++ acc
  | 0, enc, acc => by simp [decodeLoop, fields]
  | k + 1, enc, acc => by
      simp only [decodeLoop, fields, List.map_cons, List.reverse_cons]
      rw [decodeLoop_eq k (enc >>> 2)]
      have h1 : enc >>> 2 = enc / 4 := by
        rw [Nat.shiftRight_eq_div_pow]
      have h2 : enc &&& 3 = enc % 4 := by
        have := Nat.and_pow_two_sub_one_eq_mod enc 2
        norm_num at this
        exact this
      rw [h1, h2]
      simp [baseF, List.append_assoc]

/-- `decode` produces the digits of `enc`, most significant first, via the
character table. -/
theorem decode_eq_fields (enc k : Nat) :
    decode enc k = ((fields enc k).map baseF).reverse := by
  simp [decode, decodeLoop_eq]

/-- Disjoint bitwise or is addition: low part below `2 ^ n`. -/
theorem lor_two_pow_mul (n c b : Nat) (hb : b < 2 ^ n) :
    (2 ^ n * c) ||| b = 2 ^ n * c + b := by
  induction n generalizing b c with
  | zero =>
      have hb0 : b = 0 := by omega
      subst hb0; simp
  | succ n ih =>
      have hb2 : b / 2 < 2 ^ n := by
        have := Nat.pow_succ 2 n
        omega
      have h1 : 2 ^ (n + 1) * c = Nat.bit false (2 ^ n * c) := by
        simp [Nat.bit]; ring
      have h2 : b = Nat.bit (b % 2 == 1) (b / 2) := by
        rcases Nat.mod_two_eq_zero_or_one b with h | h <;> simp [Nat.bit, h] <;> omega
      rw [h1, h2, Nat.lor_bit]
      rw [ih c (b / 2) hb2]
      rcases Nat.mod_two_eq_zero_or_one b with h | h <;>
        simp [Nat.bit, h] <;> ring

theorem encodeLoop_valid : ∀ (s : List Char) (enc x m : Nat),
    (∀ c ∈ s, validChar c) → enc < 4 ^ m → m + s.length ≤ 32 →
    (encodeLoop (enc, x) s).1 =
      natOfFields ((s.map codeF).reverse ++ fields enc m) ∧
    (encodeLoop (enc, x) s).1 < 4 ^ (m + s.length)
  | [], enc, x, m, _, henc, _ => by
      simp only [encodeLoop, List.map_nil, List.reverse_nil, List.nil_append]
      exact ⟨(natOfFields_fields m enc henc).symm, by simpa using henc⟩
  | c :: rest, enc, x, m, hval, henc, hlen => by
      have hc : validChar c := hval c (List.mem_cons_self c rest)
      simp only [encodeLoop]
      have hx2 : encStep x c = (codeF c).val := encStep_valid hc x
      have hshift : enc <<< 2 = enc * 4 := by
        rw [Nat.shiftLeft_eq]
      have hlor : (enc <<< 2) ||| encStep x c = enc * 4 + (codeF c).val := by
        rw [hshift, hx2]
        have h4 : enc * 4 = 2 ^ 2 * enc := by ring
        rw [h4]
        have hfin := (codeF c).isLt
        exact lor_two_pow_mul 2 enc (codeF c).val (by omega)
      have hlt : enc * 4 + (codeF c).val < 4 ^ (m + 1) := by
        have := (codeF c).isLt
        have : enc * 4 + (codeF c).val < 4 ^ m * 4 := by omega
        calc enc * 4 + (codeF c).val < 4 ^ m * 4 := this
          _ = 4 ^ (m + 1) := by rw [pow_succ]
      have hsmall : enc * 4 + (codeF c).val < 2 ^ 64 := by
        have h1 : 4 ^ (m + 1) ≤ 4 ^ 32 := by
          apply Nat.pow_le_pow_right (by omega)
          simp only [List.length_cons] at hlen
          omega
        have h2 : (4 : Nat) ^ 32 = 2 ^ 64 := by norm_num
        omega
      have hmod : ((enc <<< 2) ||| encStep x c) % 2 ^ 64 = enc * 4 + (codeF c).val := by
        rw [hlor, Nat.mod_eq_of_lt hsmall]
      rw [hmod]
      have hrec := encodeLoop_valid rest (enc * 4 + (codeF c).val) (encStep x c) (m + 1)
        (fun d hd => hval d (List.mem_cons_of_mem c hd)) hlt
        (by simp only [List.length_cons] at hlen; omega)
      refine ⟨?_, ?_⟩
      · rw [hrec.1]
        have hfield : fields (enc * 4 + (codeF c).val) (m + 1) =
            codeF c :: fields enc m := by
          simp only [fields]
          have hfin := (codeF c).isLt
          have h1 : (enc * 4 + (codeF c).val) % 4 = (codeF c).val := by omega
          have h4 : (enc * 4 + (codeF c).val) / 4 = enc := by omega
          congr 1
          · exact Fin.ext h1
          · rw [h4]
        rw [hfield]
        simp only [List.map_cons, List.reverse_cons, List.append_assoc,
          List.cons_append, List.nil_append]
      · have := hrec.2
        simp only [List.length_cons]
        have heq : m + 1 + rest.length = m + (rest.length + 1) := by omega
        rw [← heq]
        exact this

theorem encode_valid {s : List Char} {k : Nat} (hlen : s.length = k)
    (hk : k ≤ 32) (hval : ∀ c ∈ s, validChar c) :
    encode s k = natOfFields ((s.map codeF).reverse) := by
  have htake : s.take k = s := by
    rw [← hlen]; exact List.take_length ..
  have h := (encodeLoop_valid s 0 0 0 hval (by simp) (by omega)).1
  simp only [encode, htake, fields] at h ⊢
  simpa using h

theorem validChar_baseF (d : Fin 4) : validChar (baseF d) := by
  fin_cases d <;> simp [validChar, baseF, baseC]

/-- C7 helper: distance of decoded strings equals distance of digit lists. -/
theorem lev_decode_eq_fields (a ka b kb : Nat) :
    lev (decode a ka) (decode b kb) = lev (fields a ka).reverse (fields b kb).reverse := by
  rw [decode_eq_fields, decode_eq_fields, ← List.map_reverse, ← List.map_reverse]
  exact lev_map_inj baseF_injective (fields a ka).reverse (fields b kb).reverse

/-- Claim C7: for every `1 ≤ ℓ ≤ 32` and every string over {A,C,G,T} of
length `ℓ`, `decode (encode x ℓ) ℓ = x`; conversely, for every
`n < 4 ^ ℓ`, `encode (decode n ℓ) ℓ = n`: the codec functions are exact
inverses. -/
theorem codec_round_trip :
    (∀ (ell : Nat) (x : List Char), 1 ≤ ell → ell ≤ 32 → x.length = ell →
      (∀ c ∈ x, validChar c) → decode (encode x ell) ell = x) ∧
    (∀ (ell n : Nat), 1 ≤ ell → ell ≤ 32 → n < 4 ^ ell →
      encode (decode n ell) ell = n) := by
  constructor
  · intro ell x _ hk hlen hval
    rw [encode_valid hlen hk hval, decode_eq_fields]
    have hlenr : ((x.map codeF).reverse).length = ell := by
      simp [hlen]
    have hf : fields (natOfFields ((x.map codeF).reverse)) ell = (x.map codeF).reverse := by
      have := fields_natOfFields ((x.map codeF).reverse)
      rwa [hlenr] at this
    rw [hf]
    rw [← List.map_reverse, List.reverse_reverse, List.map_map]
    have : ∀ c ∈ x, (baseF ∘ codeF) c = c := fun c hc => baseF_codeF (hval c hc)
    calc x.map (baseF ∘ codeF) = x.map id := List.map_congr_left this
      _ = x := List.map_id x
  · intro ell n _ hk hn
    have hdec : decode n ell = ((fields n ell).map baseF).reverse := decode_eq_fields n ell
    have hlen : (decode n ell).length = ell := by
      simp [hdec, fields_length]
    have hval : ∀ c ∈ decode n ell, validChar c := by
      intro c hc
      rw [hdec] at hc
      simp only [List.mem_reverse, List.mem_map] at hc
      obtain ⟨d, _, hd⟩ := hc
      rw [← hd]
      exact validChar_baseF d
    rw [encode_valid hlen hk hval, hdec]
    rw [← List.map_reverse, List.reverse_reverse, List.map_map]
    have hmap : (fields n ell).map (codeF ∘ baseF) = fields n ell := by
      have : ∀ d ∈ fields n ell, (codeF ∘ baseF) d = d := fun d _ => codeF_baseF d
      calc (fields n ell).map (codeF ∘ baseF) = (fields n ell).map id :=
            List.map_congr_left this
        _ = fields n ell := List.map_id _
    rw [hmap]
    exact natOfFields_fields ell n hn

theorem codec_round_trip_witness :
    decode (encode ['A', 'C', 'G', 'T'] 4) 4 = ['A', 'C', 'G', 'T'] ∧
      encode (decode 11 2) 2 = 11 := by
  constructor
  · exact codec_round_trip.1 4 ['A', 'C', 'G', 'T'] (by omega) (by omega)
      (by decide) (by intro c hc; fin_cases hc <;> simp [validChar])
  · exact codec_round_trip.2 2 11 (by omega) (by omega) (by omega)

/-! ### Bounded edit-distance oracle (util.c: `editDist2`) -/

/-- The inner loop of `editDist2` (util.c): one row update of the banded
dynamic program.  `cur = min(min(diag + cost, row[j] + 1), row[j-1] + 1)`,
then shift `diag` and write `row[j]`, for `j = 1 .. k2`. -/
def dpRow (c1 : Fin 4) : List (Fin 4) → List Nat → Nat → Nat → List Nat
  | [], _, _, _ => []
  | y :: ys, prev, diag, left =>
      match prev with
      | [] => []
      | pj :: prest =>
          let cur := min (min (diag + (if c1 = y then 0 else 1)) (pj + 1)) (left + 1)
          cur :: dpRow c1 ys prest pj cur

/-- One outer iteration of `editDist2`: `diag = row[0]; row[0] = i;` then
the inner loop over the second string. -/
def dpStep (c1 : Fin 4) (s2f : List (Fin 4)) (i : Nat) (prev : List Nat) : List Nat :=
  match prev with
  | [] => [i]
  | p0 :: ptail => i :: dpRow c1 s2f ptail p0 i

/-- The outer loop of `editDist2` with the early-exit check
`max_d >= 0 && row[diag_index] >= max_d` after every row. -/
def dpLoop (s2f : List (Fin 4)) (maxD : Int) :
    List (Fin 4) → List Nat → Nat → Nat → Nat
  | [], row, _, diagIdx => row.getD diagIdx 0
  | c :: rest, row, i, diagIdx =>
      let row2 := dpStep c s2f (i + 1) row
      let dIdx2 := diagIdx + 1
      if 0 ≤ maxD ∧ maxD ≤ (row2.getD dIdx2 0 : Int) then row2.getD dIdx2 0
      else dpLoop s2f maxD rest row2 (i + 1) dIdx2

/-- The body of `editDist2` (util.c) after the argument swap, on the digit
lists of the two packed strings (least-significant field first, exactly the
order the C loops read them): initial length-difference check, initial row
`row[i] = i`, then the banded DP. -/
def editDist2core (s1f s2f : List (Fin 4)) (maxD : Int) : Nat :=
  let diag0 := s2f.length - s1f.length
  if 0 ≤ maxD ∧ maxD ≤ (diag0 : Int) then diag0
  else dpLoop s2f maxD s1f (List.range (s2f.length + 1)) 0 diag0

/-- `editDist2(s1, k1, s2, k2, max_d)` of util.c; `if(k1 > k2)` the
arguments are swapped. -/
def editDist2 (s1 k1 s2 k2 : Nat) (maxD : Int) : Nat :=
  if k1 > k2 then editDist2core (fields s2 k2) (fields s1 k1) maxD
  else editDist2core (fields s1 k1) (fields s2 k2) maxD

/-- `editDist(s1, s2, k, max_d)` of util.c. -/
def editDist (s1 s2 k : Nat) (maxD : Int) : Nat := editDist2 s1 k s2 k maxD

/-- Specification of a row suffix: entry `t` is the distance from `A` to
the reversal of the consumed prefix of the second string extended by
`t + 1` further symbols. -/
def specEntries (A : List (Fin 4)) : List (Fin 4) → List (Fin 4) → List Nat
  | _, [] => []
  | Brev, y :: ys => lev A (y :: Brev) :: specEntries A (y :: Brev) ys

/-- Full specification row for first-string-so-far `A` (stored reversed). -/
def rowOf (A s2f : List (Fin 4)) : List Nat :=
  lev A [] :: specEntries A [] s2f

theorem dpRow_spec (c : Fin 4) :
    ∀ (ys A Brev : List (Fin 4)),
    dpRow c ys (specEntries A Brev ys) (lev A Brev) (lev (c :: A) Brev) =
      specEntries (c :: A) Brev ys := by
  intro ys
  induction ys with
  | nil => intro A Brev; rfl
  | cons y ys ih =>
      intro A Brev
      simp only [specEntries, dpRow]
      rw [show min (min (lev A Brev + (if c = y then 0 else 1))
            (lev A (y :: Brev) + 1)) (lev (c :: A) Brev + 1) =
          lev (c :: A) (y :: Brev) from (lev_cons_cons c y A Brev).symm]
      rw [ih A (y :: Brev)]

theorem dpStep_spec (c : Fin 4) (s2f A : List (Fin 4)) :
    dpStep c s2f (A.length + 1) (rowOf A s2f) = rowOf (c :: A) s2f := by
  simp only [dpStep, rowOf]
  have h1 : lev (c :: A) [] = A.length + 1 := by
    rw [lev_nil_right]; rfl
  have h := dpRow_spec c s2f A []
  rw [h1] at h
  rw [h, h1]

theorem specEntries_getD :
    ∀ (ys : List (Fin 4)) (A Brev : List (Fin 4)) (j : Nat), j < ys.length →
    (specEntries A Brev ys).getD j 0 = lev A ((ys.take (j + 1)).reverse ++ Brev) := by
  intro ys
  induction ys with
  | nil => intro A Brev j h; simp at h
  | cons y ys ih =>
      intro A Brev j h
      cases j with
      | zero => simp [specEntries]
      | succ j =>
          simp only [specEntries, List.getD_cons_succ]
          rw [ih A (y :: Brev) j (by simpa using h)]
          simp [List.append_assoc]

theorem rowOf_getD (A s2f : List (Fin 4)) (j : Nat) (h : j ≤ s2f.length) :
    (rowOf A s2f).getD j 0 = lev A ((s2f.take j).reverse) := by
  cases j with
  | zero => simp [rowOf, lev_nil_right]
  | succ j =>
      simp only [rowOf, List.getD_cons_succ]
      rw [specEntries_getD s2f A [] j (by omega)]
      simp

theorem take_succ_reverse {l : List (Fin 4)} {d : Nat} (h : d < l.length) :
    (l.take (d + 1)).reverse = l.getD d 0 :: (l.take d).reverse := by
  rw [List.take_succ, List.getElem?_eq_getElem h, List.getD_eq_getElem l 0 h]
  simp

/-- Every value on the forced diagonal is a lower bound for the final
distance (diagonal monotonicity of the DP). -/
theorem diag_le_final :
    ∀ (E B s2f : List (Fin 4)) (d : Nat),
    d = s2f.length - (B.length + E.length) + B.length →
    B.length + E.length ≤ s2f.length →
    lev B ((s2f.take d).reverse) ≤ lev (E.reverse ++ B) s2f.reverse := by
  intro E
  induction E with
  | nil =>
      intro B s2f d hd hle
      simp only [List.length_nil] at hd hle
      have : d = s2f.length := by omega
      subst this
      simp [List.take_length ..]
  | cons e E ih =>
      intro B s2f d hd hle
      simp only [List.length_cons] at hd hle
      have hdlt : d < s2f.length := by omega
      have hstep : lev B ((s2f.take d).reverse) ≤
          lev (e :: B) ((s2f.take (d + 1)).reverse) := by
        rw [take_succ_reverse hdlt]
        exact lev_le_cons_cons e (s2f.getD d 0) B ((s2f.take d).reverse)
      have hrec := ih (e :: B) s2f (d + 1) (by simp; omega) (by simp; omega)
      have heq : E.reverse ++ (e :: B) = (e :: E).reverse ++ B := by
        simp
      rw [heq] at hrec
      omega

theorem rowOf_nil (s2f : List (Fin 4)) :
    rowOf [] s2f = List.range (s2f.length + 1) := by
  have h : ∀ (ys Brev : List (Fin 4)),
      specEntries [] Brev ys = List.range' (Brev.length + 1) ys.length := by
    intro ys
    induction ys with
    | nil => intro Brev; simp [specEntries]
    | cons y ys ih =>
        intro Brev
        simp only [specEntries, List.length_cons, ih (y :: Brev)]
        rw [lev_nil_left]
        rw [List.range'_succ (Brev.length + 1) ys.length 1]
        simp only [List.length_cons]
  rw [rowOf, h s2f [], List.range_eq_range' (s2f.length + 1),
    List.range'_succ 0 s2f.length 1]
  rw [lev_nil_right]
  simp

/-- Main loop invariant of `editDist2`: the result of `dpLoop` is either the
exact final distance, or (early exit) a value at least `maxD` that is still
a lower bound for the final distance. -/
theorem dpLoop_spec (s2f : List (Fin 4)) (maxD : Int) :
    ∀ (rest A : List (Fin 4)) (d : Nat),
    A.length + rest.length ≤ s2f.length →
    d = s2f.length - (A.length + rest.length) + A.length →
    dpLoop s2f maxD rest (rowOf A s2f) A.length d =
        lev (rest.reverse ++ A) s2f.reverse ∨
    (0 ≤ maxD ∧ maxD ≤ (dpLoop s2f maxD rest (rowOf A s2f) A.length d : Int) ∧
      dpLoop s2f maxD rest (rowOf A s2f) A.length d ≤
        lev (rest.reverse ++ A) s2f.reverse) := by
  intro rest
  induction rest with
  | nil =>
      intro A d hle hd
      simp only [List.length_nil, Nat.add_zero] at hle hd
      have hds : d = s2f.length := by omega
      subst hds
      simp only [dpLoop]
      left
      rw [rowOf_getD A s2f s2f.length (le_refl _), List.take_length ..]
      simp
  | cons c rest ih =>
      intro A d hle hd
      simp only [List.length_cons] at hle hd
      simp only [dpLoop]
      rw [dpStep_spec c s2f A]
      have hd1 : d + 1 ≤ s2f.length := by omega
      have hval : (rowOf (c :: A) s2f).getD (d + 1) 0 =
          lev (c :: A) ((s2f.take (d + 1)).reverse) :=
        rowOf_getD (c :: A) s2f (d + 1) hd1
      have hfinal : (c :: rest).reverse ++ A = rest.reverse ++ (c :: A) := by
        simp
      have hbound : lev (c :: A) ((s2f.take (d + 1)).reverse) ≤
          lev (rest.reverse ++ (c :: A)) s2f.reverse := by
        apply diag_le_final rest (c :: A) s2f (d + 1)
        · simp only [List.length_cons]
          omega
        · simp only [List.length_cons]
          omega
      split
      case isTrue hc =>
          right
          rw [hfinal]
          rw [hval] at hc ⊢
          exact ⟨hc.1, hc.2, hbound⟩
      case isFalse hc =>
          have hrec := ih (c :: A) (d + 1)
            (by simp only [List.length_cons]; omega)
            (by simp only [List.length_cons]; omega)
          rw [hfinal]
          simpa only [List.length_cons] using hrec

/-- `editDist2core` on digit lists with the shorter one first: exact result
or an early-exit lower bound at least `maxD`. -/
theorem editDist2core_spec (s1f s2f : List (Fin 4)) (maxD : Int)
    (hle : s1f.length ≤ s2f.length) :
    editDist2core s1f s2f maxD = lev s1f.reverse s2f.reverse ∨
    (0 ≤ maxD ∧ maxD ≤ (editDist2core s1f s2f maxD : Int) ∧
      editDist2core s1f s2f maxD ≤ lev s1f.reverse s2f.reverse) := by
  unfold editDist2core
  dsimp only
  split
  case isTrue h =>
      right
      refine ⟨h.1, h.2, ?_⟩
      have hlb := (length_sub_le_lev s1f.reverse s2f.reverse).2
      simp only [List.length_reverse] at hlb
      omega
  case isFalse h =>
      rw [← rowOf_nil s2f]
      have hspec := dpLoop_spec s2f maxD s1f [] (s2f.length - s1f.length)
        (by simpa using hle) (by simp)
      simpa using hspec

/-- Claim C5: with `maxD = -1` (early exit disabled), `editDist2` returns
exactly the Levenshtein distance of the two decoded strings. -/
theorem editDist2_exact (s1 k1 s2 k2 : Nat) (hk1 : k1 ≤ 32) (hk2 : k2 ≤ 32) :
    editDist2 s1 k1 s2 k2 (-1) = lev (decode s1 k1) (decode s2 k2) := by
  rw [lev_decode_eq_fields]
  unfold editDist2
  split
  case isTrue h =>
      have hle : (fields s2 k2).length ≤ (fields s1 k1).length := by
        rw [fields_length, fields_length]
        omega
      rcases editDist2core_spec (fields s2 k2) (fields s1 k1) (-1) hle with
        heq | ⟨hpos, _, _⟩
      · rw [heq]
        exact lev_comm (fields s2 k2).reverse (fields s1 k1).reverse
      · omega
  case isFalse h =>
      have hle : (fields s1 k1).length ≤ (fields s2 k2).length := by
        rw [fields_length, fields_length]
        omega
      rcases editDist2core_spec (fields s1 k1) (fields s2 k2) (-1) hle with
        heq | ⟨hpos, _, _⟩
      · exact heq
      · omega

theorem editDist2_exact_witness :
    4 ≤ 32 ∧ editDist2 (encode ['A', 'C', 'G', 'T'] 4) 4
        (encode ['A', 'A', 'G', 'T'] 4) 4 (-1) =
      lev (decode (encode ['A', 'C', 'G', 'T'] 4) 4)
        (decode (encode ['A', 'A', 'G', 'T'] 4) 4) :=
  ⟨by omega, editDist2_exact (encode ['A', 'C', 'G', 'T'] 4) 4
    (encode ['A', 'A', 'G', 'T'] 4) 4 (by omega) (by omega)⟩

/-- Claim C6: with `maxD ≥ 0`, `editDist2` returns a value at least `maxD`
exactly when the true distance is at least `maxD`, and returns the true
distance whenever the true distance is below `maxD`. -/
theorem editDist2_early_exit (s1 k1 s2 k2 : Nat) (maxD : Int)
    (hk1 : k1 ≤ 32) (hk2 : k2 ≤ 32) (hmd : 0 ≤ maxD) :
    (maxD ≤ (editDist2 s1 k1 s2 k2 maxD : Int) ↔
      maxD ≤ (lev (decode s1 k1) (decode s2 k2) : Int)) ∧
    ((lev (decode s1 k1) (decode s2 k2) : Int) < maxD →
      editDist2 s1 k1 s2 k2 maxD = lev (decode s1 k1) (decode s2 k2)) := by
  rw [lev_decode_eq_fields]
  unfold editDist2
  split
  case isTrue h =>
      have hle : (fields s2 k2).length ≤ (fields s1 k1).length := by
        rw [fields_length, fields_length]
        omega
      have hcomm : lev (fields s2 k2).reverse (fields s1 k1).reverse =
          lev (fields s1 k1).reverse (fields s2 k2).reverse :=
        lev_comm (fields s2 k2).reverse (fields s1 k1).reverse
      rcases editDist2core_spec (fields s2 k2) (fields s1 k1) maxD hle with
        heq | ⟨_, hge, hub⟩
      · rw [heq, hcomm]
        exact ⟨Iff.rfl, fun _ => rfl⟩
      · rw [hcomm] at hub
        constructor
        · constructor
          · intro _
            exact le_trans hge (by exact_mod_cast hub)
          · intro _
            exact hge
        · intro hlt
          exfalso
          have : (editDist2core (fields s2 k2) (fields s1 k1) maxD : Int) ≤
              (lev (fields s1 k1).reverse (fields s2 k2).reverse : Int) := by
            exact_mod_cast hub
          omega
  case isFalse h =>
      have hle : (fields s1 k1).length ≤ (fields s2 k2).length := by
        rw [fields_length, fields_length]
        omega
      rcases editDist2core_spec (fields s1 k1) (fields s2 k2) maxD hle with
        heq | ⟨_, hge, hub⟩
      · rw [heq]
        exact ⟨Iff.rfl, fun _ => rfl⟩
      · constructor
        · constructor
          · intro _
            exact le_trans hge (by exact_mod_cast hub)
          · intro _
            exact hge
        · intro hlt
          exfalso
          have : (editDist2core (fields s1 k1) (fields s2 k2) maxD : Int) ≤
              (lev (fields s1 k1).reverse (fields s2 k2).reverse : Int) := by
            exact_mod_cast hub
          omega

theorem editDist2_early_exit_witness :
    4 ≤ 32 ∧ (0 : Int) ≤ 2 ∧
      ((2 : Int) ≤ (editDist2 (encode ['A', 'C', 'G', 'T'] 4) 4
          (encode ['T', 'C', 'G', 'A'] 4) 4 2 : Int) ↔
        (2 : Int) ≤ (lev (decode (encode ['A', 'C', 'G', 'T'] 4) 4)
          (decode (encode ['T', 'C', 'G', 'A'] 4) 4) : Int)) :=
  ⟨by omega, by omega,
    (editDist2_early_exit (encode ['A', 'C', 'G', 'T'] 4) 4
      (encode ['T', 'C', 'G', 'A'] 4) 4 2 (by omega) (by omega) (by omega)).1⟩

/-! ### Center-file reader (util.c: `readCentersFromFile`) -/

/-- `readCentersFromFile(filename, k, numOfCenters)` of util.c: read a count,
then for each of `count` records `fgets` a line into a `k + 2` byte buffer
and call `encode(kmer_str, k)` on it.  A record line of `m` characters
arrives in the buffer as those characters followed by the newline; the
function performs no length or character validation and has no failure
path. -/
def readCentersFromFile (k count : Nat) (lines : List (List Char)) : List Nat :=
  (lines.take count).map fun rec => encode (rec ++ ['\n']) k

theorem encodeLoop_append (l1 l2 : List Char) :
    ∀ st : Nat × Nat, encodeLoop st (l1 ++ l2) = encodeLoop (encodeLoop st l1) l2 := by
  induction l1 with
  | nil => intro st; rfl
  | cons c rest ih =>
      intro st
      obtain ⟨enc, x⟩ := st
      simp only [List.cons_append, encodeLoop]
      exact ih _

theorem encodeLoop_stale (rec : List Char) (hne : rec ≠ [])
    (hval : ∀ c ∈ rec, validChar c) :
    ∀ st : Nat × Nat, (encodeLoop st rec).2 = (codeF (rec.getLast hne)).val := by
  induction rec with
  | nil => exact absurd rfl hne
  | cons c rest ih =>
      intro st
      obtain ⟨enc, x⟩ := st
      by_cases hr : rest = []
      · subst hr
        simp only [encodeLoop, List.getLast]
        exact encStep_valid (hval c (List.mem_cons_self c [])) x
      · have hlast : (c :: rest).getLast hne = rest.getLast hr :=
          List.getLast_cons hr
        rw [hlast]
        simp only [encodeLoop]
        exact ih hr (fun d hd => hval d (List.mem_cons_of_mem c hd)) _

theorem encStep_newline (x : Nat) : encStep x '\n' = x := rfl

/-- Counterexample to claim C8: the center record "AC" has length 2 ≠ 3,
yet `readCentersFromFile` with `k = 3` returns normally and stores an
encoded center (the packed value 5, which is the encoding of "ACC"): the
malformed record is silently encoded, not rejected. -/
theorem readCenters_malformed_counterexample :
    (['A', 'C'] : List Char).length ≠ 3 ∧
    readCentersFromFile 3 1 [['A', 'C']] = [5] ∧
    encode ['A', 'C', 'C'] 3 = 5 := by
  refine ⟨by decide, ?_, by decide⟩
  decide

/-- Amended claim C8: `readCentersFromFile` performs no validation and has
no failure path: a record one character short of `k` is silently encoded as
if its last symbol were doubled (the trailing newline hits no `case` of the
`switch` in `encode`, so the stale symbol code is reused), and the run
continues. -/
theorem readCenters_malformed (k : Nat) (rec : List Char) (hk : 2 ≤ k)
    (hlen : rec.length = k - 1) (hval : ∀ c ∈ rec, validChar c)
    (hne : rec ≠ []) :
    readCentersFromFile k 1 [rec] = [encode (rec ++ [rec.getLast hne]) k] := by
  simp only [readCentersFromFile, List.take, List.map]
  have hlen1 : (rec ++ ['\n']).length = k := by
    simp [hlen]; omega
  have hlen2 : (rec ++ [rec.getLast hne]).length = k := by
    simp [hlen]; omega
  have ht1 : (rec ++ ['\n']).take k = rec ++ ['\n'] := by
    rw [← hlen1]; exact List.take_length ..
  have ht2 : (rec ++ [rec.getLast hne]).take k = rec ++ [rec.getLast hne] := by
    rw [← hlen2]; exact List.take_length ..
  simp only [encode, ht1, ht2]
  rw [encodeLoop_append rec ['\n'], encodeLoop_append rec [rec.getLast hne]]
  have hsingle : ∀ (st : Nat × Nat) (c : Char), encodeLoop st [c] =
      (((st.1 <<< 2) ||| encStep st.2 c) % 2 ^ 64, encStep st.2 c) := by
    intro st c
    obtain ⟨e, x⟩ := st
    rfl
  rw [hsingle, hsingle]
  have hx : (encodeLoop (0, 0) rec).2 = (codeF (rec.getLast hne)).val :=
    encodeLoop_stale rec hne hval (0, 0)
  rw [encStep_newline, hx]
  rw [encStep_valid (hval _ (List.getLast_mem hne)) _]

theorem readCenters_malformed_witness :
    readCentersFromFile 3 1 [['A', 'C']] =
      [encode (['A', 'C'] ++ [(['A', 'C'] : List Char).getLast (by decide)]) 3] :=
  readCenters_malformed 3 ['A', 'C'] (by omega) (by decide)
    (by intro c hc; fin_cases hc <;> simp [validChar]) (by decide)

/-! ### Greedy maximal independent set tool (NoRandPairwise.cpp) -/

/-- The outer loop of `editDist` in NoRandPairwise.cpp: one full DP row per
character of the first k-mer (the inner loop computes the same three-way
minimum as `editDist2`), with the early-exit check `DPtable[i][i] > d`
after every row; on exit the diagonal value is returned. -/
def nrLoop (s2f : List (Fin 4)) (d : Nat) : List (Fin 4) → List Nat → Nat → Nat
  | [], row, i => row.getD i 0
  | c :: rest, row, i =>
      let row2 := dpStep c s2f (i + 1) row
      if d < row2.getD (i + 1) 0 then row2.getD (i + 1) 0
      else nrLoop s2f d rest row2 (i + 1)

/-- `editDist(s1, s2, k, d)` of NoRandPairwise.cpp: a full `(k+1) × (k+1)`
Levenshtein DP over the 2-bit fields of the packed operands (read
least-significant first), early-exiting as soon as the running diagonal
entry exceeds `d`. -/
def editDistNR (s1 s2 k d : Nat) : Nat :=
  nrLoop (fields s2 k) d (fields s1 k) (List.range (k + 1)) 0

theorem nrLoop_spec (s2f : List (Fin 4)) (d : Nat) :
    ∀ (rest A : List (Fin 4)),
    A.length + rest.length = s2f.length →
    nrLoop s2f d rest (rowOf A s2f) A.length =
        lev (rest.reverse ++ A) s2f.reverse ∨
    (d < nrLoop s2f d rest (rowOf A s2f) A.length ∧
      nrLoop s2f d rest (rowOf A s2f) A.length ≤
        lev (rest.reverse ++ A) s2f.reverse) := by
  intro rest
  induction rest with
  | nil =>
      intro A hlen
      simp only [List.length_nil, Nat.add_zero] at hlen
      simp only [nrLoop]
      left
      rw [show A.length = s2f.length from hlen]
      rw [rowOf_getD A s2f s2f.length (le_refl _), List.take_length ..]
      simp
  | cons c rest ih =>
      intro A hlen
      simp only [List.length_cons] at hlen
      simp only [nrLoop]
      rw [dpStep_spec c s2f A]
      have hd1 : A.length + 1 ≤ s2f.length := by omega
      have hval : (rowOf (c :: A) s2f).getD (A.length + 1) 0 =
          lev (c :: A) ((s2f.take (A.length + 1)).reverse) :=
        rowOf_getD (c :: A) s2f (A.length + 1) hd1
      have hfinal : (c :: rest).reverse ++ A = rest.reverse ++ (c :: A) := by
        simp
      have hbound : lev (c :: A) ((s2f.take (A.length + 1)).reverse) ≤
          lev (rest.reverse ++ (c :: A)) s2f.reverse := by
        apply diag_le_final rest (c :: A) s2f (A.length + 1)
        · simp only [List.length_cons]
          omega
        · simp only [List.length_cons]
          omega
      split
      case isTrue hc =>
          right
          rw [hfinal, hval]
          rw [hval] at hc
          exact ⟨hc, hbound⟩
      case isFalse hc =>
          have hrec := ih (c :: A) (by simp only [List.length_cons]; omega)
          rw [hfinal]
          simpa only [List.length_cons] using hrec

/-- The caller of `editDist` in NoRandPairwise.cpp only tests `≤ d`; this
test is exact. -/
theorem editDistNR_le_iff (s1 s2 k d : Nat) :
    editDistNR s1 s2 k d ≤ d ↔ lev (decode s1 k) (decode s2 k) ≤ d := by
  rw [lev_decode_eq_fields]
  unfold editDistNR
  rw [show k + 1 = (fields s2 k).length + 1 by rw [fields_length]]
  rw [← rowOf_nil (fields s2 k)]
  have h := nrLoop_spec (fields s2 k) d (fields s1 k) []
    (by simp [fields_length])
  simp only [List.length_nil, List.append_nil] at h
  rcases h with heq | ⟨hgt, hle⟩
  · rw [heq]
  · constructor
    · intro hc; omega
    · intro hc; omega

/-- Scan phase 1 of the greedy loop in NoRandPairwise.cpp: for
`j = 0 .. dist`, probe `MIS[lastFound + j]` then `MIS[lastFound - j]`,
stopping at the first member within distance `d`. -/
def scanNear (i k d : Nat) (MIS : List Nat) (lastFound : Nat) :
    Nat → Nat → Option Nat
  | j, dist =>
      if j ≤ dist then
        if editDistNR i (MIS.getD (lastFound + j) 0) k d ≤ d then
          some (lastFound + j)
        else if editDistNR i (MIS.getD (lastFound - j) 0) k d ≤ d then
          some (lastFound - j)
        else scanNear i k d MIS lastFound (j + 1) dist
      else none
termination_by j dist => dist + 1 - j

/-- Upward remainder scan (`j = lastFound + dist + 1; j < MIS.size(); ++j`). -/
def scanUp (i k d : Nat) (MIS : List Nat) : Nat → Option Nat
  | j =>
      if j < MIS.length then
        if editDistNR i (MIS.getD j 0) k d ≤ d then some j
        else scanUp i k d MIS (j + 1)
      else none
termination_by j => MIS.length - j

/-- Downward remainder scan (`j = lastFound - dist - 1; j >= 0 && j < ...;
--j`); the caller guards against the unsigned wrap-around of the start
index. -/
def scanDown (i k d : Nat) (MIS : List Nat) : Nat → Option Nat
  | 0 => if editDistNR i (MIS.getD 0 0) k d ≤ d then some 0 else none
  | j + 1 =>
      if editDistNR i (MIS.getD (j + 1) 0) k d ≤ d then some (j + 1)
      else scanDown i k d MIS j

/-- One iteration of the greedy loop of NoRandPairwise.cpp for candidate
`i`: the near scan around `lastFound`, then (whether or not it matched) the
remainder scan on the side chosen by `dist == lastFound`; if no member is
within `d`, the candidate joins the MIS and `lastFound` moves to it. -/
def misStep (k d : Nat) (MIS : List Nat) (lastFound : Nat) (i : Nat) :
    List Nat × Nat :=
  let dist := min lastFound (MIS.length - lastFound - 1)
  let r1 := scanNear i k d MIS lastFound 0 dist
  let lf1 := r1.getD lastFound
  let r2 :=
    if dist = lf1 then scanUp i k d MIS (lf1 + dist + 1)
    else if dist + 1 ≤ lf1 then scanDown i k d MIS (lf1 - dist - 1)
    else none
  let lf2 := r2.getD lf1
  if r1.isSome || r2.isSome then (MIS, lf2)
  else (MIS ++ [i], MIS.length)

/-- The candidate loop of NoRandPairwise.cpp: process candidates
`start, start + 1, ...` (`count` of them). -/
def misRun (k d : Nat) : Nat → Nat → List Nat → Nat → List Nat
  | _, 0, MIS, _ => MIS
  | i, n + 1, MIS, lf =>
      let st := misStep k d MIS lf i
      misRun k d (i + 1) n st.1 st.2

/-- The complete greedy construction of NoRandPairwise.cpp `main`:
`MIS = {0}`, `lastFound = 0`, then all candidates `1 .. 4^k - 1`. -/
def noRandMIS (k d : Nat) : List Nat := misRun k d 1 (4 ^ k - 1) [0] 0

theorem scanNear_none (i k d : Nat) (MIS : List Nat) (lf : Nat) :
    ∀ (j0 dist : Nat), scanNear i k d MIS lf j0 dist = none →
    ∀ j, j0 ≤ j → j ≤ dist →
      ¬(editDistNR i (MIS.getD (lf + j) 0) k d ≤ d) ∧
      ¬(editDistNR i (MIS.getD (lf - j) 0) k d ≤ d)
  | j0, dist, h => by
      rw [scanNear] at h
      by_cases hle : j0 ≤ dist
      · rw [if_pos hle] at h
        by_cases h1 : editDistNR i (MIS.getD (lf + j0) 0) k d ≤ d
        · rw [if_pos h1] at h
          exact absurd h (by simp)
        · rw [if_neg h1] at h
          by_cases h2 : editDistNR i (MIS.getD (lf - j0) 0) k d ≤ d
          · rw [if_pos h2] at h
            exact absurd h (by simp)
          · rw [if_neg h2] at h
            intro j hj0 hjd
            rcases Nat.eq_or_lt_of_le hj0 with heq | hlt
            · subst heq
              exact ⟨h1, h2⟩
            · exact scanNear_none i k d MIS lf (j0 + 1) dist h j hlt hjd
      · intro j hj0 hjd
        omega
termination_by j0 dist => dist + 1 - j0
decreasing_by simp_wf; omega

theorem scanNear_some (i k d : Nat) (MIS : List Nat) (lf : Nat) :
    ∀ (j0 dist r : Nat), scanNear i k d MIS lf j0 dist = some r →
      editDistNR i (MIS.getD r 0) k d ≤ d ∧ r ≤ lf + dist
  | j0, dist, r, h => by
      rw [scanNear] at h
      by_cases hle : j0 ≤ dist
      · rw [if_pos hle] at h
        by_cases h1 : editDistNR i (MIS.getD (lf + j0) 0) k d ≤ d
        · rw [if_pos h1] at h
          have : r = lf + j0 := by
            simpa using h.symm
          subst this
          exact ⟨h1, by omega⟩
        · rw [if_neg h1] at h
          by_cases h2 : editDistNR i (MIS.getD (lf - j0) 0) k d ≤ d
          · rw [if_pos h2] at h
            have : r = lf - j0 := by
              simpa using h.symm
            subst this
            exact ⟨h2, by omega⟩
          · rw [if_neg h2] at h
            exact scanNear_some i k d MIS lf (j0 + 1) dist r h
      · rw [if_neg hle] at h
        exact absurd h (by simp)
termination_by j0 dist r => dist + 1 - j0
decreasing_by simp_wf; omega

theorem scanUp_none (i k d : Nat) (MIS : List Nat) :
    ∀ (j0 : Nat), scanUp i k d MIS j0 = none →
    ∀ j, j0 ≤ j → j < MIS.length → ¬(editDistNR i (MIS.getD j 0) k d ≤ d)
  | j0, h => by
      rw [scanUp] at h
      by_cases hlt : j0 < MIS.length
      · rw [if_pos hlt] at h
        by_cases h1 : editDistNR i (MIS.getD j0 0) k d ≤ d
        · rw [if_pos h1] at h
          exact absurd h (by simp)
        · rw [if_neg h1] at h
          intro j hj0 hjlen
          rcases Nat.eq_or_lt_of_le hj0 with heq | hlt2
          · subst heq
            exact h1
          · exact scanUp_none i k d MIS (j0 + 1) h j hlt2 hjlen
      · intro j hj0 hjlen
        omega
termination_by j0 => MIS.length - j0
decreasing_by simp_wf; omega

theorem scanUp_some (i k d : Nat) (MIS : List Nat) :
    ∀ (j0 r : Nat), scanUp i k d MIS j0 = some r →
      editDistNR i (MIS.getD r 0) k d ≤ d ∧ r < MIS.length
  | j0, r, h => by
      rw [scanUp] at h
      by_cases hlt : j0 < MIS.length
      · rw [if_pos hlt] at h
        by_cases h1 : editDistNR i (MIS.getD j0 0) k d ≤ d
        · rw [if_pos h1] at h
          have : r = j0 := by simpa using h.symm
          subst this
          exact ⟨h1, hlt⟩
        · rw [if_neg h1] at h
          exact scanUp_some i k d MIS (j0 + 1) r h
      · rw [if_neg hlt] at h
        exact absurd h (by simp)
termination_by j0 r => MIS.length - j0
decreasing_by simp_wf; omega

theorem scanDown_none (i k d : Nat) (MIS : List Nat) :
    ∀ (j0 : Nat), scanDown i k d MIS j0 = none →
    ∀ j, j ≤ j0 → ¬(editDistNR i (MIS.getD j 0) k d ≤ d) := by
  intro j0
  induction j0 with
  | zero =>
      intro h j hj
      have hj0 : j = 0 := by omega
      subst hj0
      rw [scanDown] at h
      by_cases h1 : editDistNR i (MIS.getD 0 0) k d ≤ d
      · rw [if_pos h1] at h
        exact absurd h (by simp)
      · exact h1
  | succ j0 ih =>
      intro h j hj
      rw [scanDown] at h
      by_cases h1 : editDistNR i (MIS.getD (j0 + 1) 0) k d ≤ d
      · rw [if_pos h1] at h
        exact absurd h (by simp)
      · rw [if_neg h1] at h
        rcases Nat.eq_or_lt_of_le hj with heq | hlt
        · subst heq
          exact h1
        · exact ih h j (by omega)

theorem scanDown_some (i k d : Nat) (MIS : List Nat) :
    ∀ (j0 r : Nat), scanDown i k d MIS j0 = some r →
      editDistNR i (MIS.getD r 0) k d ≤ d ∧ r ≤ j0 := by
  intro j0
  induction j0 with
  | zero =>
      intro r h
      rw [scanDown] at h
      by_cases h1 : editDistNR i (MIS.getD 0 0) k d ≤ d
      · rw [if_pos h1] at h
        have : r = 0 := by simpa using h.symm
        subst this
        exact ⟨h1, le_refl _⟩
      · rw [if_neg h1] at h
        exact absurd h (by simp)
  | succ j0 ih =>
      intro r h
      rw [scanDown] at h
      by_cases h1 : editDistNR i (MIS.getD (j0 + 1) 0) k d ≤ d
      · rw [if_pos h1] at h
        have : r = j0 + 1 := by simpa using h.symm
        subst this
        exact ⟨h1, le_refl _⟩
      · rw [if_neg h1] at h
        obtain ⟨hc, hr⟩ := ih r h
        exact ⟨hc, by omega⟩

/-- One greedy iteration either rejects the candidate because a member
within distance `d` exists (witnessed by the search, despite the
`lastFound` ordering optimization), or accepts it after comparing with
every member present. -/
theorem misStep_spec (k d : Nat) (MIS : List Nat) (lf i : Nat)
    (hlf : lf < MIS.length) :
    ((∃ m ∈ MIS, editDistNR i m k d ≤ d) ∧ (misStep k d MIS lf i).1 = MIS ∧
      (misStep k d MIS lf i).2 < MIS.length) ∨
    ((∀ m ∈ MIS, ¬(editDistNR i m k d ≤ d)) ∧
      (misStep k d MIS lf i).1 = MIS ++ [i] ∧
      (misStep k d MIS lf i).2 = MIS.length) := by
  have hmem : ∀ j, j < MIS.length → MIS.getD j 0 ∈ MIS := by
    intro j hj
    rw [List.getD_eq_getElem MIS 0 hj]
    exact List.getElem_mem ..
  have hdist_le : min lf (MIS.length - lf - 1) ≤ lf := min_le_left _ _
  have hdist_le2 : lf + min lf (MIS.length - lf - 1) < MIS.length := by
    have := min_le_right lf (MIS.length - lf - 1)
    omega
  rcases hr1 : scanNear i k d MIS lf 0 (min lf (MIS.length - lf - 1)) with _ | j1
  · -- near scan found nothing; lf1 = lf
    by_cases heq : min lf (MIS.length - lf - 1) = lf
    · -- upward remainder scan
      rcases hr2 : scanUp i k d MIS (lf + min lf (MIS.length - lf - 1) + 1)
        with _ | j2
      · -- nothing anywhere: the candidate joins the MIS
        have hstep : misStep k d MIS lf i = (MIS ++ [i], MIS.length) := by
          simp only [misStep]
          rw [hr1]
          simp only [Option.getD_none]
          rw [if_pos heq, hr2]
          simp
        right
        have hcover : ∀ j, j < MIS.length →
            ¬(editDistNR i (MIS.getD j 0) k d ≤ d) := by
          intro j hj
          by_cases hcase : j ≤ lf + min lf (MIS.length - lf - 1)
          · rcases Nat.lt_or_ge j lf with hjlf | hjlf
            · have h := (scanNear_none i k d MIS lf 0 _ hr1 (lf - j) (by omega)
                (by omega)).2
              have hrw : lf - (lf - j) = j := by omega
              rwa [hrw] at h
            · have h := (scanNear_none i k d MIS lf 0 _ hr1 (j - lf) (by omega)
                (by omega)).1
              have hrw : lf + (j - lf) = j := by omega
              rwa [hrw] at h
          · exact scanUp_none i k d MIS _ hr2 j (by omega) hj
        refine ⟨?_, by rw [hstep], by rw [hstep]⟩
        intro m hm
        obtain ⟨j, hj, hget⟩ := List.mem_iff_getElem.mp hm
        have := hcover j hj
        rwa [List.getD_eq_getElem MIS 0 hj, hget] at this
      · -- upward scan found a close member: reject
        have hstep : misStep k d MIS lf i = (MIS, j2) := by
          simp only [misStep]
          rw [hr1]
          simp only [Option.getD_none]
          rw [if_pos heq, hr2]
          simp
        left
        obtain ⟨hc, hb⟩ := scanUp_some i k d MIS _ j2 hr2
        exact ⟨⟨MIS.getD j2 0, hmem j2 hb, hc⟩, by rw [hstep],
          by rw [hstep]; exact hb⟩
    · -- downward remainder scan
      have hdeq : min lf (MIS.length - lf - 1) = MIS.length - lf - 1 := by
        rcases min_choice lf (MIS.length - lf - 1) with h | h
        · exact absurd h heq
        · exact h
      have hguard : min lf (MIS.length - lf - 1) + 1 ≤ lf := by omega
      rcases hr2 : scanDown i k d MIS (lf - min lf (MIS.length - lf - 1) - 1)
        with _ | j2
      · -- nothing anywhere: the candidate joins the MIS
        have hstep : misStep k d MIS lf i = (MIS ++ [i], MIS.length) := by
          simp only [misStep]
          rw [hr1]
          simp only [Option.getD_none]
          rw [if_neg heq, if_pos hguard, hr2]
          simp
        right
        have hcover : ∀ j, j < MIS.length →
            ¬(editDistNR i (MIS.getD j 0) k d ≤ d) := by
          intro j hj
          by_cases hcase : j ≤ lf - min lf (MIS.length - lf - 1) - 1
          · exact scanDown_none i k d MIS _ hr2 j hcase
          · rcases Nat.lt_or_ge j lf with hjlf | hjlf
            · have h := (scanNear_none i k d MIS lf 0 _ hr1 (lf - j) (by omega)
                (by omega)).2
              have hrw : lf - (lf - j) = j := by omega
              rwa [hrw] at h
            · have h := (scanNear_none i k d MIS lf 0 _ hr1 (j - lf) (by omega)
                (by omega)).1
              have hrw : lf + (j - lf) = j := by omega
              rwa [hrw] at h
        refine ⟨?_, by rw [hstep], by rw [hstep]⟩
        intro m hm
        obtain ⟨j, hj, hget⟩ := List.mem_iff_getElem.mp hm
        have := hcover j hj
        rwa [List.getD_eq_getElem MIS 0 hj, hget] at this
      · -- downward scan found a close member: reject
        have hstep : misStep k d MIS lf i = (MIS, j2) := by
          simp only [misStep]
          rw [hr1]
          simp only [Option.getD_none]
          rw [if_neg heq, if_pos hguard, hr2]
          simp
        left
        obtain ⟨hc, hb⟩ := scanDown_some i k d MIS _ j2 hr2
        exact ⟨⟨MIS.getD j2 0, hmem j2 (by omega), hc⟩, by rw [hstep],
          by rw [hstep]; omega⟩
  · -- near scan found a close member: reject (the remainder scan still
    -- runs, as in the C code, and may move lastFound once more)
    left
    obtain ⟨hc1, hb1⟩ := scanNear_some i k d MIS lf 0 _ j1 hr1
    have hj1 : j1 < MIS.length := by omega
    have hfound : ∃ m ∈ MIS, editDistNR i m k d ≤ d :=
      ⟨MIS.getD j1 0, hmem j1 hj1, hc1⟩
    by_cases heq : min lf (MIS.length - lf - 1) = j1
    · rcases hr2 : scanUp i k d MIS (j1 + min lf (MIS.length - lf - 1) + 1)
        with _ | j2
      · have hstep : misStep k d MIS lf i = (MIS, j1) := by
          simp only [misStep]
          rw [hr1]
          simp only [Option.getD_some]
          rw [if_pos heq, hr2]
          simp
        exact ⟨hfound, by rw [hstep], by rw [hstep]; exact hj1⟩
      · have hstep : misStep k d MIS lf i = (MIS, j2) := by
          simp only [misStep]
          rw [hr1]
          simp only [Option.getD_some]
          rw [if_pos heq, hr2]
          simp
        obtain ⟨_, hb2⟩ := scanUp_some i k d MIS _ j2 hr2
        exact ⟨hfound, by rw [hstep], by rw [hstep]; exact hb2⟩
    · by_cases hguard : min lf (MIS.length - lf - 1) + 1 ≤ j1
      · rcases hr2 : scanDown i k d MIS (j1 - min lf (MIS.length - lf - 1) - 1)
          with _ | j2
        · have hstep : misStep k d MIS lf i = (MIS, j1) := by
            simp only [misStep]
            rw [hr1]
            simp only [Option.getD_some]
            rw [if_neg heq, if_pos hguard, hr2]
            simp
          exact ⟨hfound, by rw [hstep], by rw [hstep]; exact hj1⟩
        · have hstep : misStep k d MIS lf i = (MIS, j2) := by
            simp only [misStep]
            rw [hr1]
            simp only [Option.getD_some]
            rw [if_neg heq, if_pos hguard, hr2]
            simp
          obtain ⟨_, hb2⟩ := scanDown_some i k d MIS _ j2 hr2
          exact ⟨hfound, by rw [hstep], by rw [hstep]; omega⟩
      · have hstep : misStep k d MIS lf i = (MIS, j1) := by
          simp only [misStep]
          rw [hr1]
          simp only [Option.getD_some]
          rw [if_neg heq, if_neg hguard]
          simp
        exact ⟨hfound, by rw [hstep], by rw [hstep]; exact hj1⟩

theorem misRun_invariant (k d : Nat) :
    ∀ (n i : Nat) (MIS : List Nat) (lf : Nat),
    lf < MIS.length →
    (∀ a ∈ MIS, ∀ b ∈ MIS, a ≠ b → d < lev (decode a k) (decode b k)) →
    (∀ m, m < i → ∃ a ∈ MIS, lev (decode m k) (decode a k) ≤ d) →
    (∀ a ∈ misRun k d i n MIS lf, ∀ b ∈ misRun k d i n MIS lf, a ≠ b →
      d < lev (decode a k) (decode b k)) ∧
    (∀ m, m < i + n → ∃ a ∈ misRun k d i n MIS lf,
      lev (decode m k) (decode a k) ≤ d) := by
  intro n
  induction n with
  | zero =>
      intro i MIS lf hlf hpair hcov
      simp only [misRun]
      exact ⟨hpair, fun m hm => hcov m (by omega)⟩
  | succ n ih =>
      intro i MIS lf hlf hpair hcov
      simp only [misRun]
      rcases misStep_spec k d MIS lf i hlf with
        ⟨⟨m0, hm0, hc0⟩, h1, h2⟩ | ⟨hall, h1, h2⟩
      · -- candidate rejected: a member within d exists; MIS unchanged
        rw [h1]
        have hcov2 : ∀ m, m < i + 1 → ∃ a ∈ MIS,
            lev (decode m k) (decode a k) ≤ d := by
          intro m hm
          rcases Nat.lt_or_ge m i with hmi | hmi
          · exact hcov m hmi
          · have hmeq : m = i := by omega
            subst hmeq
            exact ⟨m0, hm0, (editDistNR_le_iff m m0 k d).mp hc0⟩
        obtain ⟨hp, hc⟩ := ih (i + 1) MIS ((misStep k d MIS lf i).2) h2 hpair hcov2
        exact ⟨hp, fun m hm => hc m (by omega)⟩
      · -- candidate accepted: it was beyond d from every member
        rw [h1, h2]
        have hpair2 : ∀ a ∈ MIS ++ [i], ∀ b ∈ MIS ++ [i], a ≠ b →
            d < lev (decode a k) (decode b k) := by
          intro a ha b hb hne
          rcases List.mem_append.mp ha with ha2 | ha2 <;>
            rcases List.mem_append.mp hb with hb2 | hb2
          · exact hpair a ha2 b hb2 hne
          · have hbi : b = i := by simpa using hb2
            subst hbi
            have := hall a ha2
            have hgt : d < lev (decode b k) (decode a k) := by
              have := (editDistNR_le_iff b a k d).not.mp this
              omega
            rwa [lev_comm (decode b k) (decode a k)] at hgt
          · have hai : a = i := by simpa using ha2
            subst hai
            have := hall b hb2
            have := (editDistNR_le_iff a b k d).not.mp this
            omega
          · exfalso
            apply hne
            have h3 : a = i := by simpa using ha2
            have h4 : b = i := by simpa using hb2
            rw [h3, h4]
        have hcov2 : ∀ m, m < i + 1 → ∃ a ∈ MIS ++ [i],
            lev (decode m k) (decode a k) ≤ d := by
          intro m hm
          rcases Nat.lt_or_ge m i with hmi | hmi
          · obtain ⟨a, ha, hda⟩ := hcov m hmi
            exact ⟨a, List.mem_append_left _ ha, hda⟩
          · have hmeq : m = i := by omega
            subst hmeq
            refine ⟨m, List.mem_append_right _ (by simp), ?_⟩
            rw [lev_self]
            omega
        have hlf2 : MIS.length < (MIS ++ [i]).length := by simp
        obtain ⟨hp, hc⟩ := ih (i + 1) (MIS ++ [i]) MIS.length hlf2 hpair2 hcov2
        exact ⟨hp, fun m hm => hc m (by omega)⟩

/-- Claim C10: the greedy constructor of NoRandPairwise.cpp outputs an
independent covering set: any two distinct members are at Levenshtein
distance greater than `d`, and every k-mer of the `4 ^ k` space is within
distance `d` of some member. -/
theorem noRandMIS_correct (k d : Nat) (hk : k ≤ 32) :
    (∀ a ∈ noRandMIS k d, ∀ b ∈ noRandMIS k d, a ≠ b →
      d < lev (decode a k) (decode b k)) ∧
    (∀ m, m < 4 ^ k → ∃ a ∈ noRandMIS k d,
      lev (decode m k) (decode a k) ≤ d) := by
  have h1 : 1 ≤ 4 ^ k := Nat.one_le_pow k 4 (by omega)
  have hbase := misRun_invariant k d (4 ^ k - 1) 1 [0] 0 (by simp)
    (by
      intro a ha b hb hne
      have ha0 : a = 0 := by simpa using ha
      have hb0 : b = 0 := by simpa using hb
      exact absurd (ha0.trans hb0.symm) hne)
    (by
      intro m hm
      have hm0 : m = 0 := by omega
      subst hm0
      refine ⟨0, by simp, ?_⟩
      rw [lev_self]
      omega)
  unfold noRandMIS
  obtain ⟨hp, hc⟩ := hbase
  exact ⟨hp, fun m hm => hc m (by omega)⟩

theorem noRandMIS_correct_witness :
    (1 : Nat) ≤ 32 ∧ (∀ m, m < 4 ^ 1 → ∃ a ∈ noRandMIS 1 1,
      lev (decode m 1) (decode a 1) ≤ 1) :=
  ⟨by omega, (noRandMIS_correct 1 1 (by omega)).2⟩

/-! ### Partition driver (partitionByCliquesCheckByNeighbors.c)

Packed vertices are 64-bit words; a `(k-1)`-mer carries the tag bit
`luMSB = 0x8000000000000000`.  The three splice operations below are the
bit expressions of `getNextLayer` and `conflictWithNeighbors`, written on
`Nat` with an explicit `% 2 ^ 64` where the C code relies on the insertion
head shifting the tag bit out of the word. -/

def luMSB : Nat := 2 ^ 63

/-- Deletion of field `j` (exactly `head|tail` of the deletion loops):
`head = (s >> ((j+1) << 1)) << (j << 1)`, `tail = ((1 << (j << 1)) - 1) & s`. -/
def delAt (s j : Nat) : Nat :=
  ((s >>> (2 * (j + 1))) <<< (2 * j)) ||| (s &&& (2 ^ (2 * j) - 1))

/-- Substitution at position `j - 1` by symbol `m` (the substitution loops
run `j = 1 .. k`): `head|body|tail` with `head = (s >> (j << 1)) << (j << 1)`,
`body = m << ((j-1) << 1)`, `tail = ((1 << ((j-1) << 1)) - 1) & s`. -/
def subAt (s j m : Nat) : Nat :=
  (((s >>> (2 * j)) <<< (2 * j)) ||| (m <<< (2 * (j - 1)))) |||
    (s &&& (2 ^ (2 * (j - 1)) - 1))

/-- Insertion of symbol `m` at field `j` of a tagged `(k-1)`-mer:
`head|body|tail` with `head = (s >> (j << 1)) << ((j+1) << 1)` computed in a
64-bit word, so the tag bit is shifted out (the C comment: "no need to
^luMSB as the head will shift MSB out"). -/
def insAt (s j m : Nat) : Nat :=
  ((((s >>> (2 * j)) <<< (2 * (j + 1))) % 2 ^ 64) ||| (m <<< (2 * j))) |||
    (s &&& (2 ^ (2 * j) - 1))

theorem tag_or_eq (x : Nat) (hx : x < luMSB) : x ||| luMSB = luMSB + x := by
  rw [Nat.lor_comm]
  have h := lor_two_pow_mul 63 1 x (by simpa [luMSB] using hx)
  simpa [luMSB] using h

theorem two_pow_two_mul (j : Nat) : (2 : Nat) ^ (2 * j) = 4 ^ j := by
  rw [pow_mul]
  norm_num

/-- Arithmetic form of `delAt`. -/
theorem delAt_eq (s j : Nat) :
    delAt s j = 4 ^ j * (s / 4 ^ (j + 1)) + s % 4 ^ j := by
  unfold delAt
  rw [Nat.shiftRight_eq_div_pow, Nat.shiftLeft_eq,
    Nat.and_pow_two_sub_one_eq_mod]
  rw [Nat.mul_comm (s / 2 ^ (2 * (j + 1))) (2 ^ (2 * j))]
  rw [lor_two_pow_mul (2 * j) (s / 2 ^ (2 * (j + 1))) (s % 2 ^ (2 * j))
    (Nat.mod_lt s (by positivity))]
  rw [two_pow_two_mul, two_pow_two_mul]

/-- Arithmetic form of `subAt` (position argument at least 1, symbol < 4). -/
theorem subAt_eq (s j m : Nat) (hj : 1 ≤ j) (hm : m < 4) :
    subAt s j m = 4 ^ j * (s / 4 ^ j) + m * 4 ^ (j - 1) + s % 4 ^ (j - 1) := by
  unfold subAt
  rw [Nat.shiftRight_eq_div_pow, Nat.shiftLeft_eq, Nat.shiftLeft_eq,
    Nat.and_pow_two_sub_one_eq_mod]
  rw [Nat.mul_comm (s / 2 ^ (2 * j)) (2 ^ (2 * j))]
  have hsplit : (2 : Nat) ^ (2 * j) = 2 ^ (2 * (j - 1)) * 4 := by
    have : 2 * j = 2 * (j - 1) + 2 := by omega
    rw [this, pow_add]
    norm_num
  have hb : m * 2 ^ (2 * (j - 1)) < 2 ^ (2 * j) := by
    rw [hsplit]
    calc m * 2 ^ (2 * (j - 1)) < 4 * 2 ^ (2 * (j - 1)) :=
          (Nat.mul_lt_mul_right (by positivity)).mpr hm
      _ = 2 ^ (2 * (j - 1)) * 4 := by ring
  rw [lor_two_pow_mul (2 * j) (s / 2 ^ (2 * j)) (m * 2 ^ (2 * (j - 1))) hb]
  have hmul : 2 ^ (2 * j) * (s / 2 ^ (2 * j)) + m * 2 ^ (2 * (j - 1)) =
      2 ^ (2 * (j - 1)) * (4 * (s / 2 ^ (2 * j)) + m) := by
    rw [hsplit]
    ring
  rw [hmul, lor_two_pow_mul (2 * (j - 1)) (4 * (s / 2 ^ (2 * j)) + m)
    (s % 2 ^ (2 * (j - 1))) (Nat.mod_lt s (by positivity))]
  rw [two_pow_two_mul, two_pow_two_mul]
  have key : 4 ^ (j - 1) * (4 * (s / 4 ^ j) + m) =
      4 ^ j * (s / 4 ^ j) + m * 4 ^ (j - 1) := by
    rw [show (4 : Nat) ^ j = 4 ^ (j - 1) * 4 by
      rw [← pow_succ]
      congr 1
      omega]
    ring
  rw [key]

/-- Arithmetic form of `insAt` on a properly tagged `(k-1)`-mer: the tag
bit is shifted out of the 64-bit word. -/
theorem insAt_eq (v j m : Nat) (hj : 2 * j + 2 ≤ 63) (hv : v < 2 ^ 61)
    (hm : m < 4) :
    insAt (luMSB + v) j m =
      4 ^ (j + 1) * (v / 4 ^ j) + m * 4 ^ j + v % 4 ^ j := by
  unfold insAt
  rw [Nat.shiftRight_eq_div_pow, Nat.shiftLeft_eq, Nat.shiftLeft_eq,
    Nat.and_pow_two_sub_one_eq_mod]
  have hdvd : (2 : Nat) ^ (2 * j) ∣ luMSB := by
    unfold luMSB
    exact pow_dvd_pow 2 (by omega)
  have hdiv : (luMSB + v) / 2 ^ (2 * j) = 2 ^ (63 - 2 * j) + v / 2 ^ (2 * j) := by
    obtain ⟨c, hc⟩ := hdvd
    rw [show luMSB + v = v + 2 ^ (2 * j) * c by omega]
    rw [Nat.add_mul_div_left v c (by positivity)]
    have hc2 : c = 2 ^ (63 - 2 * j) := by
      have hpow : (2 : Nat) ^ (2 * j) * 2 ^ (63 - 2 * j) = 2 ^ 63 := by
        rw [← pow_add]
        congr 1
        omega
      have hMS : luMSB = 2 ^ 63 := rfl
      have := hc
      rw [hMS] at this
      have hpos : (0 : Nat) < 2 ^ (2 * j) := by positivity
      nlinarith [hpow, this]
    omega
  have hmod : (luMSB + v) % 2 ^ (2 * j) = v % 2 ^ (2 * j) := by
    obtain ⟨c, hc⟩ := hdvd
    rw [hc, Nat.add_comm, Nat.add_mul_mod_self_left]
  rw [hdiv, hmod]
  have hwrap : (2 ^ (63 - 2 * j) + v / 2 ^ (2 * j)) * 2 ^ (2 * (j + 1)) % 2 ^ 64 =
      v / 2 ^ (2 * j) * 2 ^ (2 * (j + 1)) := by
    have hsplit : (2 : Nat) ^ (63 - 2 * j) * 2 ^ (2 * (j + 1)) = 2 ^ 64 * 2 := by
      rw [← pow_add, ← pow_succ]
      congr 1
      omega
    rw [Nat.add_mul, hsplit]
    have hXlt : v / 2 ^ (2 * j) * 2 ^ (2 * (j + 1)) < 2 ^ 64 := by
      calc v / 2 ^ (2 * j) * 2 ^ (2 * (j + 1)) ≤ v * 2 ^ 2 := by
            rw [show 2 * (j + 1) = 2 * j + 2 by omega, pow_add]
            rw [← Nat.mul_assoc]
            apply Nat.mul_le_mul_right
            exact Nat.div_mul_le_self ..
        _ < 2 ^ 61 * 2 ^ 2 :=
            (Nat.mul_lt_mul_right (by positivity)).mpr hv
        _ ≤ 2 ^ 64 := by norm_num
    omega
  rw [hwrap]
  rw [Nat.mul_comm (v / 2 ^ (2 * j)) (2 ^ (2 * (j + 1)))]
  have hb : m * 2 ^ (2 * j) < 2 ^ (2 * (j + 1)) := by
    have : (2 : Nat) ^ (2 * (j + 1)) = 4 * 2 ^ (2 * j) := by
      rw [show 2 * (j + 1) = 2 + 2 * j by omega, pow_add]
      norm_num
    rw [this]
    exact (Nat.mul_lt_mul_right (by positivity)).mpr hm
  rw [lor_two_pow_mul (2 * (j + 1)) (v / 2 ^ (2 * j)) (m * 2 ^ (2 * j)) hb]
  have hmul : 2 ^ (2 * (j + 1)) * (v / 2 ^ (2 * j)) + m * 2 ^ (2 * j) =
      2 ^ (2 * j) * (4 * (v / 2 ^ (2 * j)) + m) := by
    rw [show 2 * (j + 1) = 2 * j + 2 by omega, pow_add]
    ring
  rw [hmul, lor_two_pow_mul (2 * j) (4 * (v / 2 ^ (2 * j)) + m)
    (v % 2 ^ (2 * j)) (Nat.mod_lt v (by positivity))]
  rw [two_pow_two_mul]
  have key : 4 ^ j * (4 * (v / 4 ^ j) + m) =
      4 ^ (j + 1) * (v / 4 ^ j) + m * 4 ^ j := by
    rw [pow_succ]
    ring
  rw [key]

theorem fields_add_mul_pow :
    ∀ (j : Nat) (T H k : Nat), T < 4 ^ j → j ≤ k →
    fields (4 ^ j * H + T) k = fields T j ++ fields H (k - j)
  | 0, T, H, k, hT, hjk => by
      have hT0 : T = 0 := by
        simp only [pow_zero] at hT
        omega
      subst hT0
      simp [fields]
  | j + 1, T, H, k, hT, hjk => by
      obtain ⟨k2, rfl⟩ : ∃ k2, k = k2 + 1 := ⟨k - 1, by omega⟩
      have hrw : 4 ^ (j + 1) * H + T = 4 * (4 ^ j * H) + T := by
        rw [pow_succ]
        ring
      simp only [fields, hrw]
      have hmod : (4 * (4 ^ j * H) + T) % 4 = T % 4 := Nat.mul_add_mod ..
      have hdiv : (4 * (4 ^ j * H) + T) / 4 = 4 ^ j * H + T / 4 :=
        Nat.mul_add_div (by omega) ..
      have hT4 : T / 4 < 4 ^ j := by
        rw [pow_succ] at hT
        omega
      rw [hdiv, fields_add_mul_pow j (T / 4) H k2 hT4 (by omega)]
      simp only [List.cons_append, Nat.succ_sub_succ]
      congr 1
      exact Fin.ext hmod

theorem eraseIdx_append_len {β : Type} (A B : List β) (n : Nat)
    (h : n = A.length) : (A ++ B).eraseIdx n = A ++ B.eraseIdx 0 := by
  subst h
  induction A with
  | nil => rfl
  | cons a A ih => simp [List.eraseIdx_cons_succ, ih]

theorem set_append_len {β : Type} (A B : List β) (v : β) (n : Nat)
    (h : n = A.length) : (A ++ B).set n v = A ++ B.set 0 v := by
  subst h
  induction A with
  | nil => rfl
  | cons a A ih => simp [List.set_cons_succ, ih]

theorem insertIdx_append_len {β : Type} (A B : List β) (v : β) (n : Nat)
    (h : n = A.length) : (A ++ B).insertIdx n v = A ++ v :: B := by
  subst h
  induction A with
  | nil => rfl
  | cons a A ih => simp [List.insertIdx_succ_cons, ih]

/-- `delAt` implements erasure of digit `j`. -/
theorem delAt_fields (k s j : Nat) (hs : s < 4 ^ k) (hj : j < k) :
    delAt s j < 4 ^ (k - 1) ∧
    fields (delAt s j) (k - 1) = (fields s k).eraseIdx j := by
  have hmod : s % 4 ^ j < 4 ^ j := Nat.mod_lt s (by positivity)
  have hdiv : s / 4 ^ (j + 1) < 4 ^ (k - 1 - j) := by
    rw [Nat.div_lt_iff_lt_mul (by positivity)]
    calc s < 4 ^ k := hs
      _ = 4 ^ (k - 1 - j) * 4 ^ (j + 1) := by
          rw [← pow_add]
          congr 1
          omega
  constructor
  · rw [delAt_eq]
    calc 4 ^ j * (s / 4 ^ (j + 1)) + s % 4 ^ j
        < 4 ^ j * (s / 4 ^ (j + 1)) + 4 ^ j := by omega
      _ = 4 ^ j * (s / 4 ^ (j + 1) + 1) := by ring
      _ ≤ 4 ^ j * 4 ^ (k - 1 - j) := by
          apply Nat.mul_le_mul_left
          omega
      _ = 4 ^ (k - 1) := by
          rw [← pow_add]
          congr 1
          omega
  · rw [delAt_eq]
    rw [fields_add_mul_pow j (s % 4 ^ j) (s / 4 ^ (j + 1)) (k - 1) hmod
      (by omega)]
    have hsdecomp : fields s k = fields (s % 4 ^ j) j ++
        fields (s / 4 ^ j) (k - j) := by
      conv_lhs => rw [show s = 4 ^ j * (s / 4 ^ j) + s % 4 ^ j by
        rw [Nat.div_add_mod ..]]
      exact fields_add_mul_pow j (s % 4 ^ j) (s / 4 ^ j) k hmod (by omega)
    rw [hsdecomp]
    have hlenA : (fields (s % 4 ^ j) j).length = j := fields_length ..
    rw [eraseIdx_append_len _ _ j hlenA.symm]
    congr 1
    obtain ⟨c, hc⟩ : ∃ c, k - j = c + 1 := ⟨k - j - 1, by omega⟩
    rw [hc]
    simp only [fields, List.eraseIdx_cons_zero]
    rw [Nat.div_div_eq_div_mul, ← pow_succ]
    congr 1
    omega

/-- `subAt` implements setting digit `j - 1`. -/
theorem subAt_fields (k s j m : Nat) (hs : s < 4 ^ k) (hj1 : 1 ≤ j)
    (hjk : j ≤ k) (hm : m < 4) :
    subAt s j m < 4 ^ k ∧
    fields (subAt s j m) k = (fields s k).set (j - 1) ⟨m, hm⟩ := by
  have hmod : s % 4 ^ (j - 1) < 4 ^ (j - 1) := Nat.mod_lt s (by positivity)
  have hdiv : s / 4 ^ j < 4 ^ (k - j) := by
    rw [Nat.div_lt_iff_lt_mul (by positivity)]
    calc s < 4 ^ k := hs
      _ = 4 ^ (k - j) * 4 ^ j := by
          rw [← pow_add]
          congr 1
          omega
  have hinner : m * 4 ^ (j - 1) + s % 4 ^ (j - 1) < 4 ^ j := by
    calc m * 4 ^ (j - 1) + s % 4 ^ (j - 1)
        < m * 4 ^ (j - 1) + 4 ^ (j - 1) := by omega
      _ = (m + 1) * 4 ^ (j - 1) := by ring
      _ ≤ 4 * 4 ^ (j - 1) := by
          apply Nat.mul_le_mul_right
          omega
      _ = 4 ^ j := by
          rw [← pow_succ']
          congr 1
          omega
  have hval : subAt s j m = 4 ^ j * (s / 4 ^ j) +
      (m * 4 ^ (j - 1) + s % 4 ^ (j - 1)) := by
    rw [subAt_eq s j m hj1 hm]
    ring
  constructor
  · rw [hval]
    calc 4 ^ j * (s / 4 ^ j) + (m * 4 ^ (j - 1) + s % 4 ^ (j - 1))
        < 4 ^ j * (s / 4 ^ j) + 4 ^ j := Nat.add_lt_add_left hinner _
      _ = 4 ^ j * (s / 4 ^ j + 1) := by ring
      _ ≤ 4 ^ j * 4 ^ (k - j) := by
          apply Nat.mul_le_mul_left
          omega
      _ = 4 ^ k := by
          rw [← pow_add]
          congr 1
          omega
  · rw [hval]
    rw [show k = j + (k - j) by omega]
    rw [fields_add_mul_pow j (m * 4 ^ (j - 1) + s % 4 ^ (j - 1)) (s / 4 ^ j)
      (j + (k - j)) hinner (by omega)]
    have hX : fields (m * 4 ^ (j - 1) + s % 4 ^ (j - 1)) j =
        fields (s % 4 ^ (j - 1)) (j - 1) ++ fields m 1 := by
      rw [show m * 4 ^ (j - 1) + s % 4 ^ (j - 1) =
        4 ^ (j - 1) * m + s % 4 ^ (j - 1) by ring]
      rw [fields_add_mul_pow (j - 1) (s % 4 ^ (j - 1)) m j hmod (by omega)]
      congr 2
      omega
    have hfm : fields m 1 = [(⟨m, hm⟩ : Fin 4)] := by
      simp only [fields]
      congr 1
      exact Fin.ext (by simpa using Nat.mod_eq_of_lt hm)
    have hsdecomp : fields s (j + (k - j)) = fields (s % 4 ^ (j - 1)) (j - 1) ++
        fields (s / 4 ^ (j - 1)) (j + (k - j) - (j - 1)) := by
      conv_lhs => rw [show s = 4 ^ (j - 1) * (s / 4 ^ (j - 1)) + s % 4 ^ (j - 1) by
        rw [Nat.div_add_mod ..]]
      exact fields_add_mul_pow (j - 1) (s % 4 ^ (j - 1)) (s / 4 ^ (j - 1))
        (j + (k - j)) hmod (by omega)
    rw [hX, hfm, hsdecomp]
    have hlenA : (fields (s % 4 ^ (j - 1)) (j - 1)).length = j - 1 :=
      fields_length ..
    rw [set_append_len _ _ _ (j - 1) hlenA.symm]
    rw [List.append_assoc]
    congr 1
    obtain ⟨c, hc⟩ : ∃ c, j + (k - j) - (j - 1) = c + 1 := ⟨k - j + 1 - 1, by omega⟩
    rw [hc]
    simp only [fields, List.set_cons_zero, List.singleton_append]
    congr 1
    rw [Nat.div_div_eq_div_mul, ← pow_succ]
    congr 2
    · congr 1
      omega
    · omega

/-- `insAt` on a tagged `(k-1)`-mer implements insertion of a digit at
position `j`. -/
theorem insAt_fields (k v j m : Nat) (hk31 : k ≤ 31) (hk1 : 1 ≤ k)
    (hv : v < 4 ^ (k - 1)) (hj : j < k) (hm : m < 4) :
    insAt (luMSB + v) j m < 4 ^ k ∧
    fields (insAt (luMSB + v) j m) k = (fields v (k - 1)).insertIdx j ⟨m, hm⟩ := by
  have hv61 : v < 2 ^ 61 := by
    calc v < 4 ^ (k - 1) := hv
      _ ≤ 4 ^ 30 := Nat.pow_le_pow_right (by omega) (by omega)
      _ < 2 ^ 61 := by norm_num
  have hj63 : 2 * j + 2 ≤ 63 := by omega
  have heq := insAt_eq v j m hj63 hv61 hm
  have hmod : v % 4 ^ j < 4 ^ j := Nat.mod_lt v (by positivity)
  have hdiv : v / 4 ^ j < 4 ^ (k - 1 - j) := by
    rw [Nat.div_lt_iff_lt_mul (by positivity)]
    calc v < 4 ^ (k - 1) := hv
      _ = 4 ^ (k - 1 - j) * 4 ^ j := by
          rw [← pow_add]
          congr 1
          omega
  have hinner : m * 4 ^ j + v % 4 ^ j < 4 ^ (j + 1) := by
    calc m * 4 ^ j + v % 4 ^ j < m * 4 ^ j + 4 ^ j := by omega
      _ = (m + 1) * 4 ^ j := by ring
      _ ≤ 4 * 4 ^ j := by
          apply Nat.mul_le_mul_right
          omega
      _ = 4 ^ (j + 1) := (pow_succ' 4 j).symm
  have hval : insAt (luMSB + v) j m = 4 ^ (j + 1) * (v / 4 ^ j) +
      (m * 4 ^ j + v % 4 ^ j) := by
    rw [heq]
    ring
  constructor
  · rw [hval]
    calc 4 ^ (j + 1) * (v / 4 ^ j) + (m * 4 ^ j + v % 4 ^ j)
        < 4 ^ (j + 1) * (v / 4 ^ j) + 4 ^ (j + 1) := by omega
      _ = 4 ^ (j + 1) * (v / 4 ^ j + 1) := by ring
      _ ≤ 4 ^ (j + 1) * 4 ^ (k - 1 - j) := by
          apply Nat.mul_le_mul_left
          omega
      _ = 4 ^ k := by
          rw [← pow_add]
          congr 1
          omega
  · rw [hval]
    rw [show k = (j + 1) + (k - 1 - j) by omega]
    rw [fields_add_mul_pow (j + 1) (m * 4 ^ j + v % 4 ^ j) (v / 4 ^ j)
      ((j + 1) + (k - 1 - j)) hinner (by omega)]
    have hX : fields (m * 4 ^ j + v % 4 ^ j) (j + 1) =
        fields (v % 4 ^ j) j ++ [(⟨m, hm⟩ : Fin 4)] := by
      rw [show m * 4 ^ j + v % 4 ^ j = 4 ^ j * m + v % 4 ^ j by ring]
      rw [fields_add_mul_pow j (v % 4 ^ j) m (j + 1) hmod (by omega)]
      congr 1
      simp only [Nat.add_sub_cancel_left, fields]
      congr 1
      exact Fin.ext (by simpa using Nat.mod_eq_of_lt hm)
  -- digits of v split at j
    have hvdecomp : fields v (k - 1) = fields (v % 4 ^ j) j ++
        fields (v / 4 ^ j) (k - 1 - j) := by
      conv_lhs => rw [show v = 4 ^ j * (v / 4 ^ j) + v % 4 ^ j by
        rw [Nat.div_add_mod ..]]
      exact fields_add_mul_pow j (v % 4 ^ j) (v / 4 ^ j) (k - 1) hmod (by omega)
    rw [hX]
    rw [show j + 1 + (k - 1 - j) - 1 = k - 1 by omega]
    rw [hvdecomp]
    have hlenA : (fields (v % 4 ^ j) j).length = j := fields_length ..
    rw [insertIdx_append_len _ _ _ j hlenA.symm]
    rw [List.append_assoc]
    rw [show j + 1 + (k - 1 - j) - (j + 1) = k - 1 - j by omega]
    simp

/-! ### The restricted edit graph explored by the BFS loops

`getNextLayer` and `conflictWithNeighbors` both explore the same graph on
packed vertices: an untagged value packs a `k`-mer, a value with the MSB
set (`luMSB`) packs a `(k-1)`-mer.  An untagged vertex generates tagged
deletions and untagged substitutions; a tagged vertex generates untagged
insertions. -/

/-- The symbol string packed in a vertex value: a `k`-mer if untagged, a
`(k-1)`-mer if tagged. -/
def vstr (k x : Nat) : List (Fin 4) :=
  if x < luMSB then fields x k else fields (x - luMSB) (k - 1)

/-- Well-formed vertex values for word length `k`: an untagged `k`-mer or a
tagged `(k-1)`-mer. -/
def wfV (k x : Nat) : Prop :=
  (x < luMSB ∧ x < 4 ^ k) ∨ (luMSB ≤ x ∧ x - luMSB < 4 ^ (k - 1))

instance (k x : Nat) : Decidable (wfV k x) := by unfold wfV; infer_instance

/-- One expansion edge of the BFS loops: the candidates generated from a
vertex by the splice expressions in the C sources. -/
inductive RStep (k : Nat) : Nat → Nat → Prop
  | del (s j : Nat) : s < luMSB → j < k → RStep k s (delAt s j ||| luMSB)
  | sub (s j m : Nat) : s < luMSB → 1 ≤ j → j ≤ k → m < 4 →
      RStep k s (subAt s j m)
  | ins (s j m : Nat) : luMSB ≤ s → j < k → m < 4 → RStep k s (insAt s j m)

/-- Reachability within `n` steps of the restricted edit graph. -/
inductive RReach (k : Nat) : Nat → Nat → Nat → Prop
  | refl (n s : Nat) : RReach k n s s
  | step {n a b c : Nat} : RStep k a b → RReach k n b c → RReach k (n + 1) a c

theorem four_pow_lt_luMSB {k : Nat} (hk : k ≤ 31) : 4 ^ k < luMSB := by
  calc 4 ^ k ≤ 4 ^ 31 := Nat.pow_le_pow_right (by omega) hk
    _ < luMSB := by norm_num [luMSB]

theorem lev_eq_zero : ∀ {a b : List α}, lev a b = 0 → a = b
  | [], [], _ => rfl
  | [], y :: ys, h => by simp [lev_nil_left] at h
  | x :: xs, [], h => by simp [lev_nil_right] at h
  | x :: xs, y :: ys, h => by
      rw [lev_cons_cons] at h
      have h1 : lev xs ys + (if x = y then 0 else 1) = 0 ∧
          lev xs (y :: ys) + 1 > 0 ∧ lev (x :: xs) ys + 1 > 0 := by
        omega
      have hxy : x = y := by
        by_contra hne
        rw [if_neg hne] at h1
        omega
      have hxs : xs = ys := lev_eq_zero (by omega)
      rw [hxy, hxs]

theorem edit_eraseIdx : ∀ (l : List α) (j : Nat), j < l.length →
    Edit l (l.eraseIdx j)
  | [], j, h => by simp at h
  | x :: xs, 0, _ => by simpa using Edit.del x xs
  | x :: xs, j + 1, h => by
      simp only [List.eraseIdx_cons_succ]
      exact Edit.lift x (edit_eraseIdx xs j (by simpa using h))

theorem edit_set : ∀ (l : List α) (j : Nat) (m : α), j < l.length →
    Edit l (l.set j m)
  | [], j, m, h => by simp at h
  | x :: xs, 0, m, _ => by simpa using Edit.sub x m xs
  | x :: xs, j + 1, m, h => by
      simp only [List.set_cons_succ]
      exact Edit.lift x (edit_set xs j m (by simpa using h))

theorem edit_insertIdx : ∀ (l : List α) (j : Nat) (m : α), j ≤ l.length →
    Edit l (l.insertIdx j m)
  | l, 0, m, _ => by simpa using Edit.ins m l
  | [], j + 1, m, h => by simp at h
  | x :: xs, j + 1, m, h => by
      simp only [List.insertIdx_succ_cons]
      exact Edit.lift x (edit_insertIdx xs j m (by simpa using h))

theorem lev_le_one_of_edit {a b : List α} (e : Edit a b) : lev a b ≤ 1 := by
  have h := lev_le_of_edit e b
  rw [lev_self] at h
  omega

/-- An untagged well-formed vertex packs a value below `4 ^ k`. -/
theorem wfV_untagged {k x : Nat} (h : wfV k x) (hx : x < luMSB) : x < 4 ^ k := by
  rcases h with ⟨_, h2⟩ | ⟨h1, _⟩
  · exact h2
  · omega

/-- A tagged well-formed vertex packs a value below `4 ^ (k - 1)`. -/
theorem wfV_tagged {k x : Nat} (h : wfV k x) (hx : luMSB ≤ x) :
    x - luMSB < 4 ^ (k - 1) := by
  rcases h with ⟨h1, _⟩ | ⟨_, h2⟩
  · omega
  · exact h2

theorem luMSB_add_sub (x : Nat) (hx : luMSB ≤ x) : luMSB + (x - luMSB) = x := by
  omega

/-- A deletion step: the candidate value, its bound, and its packed string. -/
theorem rstep_del_spec {k : Nat} (hk31 : k ≤ 31) {s : Nat} (hs : s < 4 ^ k)
    {j : Nat} (hj : j < k) :
    delAt s j ||| luMSB = luMSB + delAt s j ∧ delAt s j < 4 ^ (k - 1) ∧
    fields (delAt s j) (k - 1) = (fields s k).eraseIdx j := by
  obtain ⟨hb, hf⟩ := delAt_fields k s j hs hj
  refine ⟨tag_or_eq _ ?_, hb, hf⟩
  calc delAt s j < 4 ^ (k - 1) := hb
    _ ≤ 4 ^ k := Nat.pow_le_pow_right (by omega) (by omega)
    _ < luMSB := four_pow_lt_luMSB hk31

/-- An insertion step applied to a tagged vertex, in terms of the packed
`(k-1)`-mer it carries. -/
theorem rstep_ins_spec {k : Nat} (hk1 : 1 ≤ k) (hk31 : k ≤ 31) {t : Nat}
    (ht : luMSB ≤ t) (htb : t - luMSB < 4 ^ (k - 1)) {j m : Nat} (hj : j < k)
    (hm : m < 4) :
    insAt t j m < 4 ^ k ∧
    fields (insAt t j m) k = (fields (t - luMSB) (k - 1)).insertIdx j ⟨m, hm⟩ := by
  have hrw : luMSB + (t - luMSB) = t := luMSB_add_sub t ht
  obtain ⟨hb, hf⟩ := insAt_fields k (t - luMSB) j m (by omega) hk1 htb hj hm
  rw [hrw] at hb hf
  exact ⟨hb, hf⟩

/-- A step of the restricted graph preserves well-formedness. -/
theorem wfV_rstep {k : Nat} (hk1 : 1 ≤ k) (hk31 : k ≤ 31) {a b : Nat}
    (ha : wfV k a) (h : RStep k a b) : wfV k b := by
  induction h with
  | del j hs hj =>
      obtain ⟨heq, hb, _⟩ := rstep_del_spec hk31 (wfV_untagged ha hs) hj
      right
      rw [heq]
      constructor
      · omega
      · simpa using hb
  | sub j m hs hj1 hjk hm =>
      obtain ⟨hb, _⟩ := subAt_fields k a j m (wfV_untagged ha hs) hj1 hjk hm
      left
      exact ⟨lt_trans hb (four_pow_lt_luMSB hk31), hb⟩
  | ins j m hs hj hm =>
      obtain ⟨hb, _⟩ := rstep_ins_spec hk1 hk31 hs (wfV_tagged ha hs) hj hm
      left
      exact ⟨lt_trans hb (four_pow_lt_luMSB hk31), hb⟩

/-- A step of the restricted graph moves the packed string by at most one
edit. -/
theorem rstep_lev_le_one {k : Nat} (hk1 : 1 ≤ k) (hk31 : k ≤ 31) {a b : Nat}
    (ha : wfV k a) (h : RStep k a b) : lev (vstr k a) (vstr k b) ≤ 1 := by
  induction h with
  | del j hs hj =>
      obtain ⟨heq, hb, hf⟩ := rstep_del_spec hk31 (wfV_untagged ha hs) hj
      rw [vstr, if_pos hs, vstr, heq, if_neg (by omega)]
      rw [Nat.add_sub_cancel_left, hf]
      rcases Nat.lt_or_ge j (fields a k).length with hlt | hge
      · exact lev_le_one_of_edit (edit_eraseIdx _ j hlt)
      · rw [List.eraseIdx_of_length_le hge, lev_self]
        omega
  | sub j m hs hj1 hjk hm =>
      obtain ⟨hb, hf⟩ := subAt_fields k a j m (wfV_untagged ha hs) hj1 hjk hm
      rw [vstr, if_pos hs, vstr, if_pos (lt_trans hb (four_pow_lt_luMSB hk31))]
      rw [hf]
      have hjlen : j - 1 < (fields a k).length := by
        rw [fields_length]
        omega
      exact lev_le_one_of_edit (edit_set _ (j - 1) _ hjlen)
  | ins j m hs hj hm =>
      obtain ⟨hb, hf⟩ := rstep_ins_spec hk1 hk31 hs (wfV_tagged ha hs) hj hm
      rw [vstr, if_neg (by omega), vstr, if_pos (lt_trans hb (four_pow_lt_luMSB hk31))]
      rw [hf]
      have hjlen : j ≤ (fields (a - luMSB) (k - 1)).length := by
        rw [fields_length]
        omega
      exact lev_le_one_of_edit (edit_insertIdx _ j _ hjlen)

/-- Two packed `k`-mers at Levenshtein distance at most `n` are joined by at
most `n` steps of the restricted graph: a substitution covers one edit and a
deletion followed by an insertion covers two. -/
theorem rreach_of_lev {k : Nat} (hk1 : 1 ≤ k) (hk31 : k ≤ 31) :
    ∀ (n s t : Nat), s < 4 ^ k → t < 4 ^ k →
    lev (fields s k) (fields t k) ≤ n → RReach k n s t
  | 0, s, t, hs, ht, hlev => by
      have hst : s = t := by
        have heq := lev_eq_zero (Nat.le_zero.mp hlev)
        have h1 := natOfFields_fields k s hs
        have h2 := natOfFields_fields k t ht
        rw [← h1, ← h2, heq]
      rw [hst]
      exact RReach.refl 0 t
  | n + 1, s, t, hs, ht, hlev => by
      by_cases h0 : lev (fields s k) (fields t k) = 0
      · have hst : s = t := by
          have heq := lev_eq_zero h0
          have h1 := natOfFields_fields k s hs
          have h2 := natOfFields_fields k t ht
          rw [← h1, ← h2, heq]
        rw [hst]
        exact RReach.refl (n + 1) t
      · have hlen : (fields s k).length = (fields t k).length := by
          rw [fields_length, fields_length]
        have hpos : 1 ≤ lev (fields s k) (fields t k) := by omega
        have hsMSB : s < luMSB := lt_trans hs (four_pow_lt_luMSB hk31)
        rcases lev_step_decomp (fields s k) (fields t k) hlen hpos with
          ⟨j, m, hj, hle⟩ | ⟨h2, j, j2, m, hj, hj2, hle⟩
        · -- one substitution makes progress 1
          rw [fields_length] at hj
          obtain ⟨hb, hf⟩ := subAt_fields k s (j + 1) m.val hs (by omega)
            (by omega) m.isLt
          have hstep : RStep k s (subAt s (j + 1) m.val) :=
            RStep.sub s (j + 1) m.val hsMSB (by omega) (by omega) m.isLt
          have hlev2 : lev (fields (subAt s (j + 1) m.val) k) (fields t k) ≤ n := by
            rw [hf]
            simp only [Nat.add_sub_cancel]
            have hfin : (⟨m.val, m.isLt⟩ : Fin 4) = m := rfl
            rw [hfin]
            omega
          exact RReach.step hstep (rreach_of_lev hk1 hk31 n _ t hb ht hlev2)
        · -- one deletion followed by one insertion makes progress 2
          rw [fields_length] at hj hj2
          obtain ⟨n2, hn2⟩ : ∃ n2, n = n2 + 1 := ⟨n - 1, by omega⟩
          obtain ⟨heq, hbd, hfd⟩ := rstep_del_spec hk31 hs hj
          have hstep1 : RStep k s (delAt s j ||| luMSB) :=
            RStep.del s j hsMSB hj
          have htag : luMSB ≤ delAt s j ||| luMSB := by rw [heq]; omega
          have hsub : (delAt s j ||| luMSB) - luMSB = delAt s j := by
            rw [heq]
            omega
          obtain ⟨hbi, hfi⟩ := rstep_ins_spec hk1 hk31 htag
            (by rw [hsub]; exact hbd) (j := j2) (m := m.val) hj2 m.isLt
          have hstep2 : RStep k (delAt s j ||| luMSB)
              (insAt (delAt s j ||| luMSB) j2 m.val) :=
            RStep.ins _ j2 m.val htag hj2 m.isLt
          have hlev2 : lev (fields (insAt (delAt s j ||| luMSB) j2 m.val) k)
              (fields t k) ≤ n2 := by
            rw [hfi, hsub, hfd]
            have hfin : (⟨m.val, m.isLt⟩ : Fin 4) = m := rfl
            rw [hfin]
            omega
          rw [hn2]
          exact RReach.step hstep1 (RReach.step hstep2
            (rreach_of_lev hk1 hk31 n2 _ t hbi ht hlev2))

theorem le_lor_right : ∀ (b a : Nat), b ≤ a ||| b
  | 0, a => Nat.zero_le _
  | b + 1, a => by
      have ih := le_lor_right ((b + 1) / 2) (a / 2)
      have h1 : a = Nat.bit (a % 2 == 1) (a / 2) := by
        rcases Nat.mod_two_eq_zero_or_one a with h | h <;>
          simp [Nat.bit, h] <;> omega
      have h2 : b + 1 = Nat.bit ((b + 1) % 2 == 1) ((b + 1) / 2) := by
        rcases Nat.mod_two_eq_zero_or_one (b + 1) with h | h <;>
          simp [Nat.bit, h] <;> omega
      conv_lhs => rw [h2]
      conv_rhs => rw [h1, h2, Nat.lor_bit]
      rcases Nat.mod_two_eq_zero_or_one a with ha | ha <;>
        rcases Nat.mod_two_eq_zero_or_one (b + 1) with hb | hb <;>
          simp [Nat.bit, ha, hb] <;> omega

/-- The tagged value built by the BFS deletion branches is tagged. -/
theorem luMSB_le_lor (x : Nat) : luMSB ≤ x ||| luMSB := le_lor_right luMSB x

/-! ### Driver state (partitionByCliquesCheckByNeighbors.c: `main`)

The driver keeps the label array `h` (one `int` per `k`-mer) and the
bitmap `h_m1` (one flag per `(k-1)`-mer).  We model both as functions. -/

structure PState where
  h : Nat → Int
  hm1 : Nat → Bool

/-- Point update of the label array. -/
def upd (f : Nat → Int) (i : Nat) (v : Int) : Nat → Int :=
  fun x => if x = i then v else f x

/-- Point update of the visited bitmap (the program only ever sets TRUE). -/
def updB (f : Nat → Bool) (i : Nat) : Nat → Bool :=
  fun x => if x = i then true else f x

theorem upd_same (f : Nat → Int) (i : Nat) (v : Int) : upd f i v i = v := by
  simp [upd]

theorem upd_ne (f : Nat → Int) {i x : Nat} (v : Int) (hx : x ≠ i) :
    upd f i v x = f x := by
  simp [upd, hx]

theorem updB_same (f : Nat → Bool) (i : Nat) : updB f i i = true := by
  simp [updB]

theorem updB_ne (f : Nat → Bool) {i x : Nat} (hx : x ≠ i) :
    updB f i x = f x := by
  simp [updB, hx]

/-- The `(j, m)` index pairs enumerated by the nested
`for(j...)for(m=0;m<4;...)` loops, in loop order. -/
def jmList : Nat → List (Nat × Nat)
  | 0 => []
  | k + 1 => jmList k ++ [(k, 0), (k, 1), (k, 2), (k, 3)]

theorem mem_jmList {k j m : Nat} : (j, m) ∈ jmList k ↔ j < k ∧ m < 4 := by
  induction k with
  | zero => simp [jmList]
  | succ k ih =>
      simp only [jmList, List.mem_append]
      constructor
      · intro h
        rcases h with h | h
        · have := ih.mp h
          omega
        · simp only [List.mem_cons, Prod.mk.injEq, List.not_mem_nil,
            or_false] at h
          rcases h with ⟨h1, h2⟩ | ⟨h1, h2⟩ | ⟨h1, h2⟩ | ⟨h1, h2⟩ <;> omega
      · rintro ⟨h1, h2⟩
        rcases Nat.lt_or_ge j k with hj | hj
        · exact Or.inl (ih.mpr ⟨hj, h2⟩)
        · have hjk : j = k := by omega
          subst hjk
          right
          interval_cases m <;> simp

/-! ### `getNextLayer`

For each vertex of the current layer the C code enumerates candidate
values with the splice expressions (`delAt`, `subAt`, `insAt`), checks
them against `h` (for `k`-mers) or `h_m1` (for `(k-1)`-mers), and, when
unvisited, marks them and appends them to the new layer.  We enumerate
the same candidates in the same order as explicit lists. -/

/-- One substitution/insertion candidate `x`: skip if `h[x] != -3`, else
mark `h[x] = -2` and append `x` to the new layer. -/
def gnlMark (x : Nat) (a : PState × List Nat) : PState × List Nat :=
  if a.1.h x ≠ -3 then a else (⟨upd a.1.h x (-2), a.1.hm1⟩, a.2 ++ [x])

/-- One deletion candidate `x` (a packed `(k-1)`-mer): skip if
`visited[x]`, else set `visited[x]` and append the tagged value
`x ||| luMSB` to the new layer. -/
def gnlVisit (a : PState × List Nat) (x : Nat) : PState × List Nat :=
  if a.1.hm1 x then a else (⟨a.1.h, updB a.1.hm1 x⟩, a.2 ++ [x ||| luMSB])

def gnlMarks (a : PState × List Nat) (xs : List Nat) : PState × List Nat :=
  xs.foldl (fun b x => gnlMark x b) a

def gnlVisits (a : PState × List Nat) (xs : List Nat) : PState × List Nat :=
  xs.foldl gnlVisit a

/-- Expansion of one vertex of the current layer: an untagged `k`-mer
first runs the deletion loop (`j = 0..k-1`), then the substitution loops
(`j = 1..k`, `m = 0..3`); a tagged `(k-1)`-mer runs the insertion loops
(`j = 0..k-1`, `m = 0..3`). -/
def gnlVertex (k : Nat) (a : PState × List Nat) (s : Nat) : PState × List Nat :=
  if s < luMSB then
    gnlMarks (gnlVisits a ((List.range k).map (fun j => delAt s j)))
      ((jmList k).map (fun jm => subAt s (jm.1 + 1) jm.2))
  else
    gnlMarks a ((jmList k).map (fun jm => insAt s jm.1 jm.2))

/-- `getNextLayer`: expand every vertex of the current layer in order,
returning the updated arrays and the new layer. -/
def getNextLayer (k : Nat) (st : PState) (layer : List Nat) :
    PState × List Nat :=
  layer.foldl (gnlVertex k) (st, [])

/-! #### Characterization of `getNextLayer` -/

theorem gnlMark_hm1 (x : Nat) (a : PState × List Nat) :
    (gnlMark x a).1.hm1 = a.1.hm1 := by
  unfold gnlMark
  split <;> rfl

theorem gnlMark_h (x : Nat) (a : PState × List Nat) (y : Nat) :
    (gnlMark x a).1.h y = a.1.h y ∨
      (a.1.h y = -3 ∧ (gnlMark x a).1.h y = -2) := by
  unfold gnlMark
  split
  · exact Or.inl rfl
  · rename_i hx
    rcases Decidable.em (y = x) with hyx | hyx
    · subst hyx
      right
      refine ⟨by simpa using hx, ?_⟩
      simp [upd_same]
    · left
      simp [upd_ne _ _ hyx]

theorem gnlMark_mono (x : Nat) (a : PState × List Nat) {y : Nat}
    (hy : y ∈ a.2) : y ∈ (gnlMark x a).2 := by
  unfold gnlMark
  split
  · exact hy
  · simp [hy]

theorem gnlMark_mem (x : Nat) (a : PState × List Nat) {y : Nat}
    (hy : y ∈ (gnlMark x a).2) :
    y ∈ a.2 ∨ (y = x ∧ a.1.h x = -3 ∧ (gnlMark x a).1.h x = -2) := by
  revert hy
  unfold gnlMark
  split
  · exact fun hy => Or.inl hy
  · rename_i hx
    intro hy
    simp only [List.mem_append, List.mem_singleton] at hy
    rcases hy with hy | hy
    · exact Or.inl hy
    · exact Or.inr ⟨hy, by simpa using hx, by simp [upd_same]⟩

theorem gnlMarks_cons (a : PState × List Nat) (x : Nat) (xs : List Nat) :
    gnlMarks a (x :: xs) = gnlMarks (gnlMark x a) xs := rfl

theorem gnlMarks_hm1 (xs : List Nat) : ∀ (a : PState × List Nat),
    (gnlMarks a xs).1.hm1 = a.1.hm1 := by
  induction xs with
  | nil => intro a; rfl
  | cons x xs ih =>
      intro a
      rw [gnlMarks_cons, ih, gnlMark_hm1]

theorem gnlMarks_h (xs : List Nat) : ∀ (a : PState × List Nat) (y : Nat),
    (gnlMarks a xs).1.h y = a.1.h y ∨
      (a.1.h y = -3 ∧ (gnlMarks a xs).1.h y = -2) := by
  induction xs with
  | nil => intro a y; exact Or.inl rfl
  | cons x xs ih =>
      intro a y
      rw [gnlMarks_cons]
      rcases ih (gnlMark x a) y with h1 | ⟨h1, h2⟩
      · rcases gnlMark_h x a y with h3 | ⟨h3, h4⟩
        · exact Or.inl (h1.trans h3)
        · exact Or.inr ⟨h3, h1.trans h4⟩
      · rcases gnlMark_h x a y with h3 | ⟨h3, h4⟩
        · exact Or.inr ⟨by omega, h2⟩
        · exact Or.inr ⟨h3, h2⟩

theorem gnlMarks_mono (xs : List Nat) : ∀ (a : PState × List Nat) {y : Nat},
    y ∈ a.2 → y ∈ (gnlMarks a xs).2 := by
  induction xs with
  | nil => intro a y hy; exact hy
  | cons x xs ih =>
      intro a y hy
      rw [gnlMarks_cons]
      exact ih _ (gnlMark_mono x a hy)

theorem gnlMarks_mem (xs : List Nat) : ∀ (a : PState × List Nat) {y : Nat},
    y ∈ (gnlMarks a xs).2 →
    y ∈ a.2 ∨ (y ∈ xs ∧ a.1.h y = -3 ∧ (gnlMarks a xs).1.h y = -2) := by
  induction xs with
  | nil => intro a y hy; exact Or.inl hy
  | cons x xs ih =>
      intro a y hy
      rw [gnlMarks_cons] at hy ⊢
      rcases ih (gnlMark x a) hy with h1 | ⟨h1, h2, h3⟩
      · rcases gnlMark_mem x a h1 with h2 | ⟨h2, h3, h4⟩
        · exact Or.inl h2
        · refine Or.inr ⟨by rw [h2]; simp, by rw [h2]; exact h3, ?_⟩
          rw [h2]
          rcases gnlMarks_h xs (gnlMark x a) x with h5 | ⟨h5, h6⟩
          · exact h5.trans h4
          · exact h6
      · rcases gnlMark_h x a y with h4 | ⟨h4, h5⟩
        · exact Or.inr ⟨by simp [h1], by omega, h3⟩
        · exact Or.inr ⟨by simp [h1], h4, h3⟩

theorem gnlMark_changed (x : Nat) (a : PState × List Nat) (y : Nat)
    (hch : (gnlMark x a).1.h y ≠ a.1.h y) :
    y ∈ (gnlMark x a).2 ∧ a.1.h y = -3 ∧ (gnlMark x a).1.h y = -2 := by
  revert hch
  unfold gnlMark
  split
  · exact fun hch => absurd rfl hch
  · rename_i hx
    intro hch
    rcases Decidable.em (y = x) with hyx | hyx
    · subst hyx
      exact ⟨by simp, by simpa using hx, by simp [upd_same]⟩
    · exact absurd (by simp [upd_ne _ _ hyx]) hch

theorem gnlMarks_changed (xs : List Nat) : ∀ (a : PState × List Nat) (y : Nat),
    (gnlMarks a xs).1.h y ≠ a.1.h y →
    y ∈ (gnlMarks a xs).2 ∧ a.1.h y = -3 ∧ (gnlMarks a xs).1.h y = -2 := by
  induction xs with
  | nil => intro a y hch; exact absurd rfl hch
  | cons x xs ih =>
      intro a y hch
      rw [gnlMarks_cons] at hch ⊢
      rcases Decidable.em ((gnlMark x a).1.h y = a.1.h y) with he | he
      · obtain ⟨h1, h2, h3⟩ := ih (gnlMark x a) y (by rw [he]; exact hch)
        exact ⟨h1, he ▸ h2, h3⟩
      · obtain ⟨h1, h2, h3⟩ := gnlMark_changed x a y he
        refine ⟨gnlMarks_mono xs _ h1, h2, ?_⟩
        rcases gnlMarks_h xs (gnlMark x a) y with h4 | ⟨h4, h5⟩
        · exact h4.trans h3
        · exact h5

theorem gnlVisit_h (a : PState × List Nat) (x : Nat) :
    (gnlVisit a x).1.h = a.1.h := by
  unfold gnlVisit
  split <;> rfl

theorem gnlVisit_hm1 (a : PState × List Nat) (x v : Nat) :
    (gnlVisit a x).1.hm1 v = a.1.hm1 v ∨
      (a.1.hm1 v = false ∧ (gnlVisit a x).1.hm1 v = true) := by
  unfold gnlVisit
  split
  · exact Or.inl rfl
  · rename_i hx
    rcases Decidable.em (v = x) with hvx | hvx
    · subst hvx
      right
      refine ⟨by simpa using hx, ?_⟩
      simp [updB_same]
    · left
      simp [updB_ne _ hvx]

theorem gnlVisit_mono (a : PState × List Nat) (x : Nat) {y : Nat}
    (hy : y ∈ a.2) : y ∈ (gnlVisit a x).2 := by
  unfold gnlVisit
  split
  · exact hy
  · simp [hy]

theorem gnlVisit_mem (a : PState × List Nat) (x : Nat) {y : Nat}
    (hy : y ∈ (gnlVisit a x).2) :
    y ∈ a.2 ∨ (y = x ||| luMSB ∧ a.1.hm1 x = false ∧
      (gnlVisit a x).1.hm1 x = true) := by
  revert hy
  unfold gnlVisit
  split
  · exact fun hy => Or.inl hy
  · rename_i hx
    intro hy
    simp only [List.mem_append, List.mem_singleton] at hy
    rcases hy with hy | hy
    · exact Or.inl hy
    · exact Or.inr ⟨hy, by simpa using hx, by simp [updB_same]⟩

theorem gnlVisits_cons (a : PState × List Nat) (x : Nat) (xs : List Nat) :
    gnlVisits a (x :: xs) = gnlVisits (gnlVisit a x) xs := rfl

theorem gnlVisits_h (xs : List Nat) : ∀ (a : PState × List Nat),
    (gnlVisits a xs).1.h = a.1.h := by
  induction xs with
  | nil => intro a; rfl
  | cons x xs ih =>
      intro a
      rw [gnlVisits_cons, ih, gnlVisit_h]

theorem gnlVisits_hm1 (xs : List Nat) : ∀ (a : PState × List Nat) (v : Nat),
    (gnlVisits a xs).1.hm1 v = a.1.hm1 v ∨
      (a.1.hm1 v = false ∧ (gnlVisits a xs).1.hm1 v = true) := by
  induction xs with
  | nil => intro a v; exact Or.inl rfl
  | cons x xs ih =>
      intro a v
      rw [gnlVisits_cons]
      rcases ih (gnlVisit a x) v with h1 | ⟨h1, h2⟩
      · rcases gnlVisit_hm1 a x v with h3 | ⟨h3, h4⟩
        · exact Or.inl (h1.trans h3)
        · exact Or.inr ⟨h3, h1.trans h4⟩
      · rcases gnlVisit_hm1 a x v with h3 | ⟨h3, h4⟩
        · exact Or.inr ⟨by rw [← h3]; exact h1, h2⟩
        · exact Or.inr ⟨h3, h2⟩

theorem gnlVisits_mono (xs : List Nat) : ∀ (a : PState × List Nat) {y : Nat},
    y ∈ a.2 → y ∈ (gnlVisits a xs).2 := by
  induction xs with
  | nil => intro a y hy; exact hy
  | cons x xs ih =>
      intro a y hy
      rw [gnlVisits_cons]
      exact ih _ (gnlVisit_mono a x hy)

theorem gnlVisits_mem (xs : List Nat) : ∀ (a : PState × List Nat) {y : Nat},
    y ∈ (gnlVisits a xs).2 →
    y ∈ a.2 ∨ ∃ x ∈ xs, y = x ||| luMSB ∧ a.1.hm1 x = false ∧
      (gnlVisits a xs).1.hm1 x = true := by
  induction xs with
  | nil => intro a y hy; exact Or.inl hy
  | cons x xs ih =>
      intro a y hy
      rw [gnlVisits_cons] at hy ⊢
      rcases ih (gnlVisit a x) hy with h1 | ⟨x2, hx2, h2, h3, h4⟩
      · rcases gnlVisit_mem a x h1 with h2 | ⟨h2, h3, h4⟩
        · exact Or.inl h2
        · refine Or.inr ⟨x, by simp, h2, h3, ?_⟩
          rcases gnlVisits_hm1 xs (gnlVisit a x) x with h5 | ⟨h5, h6⟩
          · exact h5.trans h4
          · exact h6
      · rcases gnlVisit_hm1 a x x2 with h5 | ⟨h5, h6⟩
        · exact Or.inr ⟨x2, by simp [hx2], h2, h5 ▸ h3, h4⟩
        · exact Or.inr ⟨x2, by simp [hx2], h2, h5, h4⟩

theorem gnlVisit_changed (a : PState × List Nat) (x v : Nat)
    (hch : (gnlVisit a x).1.hm1 v ≠ a.1.hm1 v) :
    (v ||| luMSB) ∈ (gnlVisit a x).2 ∧ a.1.hm1 v = false ∧
      (gnlVisit a x).1.hm1 v = true := by
  revert hch
  unfold gnlVisit
  split
  · exact fun hch => absurd rfl hch
  · rename_i hx
    intro hch
    rcases Decidable.em (v = x) with hvx | hvx
    · subst hvx
      exact ⟨by simp, by simpa using hx, by simp [updB_same]⟩
    · exact absurd (by simp [updB_ne _ hvx]) hch

theorem gnlVisits_changed (xs : List Nat) : ∀ (a : PState × List Nat) (v : Nat),
    (gnlVisits a xs).1.hm1 v ≠ a.1.hm1 v →
    (v ||| luMSB) ∈ (gnlVisits a xs).2 ∧ a.1.hm1 v = false ∧
      (gnlVisits a xs).1.hm1 v = true := by
  induction xs with
  | nil => intro a v hch; exact absurd rfl hch
  | cons x xs ih =>
      intro a v hch
      rw [gnlVisits_cons] at hch ⊢
      rcases Decidable.em ((gnlVisit a x).1.hm1 v = a.1.hm1 v) with he | he
      · obtain ⟨h1, h2, h3⟩ := ih (gnlVisit a x) v (by rw [he]; exact hch)
        exact ⟨h1, he ▸ h2, h3⟩
      · obtain ⟨h1, h2, h3⟩ := gnlVisit_changed a x v he
        refine ⟨gnlVisits_mono xs _ h1, h2, ?_⟩
        rcases gnlVisits_hm1 xs (gnlVisit a x) v with h4 | ⟨h4, h5⟩
        · exact h4.trans h3
        · exact h5

/-- The untagged-member discipline the fold maintains: every untagged
member of the accumulated layer is currently marked `-2`, and untagged
members are pairwise distinct. -/
def gnlInv (a : PState × List Nat) : Prop :=
  (∀ y ∈ a.2, y < luMSB → a.1.h y = -2) ∧
    a.2.Pairwise (fun u v => u < luMSB → v < luMSB → u ≠ v)

theorem gnlMark_inv (x : Nat) (a : PState × List Nat) (hinv : gnlInv a) :
    gnlInv (gnlMark x a) := by
  obtain ⟨hmk, hdis⟩ := hinv
  revert hmk hdis
  unfold gnlMark
  split
  · exact fun hmk hdis => ⟨hmk, hdis⟩
  · rename_i hx
    intro hmk hdis
    have hx3 : a.1.h x = -3 := by simpa using hx
    constructor
    · intro y hy hyu
      simp only [List.mem_append, List.mem_singleton] at hy
      rcases hy with hy | hy
      · rcases Decidable.em (y = x) with hyx | hyx
        · subst hyx
          simp [upd_same]
        · simp only [upd_ne _ _ hyx]
          exact hmk y hy hyu
      · subst hy
        simp [upd_same]
    · rw [List.pairwise_append]
      refine ⟨hdis, by simp, ?_⟩
      intro u hu v hv
      simp only [List.mem_singleton] at hv
      subst hv
      intro huu hvu hne
      subst hne
      have := hmk u hu huu
      omega

theorem gnlMarks_inv (xs : List Nat) : ∀ (a : PState × List Nat),
    gnlInv a → gnlInv (gnlMarks a xs) := by
  induction xs with
  | nil => intro a hinv; exact hinv
  | cons x xs ih =>
      intro a hinv
      rw [gnlMarks_cons]
      exact ih _ (gnlMark_inv x a hinv)

theorem gnlVisit_inv (a : PState × List Nat) (x : Nat) (hinv : gnlInv a) :
    gnlInv (gnlVisit a x) := by
  obtain ⟨hmk, hdis⟩ := hinv
  revert hmk hdis
  unfold gnlVisit
  split
  · exact fun hmk hdis => ⟨hmk, hdis⟩
  · intro hmk hdis
    constructor
    · intro y hy hyu
      simp only [List.mem_append, List.mem_singleton] at hy
      rcases hy with hy | hy
      · exact hmk y hy hyu
      · subst hy
        exact absurd hyu (by have := luMSB_le_lor x; omega)
    · rw [List.pairwise_append]
      refine ⟨hdis, by simp, ?_⟩
      intro u hu v hv
      simp only [List.mem_singleton] at hv
      subst hv
      intro _ hvu
      exact absurd hvu (by have := luMSB_le_lor x; omega)

theorem gnlVisits_inv (xs : List Nat) : ∀ (a : PState × List Nat),
    gnlInv a → gnlInv (gnlVisits a xs) := by
  induction xs with
  | nil => intro a hinv; exact hinv
  | cons x xs ih =>
      intro a hinv
      rw [gnlVisits_cons]
      exact ih _ (gnlVisit_inv a x hinv)

theorem gnlVertex_h (k : Nat) (a : PState × List Nat) (s y : Nat) :
    (gnlVertex k a s).1.h y = a.1.h y ∨
      (a.1.h y = -3 ∧ (gnlVertex k a s).1.h y = -2) := by
  unfold gnlVertex
  split
  · have hv : (gnlVisits a ((List.range k).map (fun j => delAt s j))).1.h =
        a.1.h := gnlVisits_h _ a
    rcases gnlMarks_h ((jmList k).map (fun jm => subAt s (jm.1 + 1) jm.2))
      (gnlVisits a ((List.range k).map (fun j => delAt s j))) y with h1 | ⟨h1, h2⟩
    · left
      rw [h1, hv]
    · right
      rw [hv] at h1
      exact ⟨h1, h2⟩
  · exact gnlMarks_h _ a y

theorem gnlVertex_hm1 (k : Nat) (a : PState × List Nat) (s v : Nat) :
    (gnlVertex k a s).1.hm1 v = a.1.hm1 v ∨
      (a.1.hm1 v = false ∧ (gnlVertex k a s).1.hm1 v = true) := by
  unfold gnlVertex
  split
  · rw [gnlMarks_hm1]
    exact gnlVisits_hm1 _ a v
  · rw [gnlMarks_hm1]
    exact Or.inl rfl

theorem gnlVertex_mono (k : Nat) (a : PState × List Nat) (s : Nat) {y : Nat}
    (hy : y ∈ a.2) : y ∈ (gnlVertex k a s).2 := by
  unfold gnlVertex
  split
  · exact gnlMarks_mono _ _ (gnlVisits_mono _ a hy)
  · exact gnlMarks_mono _ a hy

theorem gnlVertex_changed_h (k : Nat) (a : PState × List Nat) (s y : Nat)
    (hch : (gnlVertex k a s).1.h y ≠ a.1.h y) :
    y ∈ (gnlVertex k a s).2 ∧ a.1.h y = -3 ∧ (gnlVertex k a s).1.h y = -2 := by
  revert hch
  unfold gnlVertex
  split
  · intro hch
    have hv : (gnlVisits a ((List.range k).map (fun j => delAt s j))).1.h =
        a.1.h := gnlVisits_h _ a
    obtain ⟨h1, h2, h3⟩ := gnlMarks_changed
      ((jmList k).map (fun jm => subAt s (jm.1 + 1) jm.2))
      (gnlVisits a ((List.range k).map (fun j => delAt s j))) y
      (by rw [hv]; exact hch)
    rw [hv] at h2
    exact ⟨h1, h2, h3⟩
  · intro hch
    exact gnlMarks_changed _ a y hch

theorem gnlVertex_changed_hm1 (k : Nat) (a : PState × List Nat) (s v : Nat)
    (hch : (gnlVertex k a s).1.hm1 v ≠ a.1.hm1 v) :
    (v ||| luMSB) ∈ (gnlVertex k a s).2 ∧ a.1.hm1 v = false ∧
      (gnlVertex k a s).1.hm1 v = true := by
  revert hch
  unfold gnlVertex
  split
  · intro hch
    rw [gnlMarks_hm1] at hch ⊢
    obtain ⟨h1, h2, h3⟩ := gnlVisits_changed _ a v hch
    exact ⟨gnlMarks_mono _ _ h1, h2, h3⟩
  · intro hch
    rw [gnlMarks_hm1] at hch
    exact absurd rfl hch

theorem gnlVertex_inv (k : Nat) (a : PState × List Nat) (s : Nat)
    (hinv : gnlInv a) : gnlInv (gnlVertex k a s) := by
  unfold gnlVertex
  split
  · exact gnlMarks_inv _ _ (gnlVisits_inv _ a hinv)
  · exact gnlMarks_inv _ a hinv

theorem gnlVertex_origin {k : Nat} (hk1 : 1 ≤ k) (hk31 : k ≤ 31)
    (a : PState × List Nat) {s : Nat} (hwf : wfV k s) {y : Nat}
    (hy : y ∈ (gnlVertex k a s).2) :
    y ∈ a.2 ∨ (RStep k s y ∧ wfV k y) := by
  revert hy
  unfold gnlVertex
  split
  · rename_i hs
    intro hy
    rcases gnlMarks_mem _ _ hy with h1 | ⟨h1, _, _⟩
    · rcases gnlVisits_mem _ _ h1 with h2 | ⟨x, hx, h2, _, _⟩
      · exact Or.inl h2
      · simp only [List.mem_map, List.mem_range] at hx
        obtain ⟨j, hj, hjx⟩ := hx
        subst hjx
        have hst : RStep k s (delAt s j ||| luMSB) := RStep.del s j hs hj
        rw [h2]
        exact Or.inr ⟨hst, wfV_rstep hk1 hk31 hwf hst⟩
    · simp only [List.mem_map] at h1
      obtain ⟨jm, hjm, hjx⟩ := h1
      obtain ⟨hj, hm⟩ := mem_jmList.mp hjm
      subst hjx
      have hst : RStep k s (subAt s (jm.1 + 1) jm.2) :=
        RStep.sub s (jm.1 + 1) jm.2 hs (by omega) (by omega) hm
      exact Or.inr ⟨hst, wfV_rstep hk1 hk31 hwf hst⟩
  · rename_i hs
    intro hy
    rcases gnlMarks_mem _ _ hy with h1 | ⟨h1, _, _⟩
    · exact Or.inl h1
    · simp only [List.mem_map] at h1
      obtain ⟨jm, hjm, hjx⟩ := h1
      obtain ⟨hj, hm⟩ := mem_jmList.mp hjm
      subst hjx
      have hst : RStep k s (insAt s jm.1 jm.2) :=
        RStep.ins s jm.1 jm.2 (by omega) hj hm
      exact Or.inr ⟨hst, wfV_rstep hk1 hk31 hwf hst⟩

theorem gnlVertex_mem_h (k : Nat) (a : PState × List Nat) (s : Nat) {y : Nat}
    (hy : y ∈ (gnlVertex k a s).2) (hyu : y < luMSB) :
    y ∈ a.2 ∨ (a.1.h y = -3 ∧ (gnlVertex k a s).1.h y = -2) := by
  revert hy
  unfold gnlVertex
  split
  · intro hy
    have hv : (gnlVisits a ((List.range k).map (fun j => delAt s j))).1.h =
        a.1.h := gnlVisits_h _ a
    rcases gnlMarks_mem _ _ hy with h1 | ⟨_, h2, h3⟩
    · rcases gnlVisits_mem _ _ h1 with h2 | ⟨x, _, h2, _, _⟩
      · exact Or.inl h2
      · exact absurd hyu (by rw [h2]; have := luMSB_le_lor x; omega)
    · rw [hv] at h2
      exact Or.inr ⟨h2, h3⟩
  · intro hy
    rcases gnlMarks_mem _ _ hy with h1 | ⟨_, h2, h3⟩
    · exact Or.inl h1
    · exact Or.inr ⟨h2, h3⟩

theorem gnlVertex_mem_hm1 {k : Nat} (hk1 : 1 ≤ k) (hk31 : k ≤ 31)
    (a : PState × List Nat) {s : Nat} (hwf : wfV k s) {y : Nat}
    (hy : y ∈ (gnlVertex k a s).2) (hyt : luMSB ≤ y) :
    y ∈ a.2 ∨ (a.1.hm1 (y - luMSB) = false ∧
      (gnlVertex k a s).1.hm1 (y - luMSB) = true) := by
  revert hy
  unfold gnlVertex
  split
  · rename_i hs
    intro hy
    rw [gnlMarks_hm1]
    rcases gnlMarks_mem _ _ hy with h1 | ⟨h1, _, _⟩
    · rcases gnlVisits_mem _ _ h1 with h2 | ⟨x, hx, h2, h3, h4⟩
      · exact Or.inl h2
      · simp only [List.mem_map, List.mem_range] at hx
        obtain ⟨j, hj, hjx⟩ := hx
        obtain ⟨heq, hb, _⟩ := rstep_del_spec hk31 (wfV_untagged hwf hs) hj
        rw [← hjx] at h2 h3 h4
        rw [h2, heq, Nat.add_sub_cancel_left]
        exact Or.inr ⟨h3, h4⟩
    · simp only [List.mem_map] at h1
      obtain ⟨jm, hjm, hjx⟩ := h1
      obtain ⟨hj, hm⟩ := mem_jmList.mp hjm
      obtain ⟨hb, _⟩ := subAt_fields k s (jm.1 + 1) jm.2
        (wfV_untagged hwf hs) (by omega) (by omega) hm
      exact absurd hyt (by
        have := four_pow_lt_luMSB hk31
        omega)
  · rename_i hs
    intro hy
    rw [gnlMarks_hm1]
    rcases gnlMarks_mem _ _ hy with h1 | ⟨h1, _, _⟩
    · exact Or.inl h1
    · simp only [List.mem_map] at h1
      obtain ⟨jm, hjm, hjx⟩ := h1
      obtain ⟨hj, hm⟩ := mem_jmList.mp hjm
      obtain ⟨hb, _⟩ := rstep_ins_spec hk1 hk31 (by omega : luMSB ≤ s)
        (wfV_tagged hwf (by omega)) hj hm
      exact absurd hyt (by
        have := four_pow_lt_luMSB hk31
        omega)

theorem gnlFold_h (k : Nat) (L : List Nat) : ∀ (a : PState × List Nat) (y : Nat),
    (L.foldl (gnlVertex k) a).1.h y = a.1.h y ∨
      (a.1.h y = -3 ∧ (L.foldl (gnlVertex k) a).1.h y = -2) := by
  induction L with
  | nil => intro a y; exact Or.inl rfl
  | cons s L ih =>
      intro a y
      rw [List.foldl_cons]
      rcases ih (gnlVertex k a s) y with h1 | ⟨h1, h2⟩
      · rcases gnlVertex_h k a s y with h3 | ⟨h3, h4⟩
        · exact Or.inl (h1.trans h3)
        · exact Or.inr ⟨h3, h1.trans h4⟩
      · rcases gnlVertex_h k a s y with h3 | ⟨h3, h4⟩
        · exact Or.inr ⟨by omega, h2⟩
        · exact Or.inr ⟨h3, h2⟩

theorem gnlFold_hm1 (k : Nat) (L : List Nat) : ∀ (a : PState × List Nat) (v : Nat),
    (L.foldl (gnlVertex k) a).1.hm1 v = a.1.hm1 v ∨
      (a.1.hm1 v = false ∧ (L.foldl (gnlVertex k) a).1.hm1 v = true) := by
  induction L with
  | nil => intro a v; exact Or.inl rfl
  | cons s L ih =>
      intro a v
      rw [List.foldl_cons]
      rcases ih (gnlVertex k a s) v with h1 | ⟨h1, h2⟩
      · rcases gnlVertex_hm1 k a s v with h3 | ⟨h3, h4⟩
        · exact Or.inl (h1.trans h3)
        · exact Or.inr ⟨h3, h1.trans h4⟩
      · rcases gnlVertex_hm1 k a s v with h3 | ⟨h3, h4⟩
        · exact Or.inr ⟨by rw [← h3]; exact h1, h2⟩
        · exact Or.inr ⟨h3, h2⟩

theorem gnlFold_mono (k : Nat) (L : List Nat) : ∀ (a : PState × List Nat) {y : Nat},
    y ∈ a.2 → y ∈ (L.foldl (gnlVertex k) a).2 := by
  induction L with
  | nil => intro a y hy; exact hy
  | cons s L ih =>
      intro a y hy
      rw [List.foldl_cons]
      exact ih _ (gnlVertex_mono k a s hy)

theorem gnlFold_changed_h (k : Nat) (L : List Nat) :
    ∀ (a : PState × List Nat) (y : Nat),
    (L.foldl (gnlVertex k) a).1.h y ≠ a.1.h y →
    y ∈ (L.foldl (gnlVertex k) a).2 ∧ a.1.h y = -3 ∧
      (L.foldl (gnlVertex k) a).1.h y = -2 := by
  induction L with
  | nil => intro a y hch; exact absurd rfl hch
  | cons s L ih =>
      intro a y hch
      rw [List.foldl_cons] at hch ⊢
      rcases Decidable.em ((gnlVertex k a s).1.h y = a.1.h y) with he | he
      · obtain ⟨h1, h2, h3⟩ := ih (gnlVertex k a s) y (by rw [he]; exact hch)
        exact ⟨h1, he ▸ h2, h3⟩
      · obtain ⟨h1, h2, h3⟩ := gnlVertex_changed_h k a s y he
        refine ⟨gnlFold_mono k L _ h1, h2, ?_⟩
        rcases gnlFold_h k L (gnlVertex k a s) y with h4 | ⟨h4, h5⟩
        · exact h4.trans h3
        · exact h5

theorem gnlFold_changed_hm1 (k : Nat) (L : List Nat) :
    ∀ (a : PState × List Nat) (v : Nat),
    (L.foldl (gnlVertex k) a).1.hm1 v ≠ a.1.hm1 v →
    (v ||| luMSB) ∈ (L.foldl (gnlVertex k) a).2 ∧ a.1.hm1 v = false ∧
      (L.foldl (gnlVertex k) a).1.hm1 v = true := by
  induction L with
  | nil => intro a v hch; exact absurd rfl hch
  | cons s L ih =>
      intro a v hch
      rw [List.foldl_cons] at hch ⊢
      rcases Decidable.em ((gnlVertex k a s).1.hm1 v = a.1.hm1 v) with he | he
      · obtain ⟨h1, h2, h3⟩ := ih (gnlVertex k a s) v (by rw [he]; exact hch)
        exact ⟨h1, he ▸ h2, h3⟩
      · obtain ⟨h1, h2, h3⟩ := gnlVertex_changed_hm1 k a s v he
        refine ⟨gnlFold_mono k L _ h1, h2, ?_⟩
        rcases gnlFold_hm1 k L (gnlVertex k a s) v with h4 | ⟨h4, h5⟩
        · exact h4.trans h3
        · exact h5

theorem gnlFold_inv (k : Nat) (L : List Nat) : ∀ (a : PState × List Nat),
    gnlInv a → gnlInv (L.foldl (gnlVertex k) a) := by
  induction L with
  | nil => intro a hinv; exact hinv
  | cons s L ih =>
      intro a hinv
      rw [List.foldl_cons]
      exact ih _ (gnlVertex_inv k a s hinv)

theorem gnlFold_origin {k : Nat} (hk1 : 1 ≤ k) (hk31 : k ≤ 31) (L : List Nat) :
    ∀ (a : PState × List Nat), (∀ s ∈ L, wfV k s) → ∀ {y : Nat},
    y ∈ (L.foldl (gnlVertex k) a).2 →
    y ∈ a.2 ∨ ∃ s ∈ L, RStep k s y ∧ wfV k y := by
  induction L with
  | nil => intro a _ y hy; exact Or.inl hy
  | cons s L ih =>
      intro a hwf y hy
      rw [List.foldl_cons] at hy
      rcases ih (gnlVertex k a s) (fun s2 hs2 => hwf s2 (by simp [hs2])) hy with
        h1 | ⟨s2, hs2, h2⟩
      · rcases gnlVertex_origin hk1 hk31 a (hwf s (by simp)) h1 with h2 | h2
        · exact Or.inl h2
        · exact Or.inr ⟨s, by simp, h2⟩
      · exact Or.inr ⟨s2, by simp [hs2], h2⟩

theorem gnlFold_mem_h (k : Nat) (L : List Nat) :
    ∀ (a : PState × List Nat) {y : Nat}, y ∈ (L.foldl (gnlVertex k) a).2 →
    y < luMSB →
    y ∈ a.2 ∨ (a.1.h y = -3 ∧ (L.foldl (gnlVertex k) a).1.h y = -2) := by
  induction L with
  | nil => intro a y hy _; exact Or.inl hy
  | cons s L ih =>
      intro a y hy hyu
      rw [List.foldl_cons] at hy ⊢
      rcases ih (gnlVertex k a s) hy hyu with h1 | ⟨h1, h2⟩
      · rcases gnlVertex_mem_h k a s h1 hyu with h2 | ⟨h2, h3⟩
        · exact Or.inl h2
        · refine Or.inr ⟨h2, ?_⟩
          rcases gnlFold_h k L (gnlVertex k a s) y with h4 | ⟨h4, h5⟩
          · exact h4.trans h3
          · exact h5
      · rcases gnlVertex_h k a s y with h3 | ⟨h3, h4⟩
        · exact Or.inr ⟨by omega, h2⟩
        · exact Or.inr ⟨h3, h2⟩

theorem gnlFold_mem_hm1 {k : Nat} (hk1 : 1 ≤ k) (hk31 : k ≤ 31) (L : List Nat) :
    ∀ (a : PState × List Nat), (∀ s ∈ L, wfV k s) → ∀ {y : Nat},
    y ∈ (L.foldl (gnlVertex k) a).2 → luMSB ≤ y →
    y ∈ a.2 ∨ (a.1.hm1 (y - luMSB) = false ∧
      (L.foldl (gnlVertex k) a).1.hm1 (y - luMSB) = true) := by
  induction L with
  | nil => intro a _ y hy _; exact Or.inl hy
  | cons s L ih =>
      intro a hwf y hy hyt
      rw [List.foldl_cons] at hy ⊢
      rcases ih (gnlVertex k a s) (fun s2 hs2 => hwf s2 (by simp [hs2])) hy hyt
        with h1 | ⟨h1, h2⟩
      · rcases gnlVertex_mem_hm1 hk1 hk31 a (hwf s (by simp)) h1 hyt with
          h2 | ⟨h2, h3⟩
        · exact Or.inl h2
        · refine Or.inr ⟨h2, ?_⟩
          rcases gnlFold_hm1 k L (gnlVertex k a s) (y - luMSB) with h4 | ⟨h4, h5⟩
          · exact h4.trans h3
          · exact h5
      · rcases gnlVertex_hm1 k a s (y - luMSB) with h3 | ⟨h3, h4⟩
        · exact Or.inr ⟨by rw [← h3]; exact h1, h2⟩
        · exact Or.inr ⟨h3, h2⟩

/-- `getNextLayer` only marks: every label cell is unchanged or moves from
`-3` (UNASSIGNED) to `-2` (BFS_VISITED). -/
theorem getNextLayer_h (k : Nat) (st : PState) (L : List Nat) (y : Nat) :
    (getNextLayer k st L).1.h y = st.h y ∨
      (st.h y = -3 ∧ (getNextLayer k st L).1.h y = -2) :=
  gnlFold_h k L (st, []) y

theorem getNextLayer_hm1 (k : Nat) (st : PState) (L : List Nat) (v : Nat) :
    (getNextLayer k st L).1.hm1 v = st.hm1 v ∨
      (st.hm1 v = false ∧ (getNextLayer k st L).1.hm1 v = true) :=
  gnlFold_hm1 k L (st, []) v

/-- Every label cell changed by `getNextLayer` belongs to the new layer and
went from `-3` to `-2`. -/
theorem getNextLayer_changed_h (k : Nat) (st : PState) (L : List Nat) (y : Nat)
    (hch : (getNextLayer k st L).1.h y ≠ st.h y) :
    y ∈ (getNextLayer k st L).2 ∧ st.h y = -3 ∧
      (getNextLayer k st L).1.h y = -2 :=
  gnlFold_changed_h k L (st, []) y hch

theorem getNextLayer_changed_hm1 (k : Nat) (st : PState) (L : List Nat) (v : Nat)
    (hch : (getNextLayer k st L).1.hm1 v ≠ st.hm1 v) :
    (v ||| luMSB) ∈ (getNextLayer k st L).2 ∧ st.hm1 v = false ∧
      (getNextLayer k st L).1.hm1 v = true :=
  gnlFold_changed_hm1 k L (st, []) v hch

/-- Every untagged member of the new layer was admitted from label `-3` and
is marked `-2` on exit. -/
theorem getNextLayer_mem_h (k : Nat) (st : PState) (L : List Nat) {y : Nat}
    (hy : y ∈ (getNextLayer k st L).2) (hyu : y < luMSB) :
    st.h y = -3 ∧ (getNextLayer k st L).1.h y = -2 := by
  rcases gnlFold_mem_h k L (st, []) hy hyu with h1 | h1
  · exact absurd h1 (by simp)
  · exact h1

/-- Every tagged member of the new layer was admitted from an unvisited
`(k-1)`-mer slot, which is set on exit. -/
theorem getNextLayer_mem_hm1 {k : Nat} (hk1 : 1 ≤ k) (hk31 : k ≤ 31)
    (st : PState) {L : List Nat} (hwf : ∀ s ∈ L, wfV k s) {y : Nat}
    (hy : y ∈ (getNextLayer k st L).2) (hyt : luMSB ≤ y) :
    st.hm1 (y - luMSB) = false ∧
      (getNextLayer k st L).1.hm1 (y - luMSB) = true := by
  rcases gnlFold_mem_hm1 hk1 hk31 L (st, []) hwf hy hyt with h1 | h1
  · exact absurd h1 (by simp)
  · exact h1

/-- New-layer members are one restricted edit step away from a member of
the expanded layer, and well-formed. -/
theorem getNextLayer_origin {k : Nat} (hk1 : 1 ≤ k) (hk31 : k ≤ 31)
    (st : PState) {L : List Nat} (hwf : ∀ s ∈ L, wfV k s) {y : Nat}
    (hy : y ∈ (getNextLayer k st L).2) :
    ∃ s ∈ L, RStep k s y ∧ wfV k y := by
  rcases gnlFold_origin hk1 hk31 L (st, []) hwf hy with h1 | h1
  · exact absurd h1 (by simp)
  · exact h1

/-- The untagged members of the new layer are pairwise distinct and marked. -/
theorem getNextLayer_inv (k : Nat) (st : PState) (L : List Nat) :
    gnlInv (getNextLayer k st L) :=
  gnlFold_inv k L (st, []) ⟨by simp, by simp⟩

/-! ### `conflictWithNeighbors`

A bounded BFS from `s` through the same restricted edit graph, with a
hash table `visited` and layers `cur`/`next`.  Every substitution or
insertion candidate `x` is first tested for a conflict
(`h[x] >= 0 && h[x] != c`, aborting with TRUE), then pushed to the next
layer unless already visited.  Deletion candidates are tagged
`(k-1)`-mers, carry no label, and are only deduplicated.  The state is
the pair `(visited, next)`; `none` means a conflict was found. -/

/-- Cleanliness of a candidate: an untagged vertex must not carry a final
label of a foreign island. -/
def hOk (c : Int) (h : Nat → Int) (x : Nat) : Prop :=
  x < luMSB → ¬(0 ≤ h x ∧ h x ≠ c)

def cwnCand (c : Int) (h : Nat → Int) (a : List Nat × List Nat) (x : Nat) :
    Option (List Nat × List Nat) :=
  if 0 ≤ h x ∧ h x ≠ c then none
  else if x ∈ a.1 then some a
  else some (a.1 ++ [x], a.2 ++ [x])

def cwnCands (c : Int) (h : Nat → Int) :
    List Nat × List Nat → List Nat → Option (List Nat × List Nat)
  | a, [] => some a
  | a, x :: xs =>
      match cwnCand c h a x with
      | none => none
      | some a2 => cwnCands c h a2 xs

def cwnVisit (a : List Nat × List Nat) (x : Nat) : List Nat × List Nat :=
  if x ∈ a.1 then a else (a.1 ++ [x], a.2 ++ [x])

/-- Expansion of one BFS vertex: a tagged vertex runs the insertion loops;
an untagged vertex first runs the deletion loop (no conflict possible),
then the substitution loops. -/
def cwnVertex (k : Nat) (c : Int) (h : Nat → Int) (a : List Nat × List Nat)
    (s : Nat) : Option (List Nat × List Nat) :=
  if luMSB ≤ s then
    cwnCands c h a ((jmList k).map (fun jm => insAt s jm.1 jm.2))
  else
    cwnCands c h
      (((List.range k).map (fun j => delAt s j ||| luMSB)).foldl cwnVisit a)
      ((jmList k).map (fun jm => subAt s (jm.1 + 1) jm.2))

def cwnVertices (k : Nat) (c : Int) (h : Nat → Int) :
    List Nat × List Nat → List Nat → Option (List Nat × List Nat)
  | a, [] => some a
  | a, s :: ss =>
      match cwnVertex k c h a s with
      | none => none
      | some a2 => cwnVertices k c h a2 ss

def cwnLoop (k : Nat) (c : Int) (h : Nat → Int) :
    Nat → List Nat → List Nat → Bool
  | 0, _, _ => false
  | depth + 1, cur, visited =>
      match cwnVertices k c h (visited, []) cur with
      | none => true
      | some a => cwnLoop k c h depth a.2 a.1

/-- `conflictWithNeighbors(s, k, depth, c, h)`. -/
def conflictWithNeighbors (s k depth : Nat) (c : Int) (h : Nat → Int) : Bool :=
  cwnLoop k c h depth [s] [s]

theorem cwnCand_some {c : Int} {h : Nat → Int} {a : List Nat × List Nat}
    {x : Nat} {a2 : List Nat × List Nat} (hs : cwnCand c h a x = some a2) :
    ¬(0 ≤ h x ∧ h x ≠ c) ∧ x ∈ a2.1 ∧
    (∀ y ∈ a.1, y ∈ a2.1) ∧ (∀ y ∈ a.2, y ∈ a2.2) ∧
    (∀ y ∈ a2.1, y ∈ a.1 ∨ (y = x ∧ y ∈ a2.2)) ∧
    (∀ y ∈ a2.2, y ∈ a.2 ∨ y = x) := by
  revert hs
  unfold cwnCand
  split
  · intro hs
    exact absurd hs (by simp)
  · rename_i hcf
    split
    · rename_i hmem
      intro hs
      injection hs with hs
      subst hs
      exact ⟨hcf, hmem, fun y hy => hy, fun y hy => hy,
        fun y hy => Or.inl hy, fun y hy => Or.inl hy⟩
    · intro hs
      injection hs with hs
      subst hs
      refine ⟨hcf, by simp, fun y hy => by simp [hy], fun y hy => by simp [hy],
        ?_, ?_⟩
      · intro y hy
        simp only [List.mem_append, List.mem_singleton] at hy
        rcases hy with hy | hy
        · exact Or.inl hy
        · exact Or.inr ⟨hy, by simp [hy]⟩
      · intro y hy
        simp only [List.mem_append, List.mem_singleton] at hy
        rcases hy with hy | hy
        · exact Or.inl hy
        · exact Or.inr hy

theorem cwnVisit_spec (a : List Nat × List Nat) (x : Nat) :
    x ∈ (cwnVisit a x).1 ∧
    (∀ y ∈ a.1, y ∈ (cwnVisit a x).1) ∧ (∀ y ∈ a.2, y ∈ (cwnVisit a x).2) ∧
    (∀ y ∈ (cwnVisit a x).1, y ∈ a.1 ∨ (y = x ∧ y ∈ (cwnVisit a x).2)) ∧
    (∀ y ∈ (cwnVisit a x).2, y ∈ a.2 ∨ y = x) := by
  unfold cwnVisit
  split
  · rename_i hmem
    exact ⟨hmem, fun y hy => hy, fun y hy => hy,
      fun y hy => Or.inl hy, fun y hy => Or.inl hy⟩
  · refine ⟨by simp, fun y hy => by simp [hy], fun y hy => by simp [hy], ?_, ?_⟩
    · intro y hy
      simp only [List.mem_append, List.mem_singleton] at hy
      rcases hy with hy | hy
      · exact Or.inl hy
      · exact Or.inr ⟨hy, by simp [hy]⟩
    · intro y hy
      simp only [List.mem_append, List.mem_singleton] at hy
      rcases hy with hy | hy
      · exact Or.inl hy
      · exact Or.inr hy

theorem cwnCands_some {c : Int} {h : Nat → Int} (xs : List Nat) :
    ∀ (a a2 : List Nat × List Nat), cwnCands c h a xs = some a2 →
    (∀ x ∈ xs, ¬(0 ≤ h x ∧ h x ≠ c)) ∧ (∀ x ∈ xs, x ∈ a2.1) ∧
    (∀ y ∈ a.1, y ∈ a2.1) ∧ (∀ y ∈ a.2, y ∈ a2.2) ∧
    (∀ y ∈ a2.1, y ∈ a.1 ∨ (y ∈ xs ∧ y ∈ a2.2)) ∧
    (∀ y ∈ a2.2, y ∈ a.2 ∨ y ∈ xs) := by
  induction xs with
  | nil =>
      intro a a2 hs
      injection hs with hs
      subst hs
      exact ⟨by simp, by simp, fun y hy => hy, fun y hy => hy,
        fun y hy => Or.inl hy, fun y hy => Or.inl hy⟩
  | cons x xs ih =>
      intro a a2 hs
      rw [cwnCands] at hs
      rcases hx : cwnCand c h a x with _ | a1
      · rw [hx] at hs
        exact absurd hs (by simp)
      · rw [hx] at hs
        simp only at hs
        obtain ⟨hc1, hc2, hc3, hc4, hc5, hc6⟩ := cwnCand_some hx
        obtain ⟨hi1, hi2, hi3, hi4, hi5, hi6⟩ := ih a1 a2 hs
        refine ⟨?_, ?_, ?_, ?_, ?_, ?_⟩
        · intro x2 hx2
          rcases List.mem_cons.mp hx2 with hx2 | hx2
          · exact hx2 ▸ hc1
          · exact hi1 x2 hx2
        · intro x2 hx2
          rcases List.mem_cons.mp hx2 with hx2 | hx2
          · exact hx2 ▸ hi3 x hc2
          · exact hi2 x2 hx2
        · exact fun y hy => hi3 y (hc3 y hy)
        · exact fun y hy => hi4 y (hc4 y hy)
        · intro y hy
          rcases hi5 y hy with h1 | ⟨h1, h2⟩
          · rcases hc5 y h1 with h2 | ⟨h2, h3⟩
            · exact Or.inl h2
            · exact Or.inr ⟨by simp [h2], hi4 y h3⟩
          · exact Or.inr ⟨by simp [h1], h2⟩
        · intro y hy
          rcases hi6 y hy with h1 | h1
          · rcases hc6 y h1 with h2 | h2
            · exact Or.inl h2
            · exact Or.inr (by simp [h2])
          · exact Or.inr (by simp [h1])

theorem cwnVisits_spec (xs : List Nat) :
    ∀ (a : List Nat × List Nat),
    (∀ x ∈ xs, x ∈ (xs.foldl cwnVisit a).1) ∧
    (∀ y ∈ a.1, y ∈ (xs.foldl cwnVisit a).1) ∧
    (∀ y ∈ a.2, y ∈ (xs.foldl cwnVisit a).2) ∧
    (∀ y ∈ (xs.foldl cwnVisit a).1, y ∈ a.1 ∨
      (y ∈ xs ∧ y ∈ (xs.foldl cwnVisit a).2)) ∧
    (∀ y ∈ (xs.foldl cwnVisit a).2, y ∈ a.2 ∨ y ∈ xs) := by
  induction xs with
  | nil =>
      intro a
      exact ⟨by simp, fun y hy => hy, fun y hy => hy,
        fun y hy => Or.inl hy, fun y hy => Or.inl hy⟩
  | cons x xs ih =>
      intro a
      rw [List.foldl_cons]
      obtain ⟨hc1, hc2, hc3, hc4, hc5⟩ := cwnVisit_spec a x
      obtain ⟨hi1, hi2, hi3, hi4, hi5⟩ := ih (cwnVisit a x)
      refine ⟨?_, ?_, ?_, ?_, ?_⟩
      · intro x2 hx2
        rcases List.mem_cons.mp hx2 with hx2 | hx2
        · exact hx2 ▸ hi2 x hc1
        · exact hi1 x2 hx2
      · exact fun y hy => hi2 y (hc2 y hy)
      · exact fun y hy => hi3 y (hc3 y hy)
      · intro y hy
        rcases hi4 y hy with h1 | ⟨h1, h2⟩
        · rcases hc4 y h1 with h2 | ⟨h2, h3⟩
          · exact Or.inl h2
          · exact Or.inr ⟨by simp [h2], hi3 y h3⟩
        · exact Or.inr ⟨by simp [h1], h2⟩
      · intro y hy
        rcases hi5 y hy with h1 | h1
        · rcases hc5 y h1 with h2 | h2
          · exact Or.inl h2
          · exact Or.inr (by simp [h2])
        · exact Or.inr (by simp [h1])

theorem cwnVertex_some {k : Nat} {c : Int} {h : Nat → Int}
    {a a2 : List Nat × List Nat} {s : Nat}
    (hs : cwnVertex k c h a s = some a2) :
    (∀ y ∈ a.1, y ∈ a2.1) ∧ (∀ y ∈ a.2, y ∈ a2.2) ∧
    (∀ b, RStep k s b → b ∈ a2.1 ∧ hOk c h b) ∧
    (∀ y ∈ a2.1, y ∈ a.1 ∨ (y ∈ a2.2 ∧ hOk c h y ∧ RStep k s y)) ∧
    (∀ y ∈ a2.2, y ∈ a.2 ∨ y ∈ a2.1) := by
  revert hs
  unfold cwnVertex
  split
  · rename_i hts
    intro hs
    obtain ⟨hc1, hc2, hc3, hc4, hc5, hc6⟩ := cwnCands_some _ a a2 hs
    refine ⟨hc3, hc4, ?_, ?_, ?_⟩
    · intro b hb
      cases hb with
      | del j hbs hj => exact absurd hbs (by omega)
      | sub j m hbs hj1 hjk hm => exact absurd hbs (by omega)
      | ins j m hbs hj hm =>
          have hmem : insAt s j m ∈
              (jmList k).map (fun jm => insAt s jm.1 jm.2) :=
            List.mem_map.mpr ⟨(j, m), mem_jmList.mpr ⟨hj, hm⟩, rfl⟩
          exact ⟨hc2 _ hmem, fun _ => hc1 _ hmem⟩
    · intro y hy
      rcases hc5 y hy with h1 | ⟨h1, h2⟩
      · exact Or.inl h1
      · obtain ⟨jm, hjm, hjx⟩ := List.mem_map.mp h1
        obtain ⟨hj, hm⟩ := mem_jmList.mp hjm
        refine Or.inr ⟨h2, fun _ => hc1 y h1, ?_⟩
        rw [← hjx]
        exact RStep.ins s jm.1 jm.2 hts hj hm
    · intro y hy
      rcases hc6 y hy with h1 | h1
      · exact Or.inl h1
      · exact Or.inr (hc2 y h1)
  · rename_i hts
    have hsu : s < luMSB := by omega
    intro hs
    obtain ⟨hv1, hv2, hv3, hv4, hv5⟩ :=
      cwnVisits_spec ((List.range k).map (fun j => delAt s j ||| luMSB)) a
    obtain ⟨hc1, hc2, hc3, hc4, hc5, hc6⟩ := cwnCands_some _ _ a2 hs
    refine ⟨fun y hy => hc3 y (hv2 y hy), fun y hy => hc4 y (hv3 y hy), ?_, ?_, ?_⟩
    · intro b hb
      cases hb with
      | del j hbs hj =>
          have hmem : delAt s j ||| luMSB ∈
              (List.range k).map (fun j => delAt s j ||| luMSB) :=
            List.mem_map.mpr ⟨j, List.mem_range.mpr hj, rfl⟩
          refine ⟨hc3 _ (hv1 _ hmem), fun hlt => ?_⟩
          exact absurd hlt (by have := luMSB_le_lor (delAt s j); omega)
      | sub j m hbs hj1 hjk hm =>
          have hmem : subAt s j m ∈
              (jmList k).map (fun jm => subAt s (jm.1 + 1) jm.2) := by
            refine List.mem_map.mpr ⟨(j - 1, m), mem_jmList.mpr ⟨by omega, hm⟩, ?_⟩
            simp only
            rw [show j - 1 + 1 = j by omega]
          exact ⟨hc2 _ hmem, fun _ => hc1 _ hmem⟩
      | ins j m hbs hj hm => exact absurd hbs (by omega)
    · intro y hy
      rcases hc5 y hy with h1 | ⟨h1, h2⟩
      · rcases hv4 y h1 with h2 | ⟨h2, h3⟩
        · exact Or.inl h2
        · obtain ⟨j, hj, hjx⟩ := List.mem_map.mp h2
          refine Or.inr ⟨hc4 y h3, fun hlt => ?_, ?_⟩
          · exact absurd hlt (by
              rw [← hjx]
              have := luMSB_le_lor (delAt s j)
              omega)
          · rw [← hjx]
            exact RStep.del s j hsu (List.mem_range.mp hj)
      · obtain ⟨jm, hjm, hjx⟩ := List.mem_map.mp h1
        obtain ⟨hj, hm⟩ := mem_jmList.mp hjm
        refine Or.inr ⟨h2, fun _ => hc1 y h1, ?_⟩
        rw [← hjx]
        exact RStep.sub s (jm.1 + 1) jm.2 hsu (by omega) (by omega) hm
    · intro y hy
      rcases hc6 y hy with h1 | h1
      · rcases hv5 y h1 with h2 | h2
        · exact Or.inl h2
        · exact Or.inr (hc3 y (hv1 y h2))
      · exact Or.inr (hc2 y h1)

theorem cwnVertices_some {k : Nat} {c : Int} {h : Nat → Int} (cur : List Nat) :
    ∀ (a a2 : List Nat × List Nat), cwnVertices k c h a cur = some a2 →
    (∀ y ∈ a.1, y ∈ a2.1) ∧ (∀ y ∈ a.2, y ∈ a2.2) ∧
    (∀ s ∈ cur, ∀ b, RStep k s b → b ∈ a2.1 ∧ hOk c h b) ∧
    (∀ y ∈ a2.1, y ∈ a.1 ∨ (y ∈ a2.2 ∧ hOk c h y ∧ ∃ s ∈ cur, RStep k s y)) ∧
    (∀ y ∈ a2.2, y ∈ a.2 ∨ y ∈ a2.1) := by
  induction cur with
  | nil =>
      intro a a2 hs
      injection hs with hs
      subst hs
      exact ⟨fun y hy => hy, fun y hy => hy, by simp,
        fun y hy => Or.inl hy, fun y hy => Or.inl hy⟩
  | cons s cur ih =>
      intro a a2 hs
      rw [cwnVertices] at hs
      rcases hx : cwnVertex k c h a s with _ | a1
      · rw [hx] at hs
        exact absurd hs (by simp)
      · rw [hx] at hs
        simp only at hs
        obtain ⟨hc1, hc2, hc3, hc4, hc5⟩ := cwnVertex_some hx
        obtain ⟨hi1, hi2, hi3, hi4, hi5⟩ := ih a1 a2 hs
        refine ⟨fun y hy => hi1 y (hc1 y hy), fun y hy => hi2 y (hc2 y hy),
          ?_, ?_, ?_⟩
        · intro s2 hs2 b hb
          rcases List.mem_cons.mp hs2 with hs2 | hs2
          · obtain ⟨h1, h2⟩ := hc3 b (hs2 ▸ hb)
            exact ⟨hi1 b h1, h2⟩
          · exact hi3 s2 hs2 b hb
        · intro y hy
          rcases hi4 y hy with h1 | ⟨h1, h2, s2, hs2, h3⟩
          · rcases hc4 y h1 with h2 | ⟨h2, h3, h4⟩
            · exact Or.inl h2
            · exact Or.inr ⟨hi2 y h2, h3, s, by simp, h4⟩
          · exact Or.inr ⟨h1, h2, s2, by simp [hs2], h3⟩
        · intro y hy
          rcases hi5 y hy with h1 | h1
          · rcases hc5 y h1 with h2 | h2
            · exact Or.inl h2
            · exact Or.inr (hi1 y h2)
          · exact Or.inr h1

theorem rreach_zero {k a t : Nat} (h : RReach k 0 a t) : t = a := by
  cases h
  rfl

/-- Soundness of the bounded BFS: if the loop finishes without reporting a
conflict, then no vertex within the step budget of any visited vertex
carries a foreign final label.  The invariants: pending vertices are
visited; a visited vertex that is not pending has all its neighbors
visited; all visited vertices are clean. -/
theorem cwnLoop_sound {k : Nat} (c : Int) (h : Nat → Int) :
    ∀ (depth : Nat) (cur visited : List Nat),
    (∀ v ∈ cur, v ∈ visited) →
    (∀ v ∈ visited, v ∉ cur → ∀ b, RStep k v b → b ∈ visited) →
    (∀ v ∈ visited, hOk c h v) →
    cwnLoop k c h depth cur visited = false →
    ∀ a ∈ visited, ∀ n, n ≤ depth → ∀ t, RReach k n a t → hOk c h t
  | 0, cur, visited => by
      intro _ _ hC _ a ha n hn t ht
      have hn0 : n = 0 := by omega
      subst hn0
      rw [rreach_zero ht]
      exact hC a ha
  | depth + 1, cur, visited => by
      intro hS hF hC hrun a ha n hn t ht
      rw [cwnLoop] at hrun
      rcases hv : cwnVertices k c h (visited, []) cur with _ | a2
      · rw [hv] at hrun
        exact absurd hrun (by simp)
      · rw [hv] at hrun
        simp only at hrun
        obtain ⟨hq1, _, hq3, hq4, hq5⟩ := cwnVertices_some cur (visited, []) a2 hv
        have hS2 : ∀ v ∈ a2.2, v ∈ a2.1 := by
          intro v hv2
          rcases hq5 v hv2 with h1 | h1
          · exact absurd h1 (by simp)
          · exact h1
        have hF2 : ∀ v ∈ a2.1, v ∉ a2.2 → ∀ b, RStep k v b → b ∈ a2.1 := by
          intro v hv1 hv2 b hb
          rcases hq4 v hv1 with h1 | ⟨h1, _⟩
          · rcases Decidable.em (v ∈ cur) with hcur | hcur
            · exact (hq3 v hcur b hb).1
            · exact hq1 b (hF v h1 hcur b hb)
          · exact absurd h1 hv2
        have hC2 : ∀ v ∈ a2.1, hOk c h v := by
          intro v hv1
          rcases hq4 v hv1 with h1 | ⟨_, h2, _⟩
          · exact hC v h1
          · exact h2
        cases ht with
        | refl => exact hC a ha
        | step hst hrest =>
            rename_i n2 b
            have hb1 : b ∈ a2.1 := by
              rcases Decidable.em (a ∈ cur) with hcur | hcur
              · exact (hq3 a hcur b hst).1
              · exact hq1 b (hF a ha hcur b hst)
            exact cwnLoop_sound c h depth a2.2 a2.1 hS2 hF2 hC2 hrun b hb1
              n2 (by omega) t hrest

/-- Soundness of `conflictWithNeighbors`: a clean verdict for a clean start
vertex means every vertex within `depth` restricted edit steps is clean. -/
theorem conflictWithNeighbors_sound {k : Nat} {s depth : Nat} {c : Int}
    {h : Nat → Int} (hrun : conflictWithNeighbors s k depth c h = false)
    (hok : hOk c h s) :
    ∀ n ≤ depth, ∀ t, RReach k n s t → hOk c h t := by
  intro n hn t ht
  refine cwnLoop_sound c h depth [s] [s] (fun v hv => hv) ?_ ?_ hrun s
    (by simp) n hn t ht
  · intro v hv1 hv2
    exact absurd hv1 hv2
  · intro v hv
    rw [List.mem_singleton.mp hv]
    exact hok

/-! ### The partition driver (`main`)

Both partition programs share the same skeleton: initialize `h` to `-3`
everywhere, seed the clique members, then for `radius = 1 .. q/2` expand
every island with `getNextLayer` and give each untagged, still `-2`
member of the fresh layer a final label — `-1` on conflict, the island
index otherwise.  The two programs differ only in the conflict test, so
the driver is parametrized by it. -/

/-- A conflict resolver: arguments are the radius, the island index, the
current label array and the candidate vertex. -/
abbrev Conflict := Nat → Nat → (Nat → Int) → Nat → Bool

/-- `if(s >= luMSB || h[s] > -2) continue; ...`.  The assignment loop
never touches `h_m1`, so the bitmap is carried through unchanged. -/
def assignVertex (conflict : Conflict) (radius i : Nat) (st : PState)
    (s : Nat) : PState :=
  if luMSB ≤ s ∨ -2 < st.h s then st
  else if conflict radius i st.h s then ⟨upd st.h s (-1), st.hm1⟩
  else ⟨upd st.h s (i : Int), st.hm1⟩

def assignLoop (conflict : Conflict) (radius i : Nat) (st : PState)
    (layer : List Nat) : PState :=
  layer.foldl (assignVertex conflict radius i) st

/-- One island in one round: expand the island's layer, then assign final
labels over the fresh layer; the island keeps the fresh layer. -/
def islandStep (conflict : Conflict) (k radius i : Nat) (st : PState)
    (layer : List Nat) : PState × List Nat :=
  let a := getNextLayer k st layer
  (assignLoop conflict radius i a.1 a.2, a.2)

def roundLoop (conflict : Conflict) (k radius : Nat) :
    Nat → PState → List (List Nat) → PState × List (List Nat)
  | _, st, [] => (st, [])
  | i, st, L :: Ls =>
      let a := islandStep conflict k radius i st L
      let b := roundLoop conflict k radius (i + 1) a.1 Ls
      (b.1, a.2 :: b.2)

def runRounds (conflict : Conflict) (k : Nat) :
    Nat → Nat → PState → List (List Nat) → PState × List (List Nat)
  | _, 0, st, Ls => (st, Ls)
  | radius, r + 1, st, Ls =>
      let a := roundLoop conflict k radius 0 st Ls
      runRounds conflict k (radius + 1) r a.1 a.2

/-- Seeding one clique member: a tagged `(k-1)`-mer sets its visited flag,
a `k`-mer gets the island index as its label. -/
def initMember (i : Nat) (st : PState) (c : Nat) : PState :=
  if luMSB ≤ c then ⟨st.h, updB st.hm1 (c ^^^ luMSB)⟩
  else ⟨upd st.h c (i : Int), st.hm1⟩

def initLoop : Nat → PState → List (List Nat) → PState
  | _, st, [] => st
  | i, st, C :: Cs => initLoop (i + 1) (C.foldl (initMember i) st) Cs

/-- `h[i] = -3` for all cells, `h_m1` zeroed by `calloc`. -/
def initState : PState := ⟨fun _ => -3, fun _ => false⟩

/-- The generic driver: seed, then run `q/2` rounds starting at radius 1;
the initial island layers are the cliques themselves. -/
def runG (conflict : Conflict) (k q : Nat) (cliques : List (List Nat)) :
    PState × List (List Nat) :=
  runRounds conflict k 1 (q / 2) (initLoop 0 initState cliques) cliques

/-- The conflict strategy of partitionByCliquesCheckByNeighbors.c:
`conflictWithNeighbors(s, k, p-1, i, h)`. -/
def bConflict (k p : Nat) : Conflict :=
  fun _ i h s => conflictWithNeighbors s k (p - 1) (i : Int) h

/-- The whole run of partitionByCliquesCheckByNeighbors.c. -/
def partitionRun (k p q : Nat) (cliques : List (List Nat)) :
    PState × List (List Nat) :=
  runG (bConflict k p) k q cliques

/-! ### The neighbor-list strategy (partitionByLayersCheckByCenters.c)

The same skeleton over singleton cliques; before the rounds each island
`i` collects the indices `j ≠ i` of the centers within `p + q` of its
own center.  The C code builds that list with a symmetric double loop
and then sorts it by distance to the center with `qsort_r`; the sort
only permutes the list, and the conflict scan below is insensitive to
the order (it only decides whether some listed neighbor is close enough,
and writes `h[s] = -1` on the first hit, whichever it is), so we embed
the list in index order. -/

def neighborList (k p q : Nat) (centers : List Nat) (i : Nat) : List Nat :=
  (List.range centers.length).filter
    (fun j => decide (j ≠ i ∧
      editDist (centers.getD i 0) (centers.getD j 0) k (-1) ≤ p + q))

/-- The conflict test of partitionByLayersCheckByCenters.c: some listed
neighbor `c_j` has `editDist(s, c_j, k, -1) - radius < p`. -/
def aConflict (k p q : Nat) (centers : List Nat) : Conflict :=
  fun radius i _ s =>
    (neighborList k p q centers i).any
      (fun j => decide ((editDist s (centers.getD j 0) k (-1) : Int) -
        (radius : Int) < (p : Int)))

/-- The whole run of partitionByLayersCheckByCenters.c. -/
def partitionRunA (k p q : Nat) (centers : List Nat) :
    PState × List (List Nat) :=
  runG (aConflict k p q centers) k q (centers.map (fun c => [c]))

/-! ### Conflict-independence of the BFS structure

`getNextLayer` reads labels only through the test `h[x] != -3`, and the
assignment loop reads them only through `h[s] > -2`; both possible final
labels (`-1` and the island index) fall into the same class of both
tests.  Hence the layer structure of a run does not depend on the
conflict resolver. -/

/-- The label classes the driver's tests distinguish: UNASSIGNED (`-3`),
BFS_VISITED (`-2`), final (anything above `-2`). -/
def hLevel (v : Int) : Nat :=
  if v = -3 then 0 else if v = -2 then 1 else 2

/-- Driver-produced label arrays never go below `-3`. -/
def wfH (st : PState) : Prop := ∀ x, -3 ≤ st.h x

/-- Two driver states its tests cannot distinguish. -/
def Rel (st1 st2 : PState) : Prop :=
  wfH st1 ∧ wfH st2 ∧ (∀ x, hLevel (st1.h x) = hLevel (st2.h x)) ∧
    ∀ v, st1.hm1 v = st2.hm1 v

def RelP (a1 a2 : PState × List Nat) : Prop :=
  Rel a1.1 a2.1 ∧ a1.2 = a2.2

theorem rel_guard {v1 v2 : Int} (hw1 : -3 ≤ v1) (hw2 : -3 ≤ v2)
    (hl : hLevel v1 = hLevel v2) :
    (-2 < v1 ↔ -2 < v2) ∧ (v1 = -3 ↔ v2 = -3) := by
  unfold hLevel at hl
  split_ifs at hl <;> omega

theorem rel_gnlMark (x : Nat) {a1 a2 : PState × List Nat}
    (hr : RelP a1 a2) : RelP (gnlMark x a1) (gnlMark x a2) := by
  obtain ⟨⟨hw1, hw2, hlev, hbm⟩, hl⟩ := hr
  have hcond := (rel_guard (hw1 x) (hw2 x) (hlev x)).2
  unfold gnlMark
  rcases Decidable.em (a1.1.h x ≠ -3) with h1 | h1
  · rw [if_pos h1, if_pos (fun h2 => h1 (hcond.mpr h2))]
    exact ⟨⟨hw1, hw2, hlev, hbm⟩, hl⟩
  · rw [if_neg h1, if_neg (fun h2 : ¬a2.1.h x = -3 => h1 (fun h3 => h2 (hcond.mp h3)))]
    refine ⟨⟨?_, ?_, ?_, hbm⟩, by rw [hl]⟩
    · intro y
      dsimp only
      unfold upd
      split
      · omega
      · exact hw1 y
    · intro y
      dsimp only
      unfold upd
      split
      · omega
      · exact hw2 y
    · intro y
      dsimp only
      rcases Decidable.em (y = x) with hyx | hyx
      · simp [upd, hyx]
      · simp only [upd, if_neg hyx]
        exact hlev y

theorem rel_gnlVisit (x : Nat) {a1 a2 : PState × List Nat}
    (hr : RelP a1 a2) : RelP (gnlVisit a1 x) (gnlVisit a2 x) := by
  obtain ⟨⟨hw1, hw2, hlev, hbm⟩, hl⟩ := hr
  unfold gnlVisit
  rcases Decidable.em (a1.1.hm1 x = true) with hb | hb
  · rw [if_pos hb, if_pos (by rw [← hbm x]; exact hb)]
    exact ⟨⟨hw1, hw2, hlev, hbm⟩, hl⟩
  · rw [if_neg hb, if_neg (by rw [← hbm x]; exact hb)]
    refine ⟨⟨hw1, hw2, hlev, ?_⟩, by rw [hl]⟩
    intro v
    dsimp only
    unfold updB
    split
    · rfl
    · exact hbm v

theorem rel_gnlMarks (xs : List Nat) : ∀ {a1 a2 : PState × List Nat},
    RelP a1 a2 → RelP (gnlMarks a1 xs) (gnlMarks a2 xs) := by
  induction xs with
  | nil => intro a1 a2 hr; exact hr
  | cons x xs ih =>
      intro a1 a2 hr
      rw [gnlMarks_cons, gnlMarks_cons]
      exact ih (rel_gnlMark x hr)

theorem rel_gnlVisits (xs : List Nat) : ∀ {a1 a2 : PState × List Nat},
    RelP a1 a2 → RelP (gnlVisits a1 xs) (gnlVisits a2 xs) := by
  induction xs with
  | nil => intro a1 a2 hr; exact hr
  | cons x xs ih =>
      intro a1 a2 hr
      rw [gnlVisits_cons, gnlVisits_cons]
      exact ih (rel_gnlVisit x hr)

theorem rel_gnlVertex (k : Nat) (s : Nat) {a1 a2 : PState × List Nat}
    (hr : RelP a1 a2) : RelP (gnlVertex k a1 s) (gnlVertex k a2 s) := by
  unfold gnlVertex
  split
  · exact rel_gnlMarks _ (rel_gnlVisits _ hr)
  · exact rel_gnlMarks _ hr

theorem rel_gnlFold (k : Nat) (L : List Nat) : ∀ {a1 a2 : PState × List Nat},
    RelP a1 a2 → RelP (L.foldl (gnlVertex k) a1) (L.foldl (gnlVertex k) a2) := by
  induction L with
  | nil => intro a1 a2 hr; exact hr
  | cons s L ih =>
      intro a1 a2 hr
      rw [List.foldl_cons, List.foldl_cons]
      exact ih (rel_gnlVertex k s hr)

theorem rel_getNextLayer (k : Nat) (L : List Nat) {st1 st2 : PState}
    (hr : Rel st1 st2) :
    RelP (getNextLayer k st1 L) (getNextLayer k st2 L) :=
  rel_gnlFold k L ⟨hr, rfl⟩

theorem hLevel_coe_nat (i : Nat) : hLevel (i : Int) = 2 := by
  unfold hLevel
  rw [if_neg (by omega), if_neg (by omega)]

theorem hLevel_neg_one : hLevel (-1) = 2 := by
  unfold hLevel
  rw [if_neg (by omega), if_neg (by omega)]

theorem upd_final_rel {h1 h2 : Nat → Int} {s : Nat} (hw1 : ∀ x, -3 ≤ h1 x)
    (hw2 : ∀ x, -3 ≤ h2 x) (hlev : ∀ x, hLevel (h1 x) = hLevel (h2 x))
    {v1 v2 : Int} (hv1 : -3 ≤ v1) (hv2 : -3 ≤ v2)
    (hl1 : hLevel v1 = 2) (hl2 : hLevel v2 = 2) :
    (∀ x, -3 ≤ upd h1 s v1 x) ∧ (∀ x, -3 ≤ upd h2 s v2 x) ∧
    (∀ x, hLevel (upd h1 s v1 x) = hLevel (upd h2 s v2 x)) := by
  refine ⟨?_, ?_, ?_⟩
  · intro x
    unfold upd
    split
    · exact hv1
    · exact hw1 x
  · intro x
    unfold upd
    split
    · exact hv2
    · exact hw2 x
  · intro x
    unfold upd
    rcases Decidable.em (x = s) with hxs | hxs
    · rw [if_pos hxs, if_pos hxs, hl1, hl2]
    · rw [if_neg hxs, if_neg hxs]
      exact hlev x

theorem rel_assignVertex (c1 c2 : Conflict) (radius i : Nat) (s : Nat)
    {st1 st2 : PState} (hr : Rel st1 st2) :
    Rel (assignVertex c1 radius i st1 s) (assignVertex c2 radius i st2 s) := by
  obtain ⟨hw1, hw2, hlev, hbm⟩ := hr
  have hg := (rel_guard (hw1 s) (hw2 s) (hlev s)).1
  unfold assignVertex
  rcases Decidable.em (luMSB ≤ s ∨ -2 < st1.h s) with h1 | h1
  · have h2pos : luMSB ≤ s ∨ -2 < st2.h s := by
      rcases h1 with h1 | h1
      · exact Or.inl h1
      · exact Or.inr (hg.mp h1)
    rw [if_pos h1, if_pos h2pos]
    exact ⟨hw1, hw2, hlev, hbm⟩
  · have h2neg : ¬(luMSB ≤ s ∨ -2 < st2.h s) := by
      intro h2
      rcases h2 with h2 | h2
      · exact h1 (Or.inl h2)
      · exact h1 (Or.inr (hg.mpr h2))
    rw [if_neg h1, if_neg h2neg]
    rcases Decidable.em (c1 radius i st1.h s = true) with hb1 | hb1 <;>
      rcases Decidable.em (c2 radius i st2.h s = true) with hb2 | hb2
    · rw [if_pos hb1, if_pos hb2]
      obtain ⟨w1, w2, w3⟩ := upd_final_rel (s := s) hw1 hw2 hlev
        (by omega) (by omega) hLevel_neg_one hLevel_neg_one
      exact ⟨w1, w2, w3, hbm⟩
    · rw [if_pos hb1, if_neg hb2]
      obtain ⟨w1, w2, w3⟩ := upd_final_rel (s := s) hw1 hw2 hlev
        (by omega) (by omega) hLevel_neg_one (hLevel_coe_nat i)
      exact ⟨w1, w2, w3, hbm⟩
    · rw [if_neg hb1, if_pos hb2]
      obtain ⟨w1, w2, w3⟩ := upd_final_rel (s := s) hw1 hw2 hlev
        (by omega) (by omega) (hLevel_coe_nat i) hLevel_neg_one
      exact ⟨w1, w2, w3, hbm⟩
    · rw [if_neg hb1, if_neg hb2]
      obtain ⟨w1, w2, w3⟩ := upd_final_rel (s := s) hw1 hw2 hlev
        (by omega) (by omega) (hLevel_coe_nat i) (hLevel_coe_nat i)
      exact ⟨w1, w2, w3, hbm⟩

theorem rel_assignLoop (c1 c2 : Conflict) (radius i : Nat) (L : List Nat) :
    ∀ {st1 st2 : PState}, Rel st1 st2 →
    Rel (assignLoop c1 radius i st1 L) (assignLoop c2 radius i st2 L) := by
  induction L with
  | nil => intro st1 st2 hr; exact hr
  | cons s L ih =>
      intro st1 st2 hr
      unfold assignLoop
      rw [List.foldl_cons, List.foldl_cons]
      exact ih (rel_assignVertex c1 c2 radius i s hr)

theorem rel_islandStep (c1 c2 : Conflict) (k radius i : Nat) (L : List Nat)
    {st1 st2 : PState} (hr : Rel st1 st2) :
    Rel (islandStep c1 k radius i st1 L).1 (islandStep c2 k radius i st2 L).1 ∧
    (islandStep c1 k radius i st1 L).2 = (islandStep c2 k radius i st2 L).2 := by
  obtain ⟨hg, hl⟩ := rel_getNextLayer k L hr
  unfold islandStep
  dsimp only
  rw [hl]
  exact ⟨rel_assignLoop c1 c2 radius i _ hg, rfl⟩

theorem rel_roundLoop (c1 c2 : Conflict) (k radius : Nat) :
    ∀ (Ls : List (List Nat)) (i : Nat) {st1 st2 : PState}, Rel st1 st2 →
    Rel (roundLoop c1 k radius i st1 Ls).1 (roundLoop c2 k radius i st2 Ls).1 ∧
    (roundLoop c1 k radius i st1 Ls).2 = (roundLoop c2 k radius i st2 Ls).2 := by
  intro Ls
  induction Ls with
  | nil => intro i st1 st2 hr; exact ⟨hr, rfl⟩
  | cons L Ls ih =>
      intro i st1 st2 hr
      obtain ⟨h1, h2⟩ := rel_islandStep c1 c2 k radius i L hr
      unfold roundLoop
      dsimp only
      obtain ⟨h3, h4⟩ := ih (i + 1) h1
      rw [h2, h4]
      exact ⟨h3, rfl⟩

theorem rel_runRounds (c1 c2 : Conflict) (k : Nat) :
    ∀ (r radius : Nat) (Ls : List (List Nat)) {st1 st2 : PState}, Rel st1 st2 →
    Rel (runRounds c1 k radius r st1 Ls).1 (runRounds c2 k radius r st2 Ls).1 ∧
    (runRounds c1 k radius r st1 Ls).2 = (runRounds c2 k radius r st2 Ls).2 := by
  intro r
  induction r with
  | zero => intro radius Ls st1 st2 hr; exact ⟨hr, rfl⟩
  | succ r ih =>
      intro radius Ls st1 st2 hr
      obtain ⟨h1, h2⟩ := rel_roundLoop c1 c2 k radius Ls 0 hr
      unfold runRounds
      dsimp only
      rw [h2]
      exact ih (radius + 1) _ h1

theorem wfH_initLoop (cliques : List (List Nat)) : ∀ (i : Nat) (st : PState),
    wfH st → wfH (initLoop i st cliques) := by
  induction cliques with
  | nil => intro i st hw; exact hw
  | cons C Cs ih =>
      intro i st hw
      unfold initLoop
      refine ih (i + 1) _ ?_
      clear ih
      induction C generalizing st with
      | nil => exact hw
      | cons c C ihc =>
          rw [List.foldl_cons]
          refine ihc _ ?_
          unfold initMember
          split
          · exact hw
          · intro x
            dsimp only
            unfold upd
            split
            · exact Int.le_trans (by omega) (Int.ofNat_nonneg i)
            · exact hw x

/-- Helper for the independence results: the two runs of the generic
driver with arbitrary conflict resolvers produce the same layers and
indistinguishable states. -/
theorem runG_rel (c1 c2 : Conflict) (k q : Nat) (cliques : List (List Nat)) :
    Rel (runG c1 k q cliques).1 (runG c2 k q cliques).1 ∧
    (runG c1 k q cliques).2 = (runG c2 k q cliques).2 := by
  unfold runG
  refine rel_runRounds c1 c2 k (q / 2) 1 cliques ?_
  have hw : wfH (initLoop 0 initState cliques) :=
    wfH_initLoop cliques 0 initState (fun x => le_refl (-3))
  exact ⟨hw, hw, fun x => rfl, fun v => rfl⟩

end Kmerspace
